import Mathlib

/-! The history ring of `history.c`


A shallow embedding of the command/search history of `src/history.c` and the
properties of its ring buffer and navigation.

Conventions of the embedding:

* a C string is a `String`; a `char *` that may be `NULL` is an `Option String`;
* `short` values are integers kept in the range of 16 bits, a store into a
  `short` goes through `Short.ofInt`;
* an access outside the allocated slot array is undefined behaviour in C and is
  reported as `Res.fault`; a loop whose termination is not structural takes a
  fuel argument and reports `Res.timeout` when the fuel is used up.
-/

namespace NeoHistory

/-! ## Outcomes -/

/-- Outcome of running a piece of the C code. -/
inductive Res (α : Type) where
  | ok (a : α)
  | fault
  | timeout
deriving DecidableEq, Repr

/-- Sequencing of outcomes. -/
def Res.bind {α β : Type} (r : Res α) (f : α → Res β) : Res β :=
  match r with
  | .ok a => f a
  | .fault => .fault
  | .timeout => .timeout

instance : Monad Res where
  pure := Res.ok
  bind := Res.bind

/-! ## Machine integers -/

/-- A C `short`: a 16-bit two's complement integer. -/
structure Short where
  val : Int
  lo : -32768 ≤ val
  hi : val ≤ 32767
deriving DecidableEq, Repr

/-- Conversion of an `int` to `short` (what a store into a `short` does). -/
def Short.ofInt (x : Int) : Short :=
  ⟨(x + 32768) % 65536 - 32768, by omega, by omega⟩

/-! ## Strings (mutt/string.c) -/

/-- Modelled from the spec: the macro `NONULL` (mutt/string.h is not under
src/); a missing string reads as the empty string, which is how the spec speaks
of an empty slot giving an empty result. -/
def NONULL (p : Option String) : String :=
  match p with
  | some s => s
  | none => ""

/-- Modelled from the spec: `mutt_str_strdup` (mutt/string.c is not under src/).
A slot is an optional owned string; the copy of an empty text is no string at
all, so that a slot never owns an empty string. -/
def mutt_str_strdup (s : String) : Option String :=
  if s = "" then none else some s

/-- The C library function `strcmp` on the characters of two strings: `0` when
they are equal, otherwise the difference at the first place where they
differ. -/
def strcmp : List Char → List Char → Int
  | [], [] => 0
  | [], _ :: _ => -1
  | _ :: _, [] => 1
  | a :: as, b :: bs => if a = b then strcmp as bs else (a.toNat : Int) - (b.toNat : Int)

/-- Modelled from the spec: `mutt_str_strcmp` (mutt/string.c is not under src/):
exact comparison of the two texts, a missing one counting as empty. -/
def mutt_str_strcmp (a : Option String) (b : String) : Int :=
  strcmp (NONULL a).data b.data

/-! ## Data model -/

/-- The `struct History` of history.c: the slot array and the two markers. -/
structure History where
  hist : List (Option String)
  cur : Short
  last : Short
deriving DecidableEq, Repr

/-- The file-scope and global variables history.c works on.

`Histories` and `OldSize` are the statics of history.c. `History`,
`SaveHistory`, `OPT_HISTORY_REMOVE_DUPS` and the file named by `HistoryFile`
are declared outside src/ and are taken as they are found: `History` is the
configured capacity, `HistoryFile` the lines of the file (`none` when there is
no such file). `save_n` is the `static int n` of `save_history`. `can_write`
and `can_mktemp` say whether opening the history file for writing and creating
the temporary file succeed; `errors` collects what is reported to the user. -/
structure Globals where
  Histories : List History
  OldSize : Int
  History : Short
  SaveHistory : Short
  OPT_HISTORY_REMOVE_DUPS : Bool
  HistoryFile : Option (List String)
  save_n : Int
  can_write : Bool
  can_mktemp : Bool
  errors : List String
deriving DecidableEq, Repr

/-- The number of history classes: `Histories` is declared
`static struct History Histories[HC_LAST]`, so `HC_LAST` is its length (the
enumeration itself is in history.h, not under src/). -/
def HC_LAST (g : Globals) : Nat := g.Histories.length

/-- The function `get_history`. -/
def get_history (g : Globals) (hclass : Nat) : Option History :=
  if hclass ≥ HC_LAST g then none else g.Histories[hclass]?

/-- Store through the pointer returned by `get_history`. -/
def put_history (g : Globals) (hclass : Nat) (h : History) : Globals :=
  { g with Histories := g.Histories.set hclass h }

/-- Read of `hist[i]`. -/
def hist_get (hist : List (Option String)) (i : Int) : Res (Option String) :=
  if 0 ≤ i ∧ i < hist.length then .ok (hist.getD i.toNat none) else .fault

/-- Write of `hist[i]`. -/
def hist_set (hist : List (Option String)) (i : Int) (v : Option String) :
    Res (List (Option String)) :=
  if 0 ≤ i ∧ i < hist.length then .ok (hist.set i.toNat v) else .fault

/-- The function `init_history`, applied to one ring of the registry. Freed
and never allocated arrays are both the empty array. -/
def init_history (g : Globals) (h : History) : History :=
  let hist := if g.OldSize ≠ 0 then [] else h.hist
  let hist :=
    if g.History.val ≠ 0 then List.replicate (g.History.val + 1).toNat none else hist
  { hist := hist, cur := Short.ofInt 0, last := Short.ofInt 0 }

/-- The function `mutt_init_history`. -/
def mutt_init_history (g : Globals) : Globals :=
  if g.History.val = g.OldSize then g
  else
    { g with
      Histories := g.Histories.map (init_history g)
      OldSize := g.History.val }

/-! ## The dedup index (`dup_hash_inc`, `dup_hash_dec`) -/

/-- Modelled from the spec: the hash table of mutt/hash.c (not under src/), as
used here: a mapping from string content to a count of occurrences. -/
abbrev Hash := List (String × Nat)

/-- Modelled from the spec: `mutt_hash_find_elem` (mutt/hash.c), the count
stored for a key, if the key is present. -/
def mutt_hash_find_elem (t : Hash) (s : String) : Option Nat :=
  (t.find? (fun e => e.1 = s)).map (fun e => e.2)

/-- Modelled from the spec: `mutt_hash_delete` (mutt/hash.c), which removes the
key entirely. -/
def mutt_hash_delete (t : Hash) (s : String) : Hash :=
  t.filter (fun e => e.1 ≠ s)

/-- Modelled from the spec: storing a count for a key, which is what
`mutt_hash_insert` does for an absent key and the assignment to `elem->data`
does for a present one. -/
def mutt_hash_store (t : Hash) (s : String) (count : Nat) : Hash :=
  (s, count) :: mutt_hash_delete t s

/-- The function `dup_hash_dec`. -/
def dup_hash_dec (dup_hash : Hash) (s : String) : Hash × Int :=
  match mutt_hash_find_elem dup_hash s with
  | none => (dup_hash, -1)
  | some count =>
    if count ≤ 1 then (mutt_hash_delete dup_hash s, 0)
    else (mutt_hash_store dup_hash s (count - 1), ((count - 1 : Nat) : Int))

/-- The function `dup_hash_inc`. -/
def dup_hash_inc (dup_hash : Hash) (s : String) : Hash × Int :=
  match mutt_hash_find_elem dup_hash s with
  | none => (mutt_hash_store dup_hash s 1, 1)
  | some count => (mutt_hash_store dup_hash s (count + 1), ((count + 1 : Nat) : Int))

/-! ## The history file (`shrink_histfile`, `save_history`) -/

/-- The C library predicate `isspace` in the C locale. -/
def isspace (c : Char) : Bool :=
  c = ' ' || c = '\t' || c = '\n' || c = '\x0b' || c = '\x0c' || c = '\r'

/-- Value of a run of decimal digits. -/
def digits_value (ds : List Char) : Nat :=
  ds.foldl (fun a c => 10 * a + (c.toNat - 48)) 0

/-- Modelled from the spec: `sscanf(linebuf, "%d:%n", &hclass, &read)` of the C
library. White space is skipped, an optional sign and a run of digits give the
class number, then a literal `:` is required for `%n` to store the number of
characters consumed. The result is the return value of `sscanf`, the number
stored by `%d` and the number stored by `%n` (`none` when nothing is stored). -/
def sscanf_class (linebuf : String) : Int × Int × Option Nat :=
  let cs := linebuf.data
  let body := cs.dropWhile isspace
  let nsp := cs.length - body.length
  match body with
  | [] => (-1, 0, none)
  | c :: rest =>
    let signed := c = '+' || c = '-'
    let after := if signed then rest else body
    let ds := after.takeWhile Char.isDigit
    let tail := after.dropWhile Char.isDigit
    if ds = [] then (0, 0, none)
    else
      let v : Int := if c = '-' then -((digits_value ds : Nat) : Int) else (digits_value ds : Nat)
      let used := nsp + (if signed then 1 else 0) + ds.length
      match tail with
      | ':' :: _ => (1, v, some (used + 1))
      | _ => (1, v, none)

/-- The test that opens each of the three reading loops:
`sscanf(...) < 1 || read == 0 || *(p = linebuf + strlen(linebuf) - 1) != '|' || hclass < 0`.
`read` is the value of the variable before the line (`none` while it has never
been assigned; reading it then is undefined). The result is the class number of
a well-formed line, or `none` for a malformed one, with the new value of
`read`. -/
def parse_line (read : Option Nat) (linebuf : String) :
    Res (Option Int × Option Nat) :=
  let r := sscanf_class linebuf
  if r.1 < 1 then .ok (none, read)
  else
    let read := if r.2.2.isSome then r.2.2 else read
    match read with
    | none => .fault
    | some rd =>
      if rd = 0 then .ok (none, read)
      else if linebuf.data.getLast? ≠ some '|' then .ok (none, read)
      else if r.2.1 < 0 then .ok (none, read)
      else .ok (some r.2.1, read)

/-- The text `linebuf + read` once the final `|` has been overwritten by the
terminator. A `read` left over from an earlier, longer line may point past the
terminator, where the buffer holds no defined text. -/
def line_text (linebuf : String) (read : Nat) : Res String :=
  let cs := linebuf.data
  if read ≤ cs.length - 1 then .ok (String.mk ((cs.take (cs.length - 1)).drop read))
  else if read = cs.length then .ok ""
  else .fault

/-- The local variables of `shrink_histfile` that live across its loops. -/
structure ShrinkState where
  read : Option Nat
  n : List Int
  dup_hashes : List Hash
  regen_file : Bool
deriving DecidableEq, Repr

/-- The message of `mutt_error` for a malformed line. -/
def bad_format (line : Nat) : String :=
  "Bad history file format (line " ++ toString line ++ ")"

/-- First reading loop of `shrink_histfile`: counts the lines of each class and
feeds the dedup index. `line` is the number of lines read so far. The result is
`Except.error k` when line `k` is malformed. -/
def shrink_count (g : Globals) :
    List String → Nat → ShrinkState → Res (Except Nat ShrinkState)
  | [], _, st => .ok (.ok st)
  | linebuf :: rest, line, st =>
    match parse_line st.read linebuf with
    | .fault => .fault
    | .timeout => .timeout
    | .ok (none, _) => .ok (.error (line + 1))
    | .ok (some hclass, read) =>
      let st := { st with read := read }
      if hclass ≥ (HC_LAST g : Int) then shrink_count g rest (line + 1) st
      else
        match line_text linebuf (read.getD 0) with
        | .fault => .fault
        | .timeout => .timeout
        | .ok text =>
          let c := hclass.toNat
          let inc := dup_hash_inc (st.dup_hashes.getD c []) text
          if g.OPT_HISTORY_REMOVE_DUPS && decide (inc.2 > 1) then
            shrink_count g rest (line + 1)
              { st with dup_hashes := st.dup_hashes.set c inc.1, regen_file := true }
          else
            let hashes :=
              if g.OPT_HISTORY_REMOVE_DUPS then st.dup_hashes.set c inc.1 else st.dup_hashes
            shrink_count g rest (line + 1)
              { st with dup_hashes := hashes, n := st.n.set c (st.n.getD c 0 + 1) }

/-- Second reading loop of `shrink_histfile`: writes the lines that are kept to
the temporary file `tmp`. The result is the content of the temporary file, with
the number of the malformed line at which the loop was left, if any. -/
def shrink_write (g : Globals) :
    List String → Nat → ShrinkState → List String → Res (List String × Option Nat)
  | [], _, _, tmp => .ok (tmp, none)
  | linebuf :: rest, line, st, tmp =>
    match parse_line st.read linebuf with
    | .fault => .fault
    | .timeout => .timeout
    | .ok (none, _) => .ok (tmp, some (line + 1))
    | .ok (some hclass, read) =>
      let st := { st with read := read }
      if hclass ≥ (HC_LAST g : Int) then shrink_write g rest (line + 1) st tmp
      else
        match line_text linebuf (read.getD 0) with
        | .fault => .fault
        | .timeout => .timeout
        | .ok text =>
          let c := hclass.toNat
          let dec := dup_hash_dec (st.dup_hashes.getD c []) text
          if g.OPT_HISTORY_REMOVE_DUPS && decide (dec.2 > 0) then
            shrink_write g rest (line + 1) { st with dup_hashes := st.dup_hashes.set c dec.1 } tmp
          else
            let hashes :=
              if g.OPT_HISTORY_REMOVE_DUPS then st.dup_hashes.set c dec.1 else st.dup_hashes
            let count := st.n.getD c 0
            let st := { st with dup_hashes := hashes, n := st.n.set c (count - 1) }
            if count ≤ g.SaveHistory.val then
              shrink_write g rest (line + 1) st (tmp ++ [linebuf])
            else shrink_write g rest (line + 1) st tmp

/-- The function `shrink_histfile`. -/
def shrink_histfile (g : Globals) : Res Globals :=
  match g.HistoryFile with
  | none => .ok g
  | some file =>
    let st0 : ShrinkState :=
      { read := none
        n := List.replicate (HC_LAST g) 0
        dup_hashes := List.replicate (HC_LAST g) []
        regen_file := false }
    match shrink_count g file 0 st0 with
    | .fault => .fault
    | .timeout => .timeout
    | .ok (.error line) => .ok { g with errors := g.errors ++ [bad_format line] }
    | .ok (.ok st) =>
      let regen_file := st.regen_file || st.n.any (fun k => decide (k > g.SaveHistory.val))
      if regen_file then
        if g.can_mktemp then
          match shrink_write g file 0 st [] with
          | .fault => .fault
          | .timeout => .timeout
          | .ok (tmp, bad) =>
            let errors :=
              match bad with
              | some line => g.errors ++ [bad_format line]
              | none => g.errors
            if g.can_write then .ok { g with HistoryFile := some tmp, errors := errors }
            else .ok { g with errors := errors }
        else .ok { g with errors := g.errors ++ ["mutt_mktemp"] }
      else .ok g

/-- Modelled from the spec: `mutt_convert_string` (charset.c is not under src/),
the character-set conversion between `Charset` and utf-8. The model fixes the
configured charset to utf-8, for which the conversion leaves the text as it
is. -/
def mutt_convert_string (s : String) : String := s

/-- The line that `save_history` writes: `"<histclass>:<string>|"`, the text
without its newline characters. -/
def history_line (hclass : Nat) (tmp : String) : String :=
  toString hclass ++ ":" ++ String.mk (tmp.data.filter (fun c => c ≠ '\n')) ++ "|"

/-- The function `save_history`. -/
def save_history (g : Globals) (hclass : Nat) (s : String) : Res Globals :=
  if s = "" then .ok g
  else if !g.can_write then .ok { g with errors := g.errors ++ ["fopen"] }
  else
    let tmp := mutt_convert_string s
    let file := (g.HistoryFile.getD []) ++ [history_line hclass tmp]
    let g := { g with HistoryFile := some file, save_n := g.save_n - 1 }
    if g.save_n < 0 then
      shrink_histfile { g with save_n := g.SaveHistory.val }
    else .ok g

/-! ## The ring (`remove_history_dups`, `mutt_history_add`, navigation) -/

/-- First loop of `remove_history_dups`:
`while (source < h->last)`, dropping the matches and compacting up. The fuel is
the number of iterations that may still be taken. -/
def dups_up (s : String) (last : Int) :
    Nat → Int → Int → List (Option String) → Res (Int × Int × List (Option String))
  | 0, source, dest, hist =>
    if source < last then .timeout else .ok (source, dest, hist)
  | fuel + 1, source, dest, hist =>
    if source < last then
      match hist_get hist source with
      | .fault => .fault
      | .timeout => .timeout
      | .ok e =>
        if mutt_str_strcmp e s = 0 then
          match hist_set hist source none with
          | .fault => .fault
          | .timeout => .timeout
          | .ok hist => dups_up s last fuel (source + 1) dest hist
        else
          match hist_set hist dest e with
          | .fault => .fault
          | .timeout => .timeout
          | .ok hist => dups_up s last fuel (source + 1) (dest + 1) hist
    else .ok (source, dest, hist)

/-- The two filling loops of `remove_history_dups`:
`while (i > bound) h->hist[i--] = NULL;`. -/
def fill_null (bound : Int) : Nat → Int → List (Option String) → Res (Int × List (Option String))
  | 0, i, hist => if i > bound then .timeout else .ok (i, hist)
  | fuel + 1, i, hist =>
    if i > bound then
      match hist_set hist i none with
      | .fault => .fault
      | .timeout => .timeout
      | .ok hist => fill_null bound fuel (i - 1) hist
    else .ok (i, hist)

/-- Third loop of `remove_history_dups`:
`while (source > old_last)`, dropping the matches and compacting down. -/
def dups_down (s : String) (old_last : Int) :
    Nat → Int → Int → List (Option String) → Res (Int × Int × List (Option String))
  | 0, source, dest, hist =>
    if source > old_last then .timeout else .ok (source, dest, hist)
  | fuel + 1, source, dest, hist =>
    if source > old_last then
      match hist_get hist source with
      | .fault => .fault
      | .timeout => .timeout
      | .ok e =>
        if mutt_str_strcmp e s = 0 then
          match hist_set hist source none with
          | .fault => .fault
          | .timeout => .timeout
          | .ok hist => dups_down s old_last fuel (source - 1) dest hist
        else
          match hist_set hist dest e with
          | .fault => .fault
          | .timeout => .timeout
          | .ok hist => dups_down s old_last fuel (source - 1) (dest - 1) hist
    else .ok (source, dest, hist)

/-- The body of `remove_history_dups` on the ring `h` of a class. Each loop is
given as fuel the distance its counter has to cover. -/
def remove_dups_ring (g : Globals) (h : History) (s : String) : Res History := do
  let (source, dest, hist) ← dups_up s h.last.val h.last.val.toNat 0 0 h.hist
  let e ← hist_get hist source
  let hist ← hist_set hist dest e
  let old_last := h.last.val
  let last := Short.ofInt dest
  let (_, hist) ← fill_null last.val (source - last.val).toNat source hist
  let (_, dest, hist) ←
    dups_down s old_last (g.History.val - old_last).toNat g.History.val g.History.val hist
  let (_, hist) ← fill_null old_last (dest - old_last).toNat dest hist
  pure { hist := hist, cur := h.cur, last := last }

/-- The function `remove_history_dups`. -/
def remove_history_dups (g : Globals) (hclass : Nat) (s : String) : Res Globals :=
  match get_history g hclass with
  | none => .ok g
  | some h =>
    if g.History.val = 0 then .ok g
    else do
      let h ← remove_dups_ring g h s
      pure (put_history g hclass h)

/-- The test `*s != ' '`, for a non-empty `s`. -/
def starts_with_space (s : String) : Bool :=
  s.data.head? = some ' '

/-- The index just before `h->last`, as `mutt_history_add` computes it:
`prev = h->last - 1; if (prev < 0) prev = History;`. -/
def prev_index (g : Globals) (h : History) : Int :=
  if h.last.val - 1 < 0 then g.History.val else h.last.val - 1

/-- The end of an accepted `mutt_history_add`:
`mutt_str_replace(&h->hist[h->last++], s); if (h->last > History) h->last = 0;`
followed by `h->cur = h->last`. -/
def add_store (g : Globals) (hclass : Nat) (s : String) : Res Globals :=
  match get_history g hclass with
  | none => .fault
  | some h =>
    match hist_set h.hist h.last.val (mutt_str_strdup s) with
    | .fault => .fault
    | .timeout => .timeout
    | .ok hist =>
      let last := Short.ofInt (h.last.val + 1)
      let last := if last.val > g.History.val then Short.ofInt 0 else last
      .ok (put_history g hclass { hist := hist, cur := last, last := last })

/-- The step `if (OPT_HISTORY_REMOVE_DUPS) remove_history_dups(hclass, s);` of
`mutt_history_add`. -/
def add_dedup (g : Globals) (hclass : Nat) (s : String) : Res Globals :=
  if g.OPT_HISTORY_REMOVE_DUPS then remove_history_dups g hclass s else .ok g

/-- The step `if (save && SaveHistory) save_history(hclass, s);` of
`mutt_history_add`. -/
def add_save (g : Globals) (hclass : Nat) (s : String) (save : Bool) : Res Globals :=
  if save && decide (g.SaveHistory.val ≠ 0) then save_history g hclass s else .ok g

/-- The function `mutt_history_add`. -/
def mutt_history_add (g : Globals) (hclass : Nat) (s : String) (save : Bool) : Res Globals :=
  match get_history g hclass with
  | none => .ok g
  | some h =>
    if g.History.val = 0 then .ok g
    else if s = "" then .ok (put_history g hclass { h with cur := h.last })
    else if starts_with_space s then .ok (put_history g hclass { h with cur := h.last })
    else
      match hist_get h.hist (prev_index g h) with
      | .fault => .fault
      | .timeout => .timeout
      | .ok e =>
        if e = none ∨ mutt_str_strcmp e s ≠ 0 then
          match add_dedup g hclass s with
          | .fault => .fault
          | .timeout => .timeout
          | .ok g =>
            match add_save g hclass s save with
            | .fault => .fault
            | .timeout => .timeout
            | .ok g => add_store g hclass s
        else .ok (put_history g hclass { h with cur := h.last })

/-- The do-while loop of `mutt_history_next`; the result is the final `next`. -/
def next_walk (g : Globals) (h : History) : Nat → Int → Res Int
  | 0, _ => .timeout
  | fuel + 1, next =>
    let next := next + 1
    let next := if next > g.History.val then 0 else next
    if next = h.last.val then .ok next
    else
      match hist_get h.hist next with
      | .fault => .fault
      | .timeout => .timeout
      | .ok e => if e = none then next_walk g h fuel next else .ok next

/-- The do-while loop of `mutt_history_prev`; the result is the final `prev`. -/
def prev_walk (g : Globals) (h : History) : Nat → Int → Res Int
  | 0, _ => .timeout
  | fuel + 1, prev =>
    let prev := prev - 1
    let prev := if prev < 0 then g.History.val else prev
    if prev = h.last.val then .ok prev
    else
      match hist_get h.hist prev with
      | .fault => .fault
      | .timeout => .timeout
      | .ok e => if e = none then prev_walk g h fuel prev else .ok prev

/-- The function `mutt_history_next`; `fuel` bounds the number of turns of its
loop. The result is the new state and the returned string. -/
def mutt_history_next (fuel : Nat) (g : Globals) (hclass : Nat) : Res (Globals × String) :=
  match get_history g hclass with
  | none => .ok (g, "")
  | some h =>
    if g.History.val = 0 then .ok (g, "")
    else do
      let next ← next_walk g h fuel h.cur.val
      let cur := Short.ofInt next
      let e ← hist_get h.hist cur.val
      pure (put_history g hclass { h with cur := cur }, NONULL e)

/-- The function `mutt_history_prev`; `fuel` bounds the number of turns of its
loop. The result is the new state and the returned string. -/
def mutt_history_prev (fuel : Nat) (g : Globals) (hclass : Nat) : Res (Globals × String) :=
  match get_history g hclass with
  | none => .ok (g, "")
  | some h =>
    if g.History.val = 0 then .ok (g, "")
    else do
      let prev ← prev_walk g h fuel h.cur.val
      let cur := Short.ofInt prev
      let e ← hist_get h.hist cur.val
      pure (put_history g hclass { h with cur := cur }, NONULL e)

/-- The function `mutt_reset_history_state`. -/
def mutt_reset_history_state (g : Globals) (hclass : Nat) : Globals :=
  match get_history g hclass with
  | none => g
  | some h =>
    if g.History.val = 0 then g
    else put_history g hclass { h with cur := h.last }

/-- The function `mutt_history_at_scratch`. -/
def mutt_history_at_scratch (g : Globals) (hclass : Nat) : Bool :=
  match get_history g hclass with
  | none => false
  | some h =>
    if g.History.val = 0 then false
    else decide (h.cur = h.last)

/-- The function `mutt_history_save_scratch`. -/
def mutt_history_save_scratch (g : Globals) (hclass : Nat) (s : String) : Res Globals :=
  match get_history g hclass with
  | none => .ok g
  | some h =>
    if g.History.val = 0 then .ok g
    else do
      let hist ← hist_set h.hist h.last.val (mutt_str_strdup s)
      pure (put_history g hclass { h with hist := hist })

/-- The reading loop of `mutt_read_histfile`. `line` is the number of lines read
so far; `read` is reset to `0` before each line. The result is the state
reached, with the number of the malformed line at which the loop was left, if
any. -/
def read_lines : List String → Nat → Globals → Res (Globals × Option Nat)
  | [], _, g => .ok (g, none)
  | linebuf :: rest, line, g =>
    match parse_line (some 0) linebuf with
    | .fault => .fault
    | .timeout => .timeout
    | .ok (none, _) => .ok (g, some (line + 1))
    | .ok (some hclass, read) =>
      if hclass ≥ (HC_LAST g : Int) then read_lines rest (line + 1) g
      else
        match line_text linebuf (read.getD 0) with
        | .fault => .fault
        | .timeout => .timeout
        | .ok text =>
          match mutt_str_strdup text with
          | none => read_lines rest (line + 1) g
          | some p =>
            match mutt_history_add g hclass.toNat (mutt_convert_string p) false with
            | .fault => .fault
            | .timeout => .timeout
            | .ok g => read_lines rest (line + 1) g

/-- The function `mutt_read_histfile`. A history file that cannot be opened is
`HistoryFile = none`. -/
def mutt_read_histfile (g : Globals) : Res Globals :=
  match g.HistoryFile with
  | none => .ok g
  | some file =>
    match read_lines file 0 g with
    | .fault => .fault
    | .timeout => .timeout
    | .ok (g, none) => .ok g
    | .ok (g, some line) => .ok { g with errors := g.errors ++ [bad_format line] }

/-! ## Well-formed states -/

/-- The ring `h` is the ring of class `hclass` in `g`, the history is enabled
with capacity `N = g.History ≥ 1`, and the slot array has its `N + 1` slots. -/
def RingSlots (g : Globals) (hclass : Nat) (h : History) : Prop :=
  get_history g hclass = some h ∧ 1 ≤ g.History.val ∧
    (h.hist.length : Int) = g.History.val + 1

/-- The index `i` is one of the slots `0..N`. -/
def InRing (g : Globals) (i : Int) : Prop :=
  0 ≤ i ∧ i ≤ g.History.val

/-- Every line of the history file on which `sscanf` converts a class number
also has the `:` after it, so that `%n` is stored: on such a file the reading
loops of `shrink_histfile` never use a `read` that was not set by the line at
hand. -/
def histfile_defined (g : Globals) : Prop :=
  ∀ file, g.HistoryFile = some file →
    ∀ l ∈ file, (sscanf_class l).1 < 1 ∨ (sscanf_class l).2.2 ≠ none

/-- The value left in `h->last` by `h->last++; if (h->last > History) h->last = 0;`. -/
def next_last (g : Globals) (h : History) : Short :=
  if (Short.ofInt (h.last.val + 1)).val > g.History.val then Short.ofInt 0
  else Short.ofInt (h.last.val + 1)

/-- The value of `last` (and `cur`) after `k` accepted insertions into a fresh
ring: each insertion stores `last + 1` into the `short` and resets it to `0`
when it exceeds the capacity. -/
def fill_last (g : Globals) (k : Nat) : Short :=
  if (Short.ofInt (k : Int)).val > g.History.val then Short.ofInt 0 else Short.ofInt (k : Int)

/-- The ring after the texts `ts` (at most `N + 1` of them) have been inserted
into a fresh ring: they fill the slots from `0` on. -/
def filled (g : Globals) (ts : List String) : History :=
  { hist := ts.map some ++ List.replicate ((g.History.val + 1).toNat - ts.length) none
    cur := fill_last g ts.length
    last := fill_last g ts.length }

/-- The file code leaves the rings and the configuration alone: `g'` differs
from `g` at most in the history file, the counter of `save_history` and the
reported errors. -/
def same_rings (g g' : Globals) : Prop :=
  g'.Histories = g.Histories ∧ g'.OldSize = g.OldSize ∧ g'.History = g.History ∧
    g'.SaveHistory = g.SaveHistory ∧
    g'.OPT_HISTORY_REMOVE_DUPS = g.OPT_HISTORY_REMOVE_DUPS ∧
    g'.can_write = g.can_write ∧ g'.can_mktemp = g.can_mktemp

/-! ## Navigation as the specification words it -/

/-- The indices met when walking down from `p - 1`, wrapping `0 → N`: the first
`n` of them. -/
def down_seq (g : Globals) (p : Int) (n : Nat) : List Int :=
  (List.range n).map (fun k => (p - ((k + 1 : Nat) : Int)) % (g.History.val + 1))

/-- The indices met when walking up from `p + 1`, wrapping `N → 0`: the first
`n` of them. -/
def up_seq (g : Globals) (p : Int) (n : Nat) : List Int :=
  (List.range n).map (fun k => (p + ((k + 1 : Nat) : Int)) % (g.History.val + 1))

/-- A walk stops at `j` when `j` is the insertion point or `slots[j]` is not
empty. -/
def walk_stops (h : History) (j : Int) : Bool :=
  decide (j = h.last.val) || (h.hist.getD j.toNat none).isSome

/-- The first index met when walking down from `cur - 1` at which the walk
stops, looking at `N + 1` indices, that is once around the ring. -/
def first_met_down (g : Globals) (h : History) : Option Int :=
  (down_seq g h.cur.val (g.History.val + 1).toNat).find? (walk_stops h)

/-- The first index met when walking up from `cur + 1` at which the walk
stops, looking at `N + 1` indices, that is once around the ring. -/
def first_met_up (g : Globals) (h : History) : Option Int :=
  (up_seq g h.cur.val (g.History.val + 1).toNat).find? (walk_stops h)

/-! ## Sequences of calls -/

/-- One call into the history of a class. -/
inductive Call where
  | add (s : String) (save : Bool)
  | dups (s : String)
  | scratch (s : String)
  | reset
  | prev
  | next
deriving DecidableEq, Repr

/-- Runs one call; the result is the new state together with the strings the
call returned (one for a navigation call, none for the others). -/
def run_call (fuel : Nat) (g : Globals) (hclass : Nat) : Call → Res (Globals × List String)
  | .add s save =>
    match mutt_history_add g hclass s save with
    | .ok g => .ok (g, [])
    | .fault => .fault
    | .timeout => .timeout
  | .dups s =>
    match remove_history_dups g hclass s with
    | .ok g => .ok (g, [])
    | .fault => .fault
    | .timeout => .timeout
  | .scratch s =>
    match mutt_history_save_scratch g hclass s with
    | .ok g => .ok (g, [])
    | .fault => .fault
    | .timeout => .timeout
  | .reset => .ok (mutt_reset_history_state g hclass, [])
  | .prev =>
    match mutt_history_prev fuel g hclass with
    | .ok (g, r) => .ok (g, [r])
    | .fault => .fault
    | .timeout => .timeout
  | .next =>
    match mutt_history_next fuel g hclass with
    | .ok (g, r) => .ok (g, [r])
    | .fault => .fault
    | .timeout => .timeout

/-- Runs a sequence of calls on one class, collecting the returned strings in
order. -/
def run_calls (fuel : Nat) (g : Globals) (hclass : Nat) :
    List Call → Res (Globals × List String)
  | [] => .ok (g, [])
  | c :: cs =>
    match run_call fuel g hclass c with
    | .fault => .fault
    | .timeout => .timeout
    | .ok (g, out) =>
      match run_calls fuel g hclass cs with
      | .fault => .fault
      | .timeout => .timeout
      | .ok (g, outs) => .ok (g, out ++ outs)

/-- The registry as the program starts: `HC_LAST = classes` rings that were
never allocated, `OldSize = 0`, and the configuration given. -/
def startup (classes : Nat) (History SaveHistory : Short) (dedup : Bool)
    (file : Option (List String)) : Globals :=
  { Histories := List.replicate classes { hist := [], cur := Short.ofInt 0, last := Short.ofInt 0 }
    OldSize := 0
    History := History
    SaveHistory := SaveHistory
    OPT_HISTORY_REMOVE_DUPS := dedup
    HistoryFile := file
    save_n := 0
    can_write := true
    can_mktemp := true
    errors := [] }

/-- A freshly initialised registry: `mutt_init_history` run at startup. -/
def fresh (classes : Nat) (History SaveHistory : Short) (dedup : Bool)
    (file : Option (List String)) : Globals :=
  mutt_init_history (startup classes History SaveHistory dedup file)

/-! ## Example states -/

/-- A state in which `mutt_history_add` rejects a text that repeats the previous
entry. -/
def rejected_example : Globals :=
  { Histories := [{ hist := [some "a", none, none], cur := Short.ofInt 0, last := Short.ofInt 1 }]
    OldSize := 2
    History := Short.ofInt 2
    SaveHistory := Short.ofInt 5
    OPT_HISTORY_REMOVE_DUPS := false
    HistoryFile := some ["0:a|"]
    save_n := 3
    can_write := true
    can_mktemp := true
    errors := [] }

/-- A state with two classes, the second one being browsed. -/
def scratch_example : Globals :=
  { Histories :=
      [{ hist := [some "x", none, none], cur := Short.ofInt 1, last := Short.ofInt 1 },
       { hist := [some "a", some "b", some "old"], cur := Short.ofInt 0, last := Short.ofInt 2 }]
    OldSize := 2
    History := Short.ofInt 2
    SaveHistory := Short.ofInt 0
    OPT_HISTORY_REMOVE_DUPS := false
    HistoryFile := none
    save_n := 0
    can_write := true
    can_mktemp := true
    errors := [] }

/-- A full-size slot array of capacity 32767 in which the slots `0..32766` hold
`a`, `b`, `a`, `b`, ... and the last slot is empty: what 32767 insertions of
alternating texts leave in a fresh ring. -/
def overflow_hist : List (Option String) :=
  (List.range 32767).map (fun i => some (if i % 2 = 0 then "a" else "b")) ++ [none]

/-- The registry with capacity 32767, the largest `short`, whose one ring holds
`overflow_hist` with `last = cur = 32767`. -/
def overflow_example (dedup : Bool) : Globals :=
  { Histories := [{ hist := overflow_hist, cur := Short.ofInt 32767, last := Short.ofInt 32767 }]
    OldSize := 32767
    History := Short.ofInt 32767
    SaveHistory := Short.ofInt 0
    OPT_HISTORY_REMOVE_DUPS := dedup
    HistoryFile := none
    save_n := 0
    can_write := true
    can_mktemp := true
    errors := [] }

/-- Pairwise distinct accepted texts: `a`, `aa`, `aaa`, ... (`n` of them). -/
def distinct_texts (n : Nat) : List String :=
  (List.range n).map (fun i => String.mk (List.replicate (i + 1) 'a'))

/-- The configuration with capacity 32767, the largest `short`, and no ring
yet. -/
def overflow_base (dedup : Bool) : Globals :=
  { Histories := []
    OldSize := 32767
    History := Short.ofInt 32767
    SaveHistory := Short.ofInt 0
    OPT_HISTORY_REMOVE_DUPS := dedup
    HistoryFile := none
    save_n := 0
    can_write := true
    can_mktemp := true
    errors := [] }

/-- The registry with capacity 32767 and dedup enabled whose one ring has
received the 32767 texts `distinct_texts 32767`: they fill the slots `0..32766`
and `last = cur = 32767`. -/
def overflow_dedup_example : Globals :=
  { overflow_base true with
    Histories := [filled (overflow_base true) (distinct_texts 32767)] }

/-! ## The ring invariant and the live history -/

/-- The test of the compaction loops of `remove_history_dups`: the entry `e` is
not the text `s`, and is kept. -/
def keeps (s : String) (e : Option String) : Bool :=
  decide (mutt_str_strcmp e s ≠ 0)

/-- The slots left by `remove_history_dups`, for a ring whose slots below `last`
are `lo`, whose slot `last` holds `x` and whose slots above are `hi`. -/
def dedup_slots (s : String) (lo : List (Option String)) (x : Option String)
    (hi : List (Option String)) : List (Option String) :=
  lo.filter (keeps s) ++ x ::
    (List.replicate (lo.length - (lo.filter (keeps s)).length) none ++
      List.replicate (hi.length - (hi.filter (keeps s)).length) none) ++
    hi.filter (keeps s)

/-- The slots other than `slots[last]` in ring order: from just after `last`,
wrapping `N → 0`, to just before it. -/
def ring_order (h : History) : List (Option String) :=
  h.hist.drop (h.last.val.toNat + 1) ++ h.hist.take h.last.val.toNat

/-- The live history: the entries of the non-empty slots in ring order, the
oldest first. -/
def live (h : History) : List String :=
  (ring_order h).reduceOption

/-- The `n` most recent entries of a history listed oldest first. -/
def most_recent (n : Nat) (l : List String) : List String :=
  l.drop (l.length - n)

/-- The ring invariant as the specification words it: `last` is a slot, and in
ring order the non-empty slots other than `slots[last]` form one run that ends
just before `last`: no empty slot follows a non-empty one. -/
def one_run (g : Globals) (h : History) : Bool :=
  decide (0 ≤ h.last.val ∧ h.last.val ≤ g.History.val) &&
    ((ring_order h).dropWhile Option.isNone).all Option.isSome

/-- A well-formed state of the ring of a class: the ring is allocated with its
`N + 1` slots, `cur` and `last` are slots, and the ring invariant holds. -/
def well_formed (g : Globals) (hclass : Nat) (h : History) : Prop :=
  RingSlots g hclass h ∧ InRing g h.cur.val ∧ one_run g h = true

/-- The ring order left by the dedup step of `mutt_history_add`. -/
def dedup_order (g : Globals) (s : String) (l : List (Option String)) : List (Option String) :=
  if g.OPT_HISTORY_REMOVE_DUPS then
    List.replicate (g.History.val.toNat - (l.filter (keeps s)).length) none ++ l.filter (keeps s)
  else l

/-- A full ring of capacity 3 with dedup enabled: the live history is `b`, `c`,
`d` and `slots[last]` still holds the text of an older entry. -/
def dedup_example : Globals :=
  { Histories :=
      [{ hist := [some "d", some "a", some "b", some "c"], cur := Short.ofInt 1,
         last := Short.ofInt 1 }]
    OldSize := 3
    History := Short.ofInt 3
    SaveHistory := Short.ofInt 0
    OPT_HISTORY_REMOVE_DUPS := true
    HistoryFile := none
    save_n := 0
    can_write := true
    can_mktemp := true
    errors := [] }

/-! ## The dedup index in use -/

/-- The index after `k` calls of `dup_hash_inc` for the key `s`. -/
def dup_hash_inc_n (t : Hash) (s : String) : Nat → Hash
  | 0 => t
  | k + 1 => dup_hash_inc_n (dup_hash_inc t s).1 s k

/-- The values returned by `k` successive calls of `dup_hash_dec` for the key
`s`, in the order of the calls. -/
def dup_hash_dec_n (t : Hash) (s : String) : Nat → List Int
  | 0 => []
  | k + 1 => (dup_hash_dec t s).2 :: dup_hash_dec_n (dup_hash_dec t s).1 s k

/-- Every count stored in the index is at least 1, as `dup_hash_inc` and
`dup_hash_dec` leave it. -/
def counts_positive (t : Hash) : Prop :=
  ∀ k c, mutt_hash_find_elem t k = some c → 1 ≤ c

/-! ## Lines of the history file -/

/-- The class number and the text of a line, read as the loop of
`mutt_read_histfile` reads them (`read` reset to `0`, the class number up to the
`:`, the text up to the final `|`); `none` for a malformed line. -/
def line_entry (linebuf : String) : Option (Int × String) :=
  match parse_line (some 0) linebuf with
  | .ok (some hclass, some rd) =>
    match line_text linebuf rd with
    | .ok text => some (hclass, text)
    | _ => none
  | _ => none

/-- The text without its newline characters. -/
def strip_newlines (s : String) : String :=
  String.mk (s.data.filter (fun c => c ≠ '\n'))

/-! ## The history file as the specification has it -/

/-- The class and the text of a line of a recognised class (`0 ≤ class <
HC_LAST`); `none` for a line of another class and for a malformed line. -/
def entry (g : Globals) (linebuf : String) : Option (Nat × String) :=
  match line_entry linebuf with
  | some (hclass, text) => if hclass ≥ (HC_LAST g : Int) then none else some (hclass.toNat, text)
  | none => none

/-- Every line of the file has the form `<class>:<text>|`. -/
def well_formed_file (file : List String) : Prop :=
  ∀ l ∈ file, (line_entry l).isSome = true

/-- The index `t` holds the counts given by `f`: a key is present exactly when
its count is not 0. -/
def hash_counts (t : Hash) (f : String → Nat) : Prop :=
  ∀ s, mutt_hash_find_elem t s = if f s = 0 then none else some (f s)

/-- The classes and texts of the lines of recognised classes, in file order. -/
def entries (g : Globals) (ls : List String) : List (Nat × String) :=
  ls.filterMap (entry g)

/-- With dedup enabled, a line with the entry `e` is dropped as a duplicate when
a later line has the same class and the same text. -/
def later_dup (g : Globals) (e : Nat × String) (rest : List String) : Bool :=
  g.OPT_HISTORY_REMOVE_DUPS && decide (e ∈ entries g rest)

/-- The lines of recognised classes that are not dropped as duplicates. -/
def survivors (g : Globals) : List String → List String
  | [] => []
  | l :: rest =>
    match entry g l with
    | none => survivors g rest
    | some e => if later_dup g e rest then survivors g rest else l :: survivors g rest

/-- The lines of the class `c` among `ls`. -/
def class_lines (g : Globals) (c : Nat) (ls : List String) : List String :=
  ls.filter (fun l => decide ((entry g l).map Prod.fst = some c))

/-- The number of lines of the class `c` that are not dropped as duplicates. -/
def counted (g : Globals) (c : Nat) (ls : List String) : Nat :=
  (class_lines g c (survivors g ls)).length

/-- The file as the specification has it after compaction: of the lines of each
recognised class that are not dropped as duplicates, the `SaveHistory` last
ones. -/
def shrunk (g : Globals) : List String → List String
  | [] => []
  | l :: rest =>
    match entry g l with
    | none => shrunk g rest
    | some e =>
      if later_dup g e rest then shrunk g rest
      else if ((counted g e.1 (l :: rest) : Nat) : Int) ≤ g.SaveHistory.val then
        l :: shrunk g rest
      else shrunk g rest

/-- What the second loop of `shrink_histfile` finds in its counters and in the
dedup index when the lines `ls` are still to be read. -/
def write_state (g : Globals) (st : ShrinkState) (ls : List String) : Prop :=
  st.n.length = HC_LAST g ∧ st.dup_hashes.length = HC_LAST g ∧
    (∀ c, c < HC_LAST g → st.n.getD c 0 = ((counted g c ls : Nat) : Int)) ∧
    (g.OPT_HISTORY_REMOVE_DUPS = true → ∀ c, c < HC_LAST g →
      hash_counts (st.dup_hashes.getD c []) (fun t => (entries g ls).count (c, t)))

/-- The number of lines of the class `c` that the first loop of
`shrink_histfile` counts: with dedup enabled a text that was already seen in the
class is not counted again. -/
def first_count (g : Globals) (c : Nat) (ls : List String) : Nat :=
  if g.OPT_HISTORY_REMOVE_DUPS then
    ((entries g ls).toFinset.filter (fun e => e.1 = c)).card
  else ((entries g ls).filter (fun e => decide (e.1 = c))).length

/-- What the first loop of `shrink_histfile` holds in its counters, in the dedup
index and in `regen_file` when it has read the lines `ls`. -/
def count_state (g : Globals) (st : ShrinkState) (ls : List String) : Prop :=
  st.n.length = HC_LAST g ∧ st.dup_hashes.length = HC_LAST g ∧
    (∀ c, c < HC_LAST g → st.n.getD c 0 = ((first_count g c ls : Nat) : Int)) ∧
    (g.OPT_HISTORY_REMOVE_DUPS = true → ∀ c, c < HC_LAST g →
      hash_counts (st.dup_hashes.getD c []) (fun t => (entries g ls).count (c, t))) ∧
    st.regen_file = (g.OPT_HISTORY_REMOVE_DUPS && decide (¬ (entries g ls).Nodup))

/-- With dedup enabled, some recognised class has two lines with the same
text. -/
def has_dup (g : Globals) (file : List String) : Bool :=
  g.OPT_HISTORY_REMOVE_DUPS && decide (¬ (entries g file).Nodup)

/-- Some recognised class has more counted lines than `SaveHistory`. -/
def over_limit (g : Globals) (file : List String) : Bool :=
  (List.range (HC_LAST g)).any
    (fun c => decide (((counted g c file : Nat) : Int) > g.SaveHistory.val))

/-- The condition under which the specification has the file rewritten. -/
def needs_rewrite (g : Globals) (file : List String) : Bool :=
  has_dup g file || over_limit g file

/-- A history file of two classes in which the text `a` occurs twice in the
class 0 and once in the class 1, with dedup enabled and `SaveHistory = 5`. -/
def dups_file_example : Globals :=
  startup 2 (Short.ofInt 2) (Short.ofInt 5) true (some ["0:a|", "1:a|", "0:b|", "0:a|"])

/-- A history file with five lines of the class 0 and one of the class 1, with
dedup disabled and `SaveHistory = 2`. -/
def limit_file_example : Globals :=
  startup 2 (Short.ofInt 2) (Short.ofInt 2) false
    (some ["0:a|", "1:x|", "0:b|", "0:c|", "0:d|", "0:e|"])

/-- A history file whose second line has no `:` after the class number, with
one class, dedup disabled and `SaveHistory = 1`. -/
def stale_read_example : Globals :=
  startup 1 (Short.ofInt 2) (Short.ofInt 1) false (some ["0:a|", "0b|"])

/-! ## Loading as the specification has it -/

/-- The state `g` with the history file replaced by `file`. -/
def with_file (g : Globals) (file : Option (List String)) : Globals :=
  { g with HistoryFile := file }

/-- The recognised lines fed, in file order, through `mutt_history_add` with
`save = false`. -/
def feed_lines : List String → Globals → Res Globals
  | [], g => .ok g
  | l :: rest, g =>
    match entry g l with
    | none => feed_lines rest g
    | some e =>
      match mutt_history_add g e.1 e.2 false with
      | .ok g => feed_lines rest g
      | .fault => .fault
      | .timeout => .timeout

/-- Every cursor is at the insertion point, as it is when the program starts
and after every `mutt_history_add`. -/
def at_bottom (g : Globals) : Prop :=
  ∀ c h, get_history g c = some h → h.cur = h.last

/-- A fresh registry of two classes and capacity 3 whose history file has a
line of an unrecognised class, a line with an empty text and, as fifth line, a
malformed one. -/
def load_example : Globals :=
  fresh 2 (Short.ofInt 3) (Short.ofInt 0) false
    (some ["0:a|", "7:zzz|", "1:b|", "0:|", "oops", "0:c|"])

/-- A fresh registry of two classes and capacity 3 whose history file has the
line `9999:hello|` of an unrecognised class between two lines that are
loaded. -/
def skip_example : Globals :=
  fresh 2 (Short.ofInt 3) (Short.ofInt 0) false (some ["0:a|", "9999:hello|", "1:b|"])

/-! ## Saving and loading -/

/-- The state `g` with the history file, the counter of `save_history` and the
reported errors replaced. -/
def with_io (g : Globals) (file : Option (List String)) (n : Int) (errors : List String) :
    Globals :=
  { g with HistoryFile := file, save_n := n, errors := errors }

/-- The test of `mutt_history_add` that lets a text into the ring: the history
is enabled for the class, the text is not empty, does not begin with a space and
is not the entry just before the insertion point. -/
def add_accepts (g : Globals) (c : Nat) (s : String) : Bool :=
  match get_history g c with
  | none => false
  | some h =>
    if g.History.val = 0 then false
    else if s = "" then false
    else if starts_with_space s then false
    else
      match hist_get h.hist (prev_index g h) with
      | .ok e => decide (e = none ∨ mutt_str_strcmp e s ≠ 0)
      | _ => false

/-- A sequence of calls `mutt_history_add(class, text, true)`. -/
def save_all : List (Nat × String) → Globals → Res Globals
  | [], g => .ok g
  | e :: rest, g =>
    match mutt_history_add g e.1 e.2 true with
    | .ok g => save_all rest g
    | .fault => .fault
    | .timeout => .timeout

/-- The calls of the sequence whose text is accepted. -/
def accepted_calls : List (Nat × String) → Globals → List (Nat × String)
  | [], _ => []
  | e :: rest, g =>
    match mutt_history_add g e.1 e.2 true with
    | .ok g' => (if add_accepts g e.1 e.2 then [e] else []) ++ accepted_calls rest g'
    | _ => []

/-- The results of a sequence of navigation calls on a class: `true` stands for
`mutt_history_prev`, `false` for `mutt_history_next`. -/
def nav_results (fuel : Nat) (c : Nat) : List Bool → Globals → Res (List String)
  | [], _ => .ok []
  | d :: rest, g =>
    match (if d then mutt_history_prev fuel g c else mutt_history_next fuel g c) with
    | .ok (g, r) =>
      match nav_results fuel c rest g with
      | .ok rs => .ok (r :: rs)
      | .fault => .fault
      | .timeout => .timeout
    | .fault => .fault
    | .timeout => .timeout

/-- Six calls that are all accepted, four in the class 0 and two in the class 1;
the fourth repeats the text of the second. -/
def round_trip_calls : List (Nat × String) :=
  [(0, "a"), (0, "b"), (0, "c"), (0, "b"), (1, "x"), (1, "y")]

/-- The fresh registry of the example: two classes, capacity 2, `SaveHistory = 4`,
dedup enabled, no history file yet. -/
def round_trip_start : Globals :=
  fresh 2 (Short.ofInt 2) (Short.ofInt 4) true none

/-- The state after the six calls of the example: in the class 0 the ring holds
`b` and `c` and the slot at the insertion point is empty; the sixth save has
compacted the file, which lost the first line `0:b|`. -/
def round_trip_saved : Globals :=
  { round_trip_start with
    Histories :=
      [⟨[some "b", none, some "c"], Short.ofInt 1, Short.ofInt 1⟩,
       ⟨[some "x", some "y", none], Short.ofInt 2, Short.ofInt 2⟩]
    HistoryFile := some ["0:a|", "0:c|", "0:b|", "1:x|", "1:y|"]
    save_n := 4 }

/-- The state after loading the file of the example into the fresh registry: in
the class 0 the slot at the insertion point holds `a`. -/
def round_trip_loaded : Globals :=
  { round_trip_start with
    Histories :=
      [⟨[some "a", some "c", some "b"], Short.ofInt 0, Short.ofInt 0⟩,
       ⟨[some "x", some "y", none], Short.ofInt 2, Short.ofInt 2⟩]
    HistoryFile := some ["0:a|", "0:c|", "0:b|", "1:x|", "1:y|"] }

/-- The state `g` reached from the fresh state `g0` by calls of
`mutt_history_add` with `save = true`, of which `acc` were accepted, with dedup
disabled: the history file holds one line for each accepted call, and reading
these lines into `g0` gives the rings of `g`. -/
def saved_state (g0 g : Globals) (acc : List (Nat × String)) : Prop :=
  g.OPT_HISTORY_REMOVE_DUPS = false ∧ g.can_write = true ∧ g.can_mktemp = true ∧
    g.errors = [] ∧ g.SaveHistory = g0.SaveHistory ∧ HC_LAST g = HC_LAST g0 ∧ at_bottom g ∧
    (∀ e ∈ acc, e.1 < HC_LAST g ∧ e.2 ≠ "" ∧ '\n' ∉ e.2.data) ∧
    g.HistoryFile.getD [] = acc.map (fun e => history_line e.1 e.2) ∧
    read_lines (acc.map (fun e => history_line e.1 e.2)) 0 g0 = .ok (with_io g none 0 [], none)

/-- Every class has a well-formed ring. -/
def all_well_formed (g : Globals) : Prop :=
  ∀ c, c < HC_LAST g → ∃ h, well_formed g c h

/-- Three calls into a fresh registry of two classes with capacity 2 and
`SaveHistory = 4`. -/
def plain_calls : List (Nat × String) := [(0, "a"), (0, "b"), (1, "x")]

/-! ## Live entries and sequences of insertions -/

/-- The live entries as the specification words them: the texts of the
non-empty slots other than `slots[last]`, in slot order; when `last` is no slot,
every non-empty slot counts. -/
def live_entries (h : History) : List String :=
  (if h.last.val < 0 then h.hist else h.hist.eraseIdx h.last.val.toNat).reduceOption

/-- A sequence of calls `mutt_history_add(class, text, save)` on one class. -/
def add_all (c : Nat) : List (String × Bool) → Globals → Res Globals
  | [], g => .ok g
  | e :: rest, g =>
    match mutt_history_add g c e.1 e.2 with
    | .ok g => add_all c rest g
    | .fault => .fault
    | .timeout => .timeout

/-- A state in which dedup is enabled and the ring of the class `c` holds no
text twice among its live entries; `last` is a slot, or the `short` has wrapped
and it is below every slot. -/
def distinct_state (g : Globals) (c : Nat) : Prop :=
  ∃ h, RingSlots g c h ∧ histfile_defined g ∧ g.OPT_HISTORY_REMOVE_DUPS = true ∧
    (live_entries h).Nodup ∧ (InRing g h.last.val ∨ h.last.val < -1)

/-- The fresh ring of capacity 2 with dedup enabled. -/
def fresh_dedup_example : Globals :=
  fresh 1 (Short.ofInt 2) (Short.ofInt 0) true none

/-! ## Compact files -/

/-- A history file of one class with dedup enabled and `SaveHistory = 10`; its
third line has no `:` after the class number. -/
def twice_example : Globals :=
  startup 1 (Short.ofInt 2) (Short.ofInt 10) true (some ["0:bc|", "00:q|", "0abc|", "00:q|"])

/-- A history file of two classes with dedup enabled and `SaveHistory = 2`. -/
def compact_example : Globals :=
  startup 2 (Short.ofInt 2) (Short.ofInt 2) true
    (some ["0:a|", "1:a|", "0:b|", "7:z|", "0:a|", "0:c|", "0:d|"])

/-- A file that compaction leaves as it is: every line is of a recognised class,
with dedup enabled no class has a text twice, and no class has more than
`SaveHistory` lines. -/
def compact (g : Globals) (ls : List String) : Prop :=
  (∀ l ∈ ls, (entry g l).isSome = true) ∧
    (g.OPT_HISTORY_REMOVE_DUPS = true → (entries g ls).Nodup) ∧
    ∀ c, ((class_lines g c ls).length : Int) ≤ g.SaveHistory.val

/-! ## Rings of capacity 3 -/

/-- An empty ring of capacity 3 with `cur = last = 0`. -/
def empty_ring_example : History :=
  { hist := [none, none, none, none], cur := Short.ofInt 0, last := Short.ofInt 0 }

/-- A ring of capacity 3 whose four slots all hold an entry, with `cur = 1` and
`last = 2`. -/
def full_ring_example : History :=
  { hist := [some "a", some "b", some "c", some "d"], cur := Short.ofInt 1,
    last := Short.ofInt 2 }

/-- The registry of capacity 3 with the one ring `h`. -/
def ring_registry (h : History) : Globals :=
  { Histories := [h]
    OldSize := 3
    History := Short.ofInt 3
    SaveHistory := Short.ofInt 0
    OPT_HISTORY_REMOVE_DUPS := false
    HistoryFile := none
    save_n := 0
    can_write := true
    can_mktemp := true
    errors := [] }

/-! ## Basic facts -/

@[simp] theorem Res.ok_bind {α β : Type} (a : α) (f : α → Res β) :
    (Res.ok a >>= f) = f a := rfl

@[simp] theorem Res.fault_bind {α β : Type} (f : α → Res β) :
    ((Res.fault : Res α) >>= f) = Res.fault := rfl

@[simp] theorem Res.timeout_bind {α β : Type} (f : α → Res β) :
    ((Res.timeout : Res α) >>= f) = Res.timeout := rfl

@[simp] theorem Res.pure_eq {α : Type} (a : α) : (pure a : Res α) = Res.ok a := rfl

theorem Short.ext_val {a b : Short} (h : a.val = b.val) : a = b := by
  cases a; cases b; simp_all

theorem Short.ofInt_val (x : Int) (h1 : -32768 ≤ x) (h2 : x ≤ 32767) :
    (Short.ofInt x).val = x := by
  simp only [Short.ofInt]; omega

@[simp] theorem Short.ofInt_self (a : Short) : Short.ofInt a.val = a := by
  apply Short.ext_val
  exact Short.ofInt_val _ a.lo a.hi

theorem strcmp_eq_zero : ∀ (a b : List Char), strcmp a b = 0 ↔ a = b
  | [], [] => by simp [strcmp]
  | [], _ :: _ => by simp [strcmp]
  | _ :: _, [] => by simp [strcmp]
  | a :: as, b :: bs => by
    by_cases h : a = b
    · simp [strcmp, h, strcmp_eq_zero as bs]
    · have : (a.toNat : Int) - (b.toNat : Int) ≠ 0 := by
        intro h0
        apply h
        apply Char.ext
        apply UInt32.ext
        have : a.toNat = b.toNat := by omega
        exact this
      simp [strcmp, h, this]

theorem mutt_str_strcmp_eq_zero (a : Option String) (b : String) :
    mutt_str_strcmp a b = 0 ↔ NONULL a = b := by
  unfold mutt_str_strcmp
  rw [strcmp_eq_zero]
  constructor
  · intro h; exact String.ext h
  · intro h; rw [h]

theorem hist_get_ok (hist : List (Option String)) (i : Int)
    (h0 : 0 ≤ i) (h1 : i < hist.length) :
    hist_get hist i = .ok (hist.getD i.toNat none) := by
  simp [hist_get, h0, h1]

theorem hist_set_ok (hist : List (Option String)) (i : Int) (v : Option String)
    (h0 : 0 ≤ i) (h1 : i < hist.length) :
    hist_set hist i v = .ok (hist.set i.toNat v) := by
  simp [hist_set, h0, h1]

theorem get_history_some {g : Globals} {hclass : Nat} {h : History}
    (hg : get_history g hclass = some h) :
    hclass < g.Histories.length ∧ g.Histories[hclass]? = some h := by
  unfold get_history HC_LAST at hg
  split at hg
  · cases hg
  · exact ⟨by omega, hg⟩

theorem get_put_same {g : Globals} {hclass : Nat} (h : History)
    (hc : hclass < g.Histories.length) :
    get_history (put_history g hclass h) hclass = some h := by
  simp [get_history, put_history, HC_LAST, hc]

theorem get_put_other (g : Globals) {hclass c : Nat} (h : History) (hne : c ≠ hclass) :
    get_history (put_history g hclass h) c = get_history g c := by
  simp only [get_history, put_history, HC_LAST, List.length_set]
  split
  · rfl
  · rw [List.getElem?_set_ne (Ne.symm hne)]

theorem put_get_self {g : Globals} {hclass : Nat} {h : History}
    (hg : get_history g hclass = some h) : put_history g hclass h = g := by
  obtain ⟨hc, hs⟩ := get_history_some hg
  have : g.Histories.set hclass h = g.Histories := by
    apply List.ext_getElem? ; intro i
    by_cases hi : hclass = i
    · subst hi; rw [List.getElem?_set_self hc, hs]
    · rw [List.getElem?_set_ne hi]
  simp [put_history, this]

theorem at_scratch_put {g : Globals} {hclass : Nat} {h : History}
    (hs : RingSlots g hclass h) (h' : History) (hcur : h'.cur = h'.last) :
    mutt_history_at_scratch (put_history g hclass h') hclass = true := by
  obtain ⟨hg, hN, _⟩ := hs
  obtain ⟨hc, _⟩ := get_history_some hg
  have hN' : (put_history g hclass h').History.val ≠ 0 := by
    simp only [put_history]; omega
  simp [mutt_history_at_scratch, get_put_same h' hc, hN', hcur]

/-- C5. Whenever the text is empty, begins with a space, or equals the entry
just before the insertion point, `mutt_history_add` changes neither the slots
nor `last` nor anything of the history file; it only resets `cur` to `last`, so
that `mutt_history_at_scratch` holds afterwards. -/
theorem mutt_history_add_rejected (g : Globals) (hclass : Nat) (h : History)
    (s : String) (save : Bool) (hs : RingSlots g hclass h) (hlast : InRing g h.last.val)
    (hrej : s = "" ∨ starts_with_space s = true ∨
      h.hist.getD (prev_index g h).toNat none = some s) :
    ∃ g', mutt_history_add g hclass s save = .ok g' ∧
      g' = put_history g hclass { h with cur := h.last } ∧
      get_history g' hclass = some { hist := h.hist, cur := h.last, last := h.last } ∧
      g'.HistoryFile = g.HistoryFile ∧ g'.save_n = g.save_n ∧
      mutt_history_at_scratch g' hclass = true := by
  have hs' := hs
  obtain ⟨hg, hN, hlen⟩ := hs
  obtain ⟨hl0, hl1⟩ := hlast
  obtain ⟨hc, _⟩ := get_history_some hg
  have hN0 : g.History.val ≠ 0 := by omega
  refine ⟨put_history g hclass { h with cur := h.last }, ?_, rfl, get_put_same _ hc, rfl, rfl,
    at_scratch_put hs' _ rfl⟩
  simp only [mutt_history_add, hg, hN0, if_false]
  by_cases h1 : s = ""
  · simp [h1]
  · simp only [h1, if_false]
    by_cases h2 : starts_with_space s = true
    · simp [h2]
    · simp only [h2]
      rcases hrej with h3 | h3 | h3
      · exact absurd h3 h1
      · exact absurd h3 h2
      · have hp0 : 0 ≤ prev_index g h := by unfold prev_index; split <;> omega
        have hp1 : prev_index g h < h.hist.length := by
          unfold prev_index; split <;> omega
        have hget := hist_get_ok h.hist (prev_index g h) hp0 hp1
        rw [h3] at hget
        have hno : ¬ ((some s : Option String) = none ∨ mutt_str_strcmp (some s) s ≠ 0) := by
          simp [mutt_str_strcmp_eq_zero, NONULL]
        simp only [hget, if_neg hno]
        simp

theorem mutt_history_add_rejected_witness :
    ∃ g', mutt_history_add rejected_example 0 "a" true = .ok g' ∧
      g' = put_history rejected_example 0
        { hist := [some "a", none, none], cur := Short.ofInt 1, last := Short.ofInt 1 } ∧
      get_history g' 0 =
        some { hist := [some "a", none, none], cur := Short.ofInt 1, last := Short.ofInt 1 } ∧
      g'.HistoryFile = rejected_example.HistoryFile ∧ g'.save_n = rejected_example.save_n ∧
      mutt_history_at_scratch g' 0 = true :=
  mutt_history_add_rejected rejected_example 0
    { hist := [some "a", none, none], cur := Short.ofInt 0, last := Short.ofInt 1 } "a" true
    ⟨by decide, by decide, by decide⟩ ⟨by decide, by decide⟩ (Or.inr (Or.inr (by decide)))

theorem NONULL_strdup (s : String) : NONULL (mutt_str_strdup s) = s := by
  unfold mutt_str_strdup
  split
  · next h => simp [NONULL, h]
  · rfl

/-- C10. `mutt_history_save_scratch` stores the text in `slots[last]` (an empty
text leaves the slot empty, which reads back as the empty text) and changes
nothing else: `cur`, `last`, every other slot of the class, the ring of every
other class and all the other globals stay as they were. -/
theorem mutt_history_save_scratch_frame (g : Globals) (hclass : Nat) (h : History)
    (s : String) (hs : RingSlots g hclass h) (hlast : InRing g h.last.val) :
    ∃ g', mutt_history_save_scratch g hclass s = .ok g' ∧
      g' = put_history g hclass
        { h with hist := h.hist.set h.last.val.toNat (mutt_str_strdup s) } ∧
      (∃ h', get_history g' hclass = some h' ∧
        NONULL (h'.hist.getD h.last.val.toNat none) = s ∧
        h'.cur = h.cur ∧ h'.last = h.last ∧ h'.hist.length = h.hist.length ∧
        ∀ i : Nat, i ≠ h.last.val.toNat → h'.hist[i]? = h.hist[i]?) ∧
      ∀ c, c ≠ hclass → get_history g' c = get_history g c := by
  obtain ⟨hg, hN, hlen⟩ := hs
  obtain ⟨hl0, hl1⟩ := hlast
  obtain ⟨hc, _⟩ := get_history_some hg
  have hN0 : g.History.val ≠ 0 := by omega
  have hset := hist_set_ok h.hist h.last.val (mutt_str_strdup s) hl0 (by omega)
  refine ⟨_, ?_, rfl, ⟨_, get_put_same _ hc, ?_, rfl, rfl, by simp, ?_⟩, ?_⟩
  · simp [mutt_history_save_scratch, hg, hN0, hset]
  · have hlt : h.last.val.toNat < h.hist.length := by omega
    simp [List.getD_eq_getElem?_getD, List.getElem?_set_self hlt, NONULL_strdup]
  · intro i hi
    simp [List.getElem?_set_ne (Ne.symm hi)]
  · intro c hne
    exact get_put_other g _ hne

theorem mutt_history_save_scratch_frame_witness :
    ∃ g', mutt_history_save_scratch scratch_example 1 "" = .ok g' ∧
      g' = put_history scratch_example 1
        { hist := [some "a", some "b", none], cur := Short.ofInt 0, last := Short.ofInt 2 } ∧
      (∃ h', get_history g' 1 = some h' ∧
        NONULL (h'.hist.getD 2 none) = "" ∧
        h'.cur = Short.ofInt 0 ∧ h'.last = Short.ofInt 2 ∧ h'.hist.length = 3 ∧
        ∀ i : Nat, i ≠ 2 → h'.hist[i]? = [some "a", some "b", some "old"][i]?) ∧
      ∀ c, c ≠ 1 → get_history g' c = get_history scratch_example c :=
  mutt_history_save_scratch_frame scratch_example 1
    { hist := [some "a", some "b", some "old"], cur := Short.ofInt 0, last := Short.ofInt 2 } ""
    ⟨by decide, by decide, by decide⟩ ⟨by decide, by decide⟩

/-! ## Navigation -/

theorem down_seq_succ (g : Globals) (p : Int) (n : Nat) :
    down_seq g p (n + 1) =
      (p - 1) % (g.History.val + 1) :: down_seq g ((p - 1) % (g.History.val + 1)) n := by
  simp only [down_seq, List.range_succ_eq_map, List.map_cons, List.map_map]
  congr 1
  apply List.map_congr_left
  intro k _
  simp only [Function.comp, Nat.succ_eq_add_one, Nat.cast_add, Nat.cast_one]
  rw [Int.sub_emod ((p - 1) % (g.History.val + 1)), Int.emod_emod_of_dvd _ (dvd_refl _),
    ← Int.sub_emod]
  congr 1
  omega

theorem up_seq_succ (g : Globals) (p : Int) (n : Nat) :
    up_seq g p (n + 1) =
      (p + 1) % (g.History.val + 1) :: up_seq g ((p + 1) % (g.History.val + 1)) n := by
  simp only [up_seq, List.range_succ_eq_map, List.map_cons, List.map_map]
  congr 1
  apply List.map_congr_left
  intro k _
  simp only [Function.comp, Nat.succ_eq_add_one, Nat.cast_add, Nat.cast_one]
  rw [Int.add_emod ((p + 1) % (g.History.val + 1)), Int.emod_emod_of_dvd _ (dvd_refl _),
    ← Int.add_emod]
  congr 1
  omega

theorem step_down_eq (g : Globals) (p : Int) (hN : 1 ≤ g.History.val) (hp : InRing g p) :
    (if p - 1 < 0 then g.History.val else p - 1) = (p - 1) % (g.History.val + 1) := by
  obtain ⟨h0, h1⟩ := hp
  split
  · have hp0 : p = 0 := by omega
    subst hp0
    have : (0 - 1 : Int) = g.History.val + (-1) * (g.History.val + 1) := by ring
    rw [this, Int.add_mul_emod_self, Int.emod_eq_of_lt (by omega) (by omega)]
  · rw [Int.emod_eq_of_lt (by omega) (by omega)]

theorem step_up_eq (g : Globals) (p : Int) (hp : InRing g p) :
    (if p + 1 > g.History.val then 0 else p + 1) = (p + 1) % (g.History.val + 1) := by
  obtain ⟨h0, h1⟩ := hp
  split
  · have hp0 : p + 1 = g.History.val + 1 := by omega
    rw [hp0, Int.emod_self]
  · rw [Int.emod_eq_of_lt (by omega) (by omega)]

theorem emod_inRing (g : Globals) (x : Int) (hN : 1 ≤ g.History.val) :
    InRing g (x % (g.History.val + 1)) := by
  have h1 := Int.emod_nonneg x (show g.History.val + 1 ≠ 0 by omega)
  have h2 := Int.emod_lt_of_pos x (show 0 < g.History.val + 1 by omega)
  exact ⟨h1, by omega⟩

theorem prev_walk_find (g : Globals) (h : History) (hN : 1 ≤ g.History.val)
    (hlen : (h.hist.length : Int) = g.History.val + 1) :
    ∀ (n : Nat) (p : Int) (fuel : Nat) (j : Int), InRing g p → n ≤ fuel →
      (down_seq g p n).find? (walk_stops h) = some j → prev_walk g h fuel p = .ok j := by
  intro n
  induction n with
  | zero => intro p fuel j _ _ hf; simp [down_seq] at hf
  | succ n ih =>
    intro p fuel j hp hfuel hf
    obtain ⟨f, rfl⟩ : ∃ f, fuel = f + 1 := ⟨fuel - 1, by omega⟩
    rw [down_seq_succ] at hf
    have hc := emod_inRing g (p - 1) hN
    simp only [prev_walk, step_down_eq g p hN hp]
    generalize (p - 1) % (g.History.val + 1) = c at hf hc
    obtain ⟨hc0, hc1⟩ := hc
    by_cases hcl : c = h.last.val
    · have : walk_stops h c = true := by simp [walk_stops, hcl]
      simp only [List.find?_cons, this] at hf
      simp [hcl, ← Option.some.inj hf]
    · simp only [hcl, if_false, hist_get_ok h.hist c hc0 (by omega)]
      by_cases he : h.hist.getD c.toNat none = none
      · have : walk_stops h c = false := by
          simp [-List.getD_eq_getElem?_getD, walk_stops, hcl, he]
        simp only [List.find?_cons, this] at hf
        simp only [he, if_true]
        exact ih c f j ⟨hc0, hc1⟩ (by omega) hf
      · have : walk_stops h c = true := by
          simp only [walk_stops, Bool.or_eq_true, Option.isSome_iff_ne_none]
          exact Or.inr he
        simp only [List.find?_cons, this] at hf
        simp [-List.getD_eq_getElem?_getD, he, ← Option.some.inj hf]

theorem next_walk_find (g : Globals) (h : History) (hN : 1 ≤ g.History.val)
    (hlen : (h.hist.length : Int) = g.History.val + 1) :
    ∀ (n : Nat) (p : Int) (fuel : Nat) (j : Int), InRing g p → n ≤ fuel →
      (up_seq g p n).find? (walk_stops h) = some j → next_walk g h fuel p = .ok j := by
  intro n
  induction n with
  | zero => intro p fuel j _ _ hf; simp [up_seq] at hf
  | succ n ih =>
    intro p fuel j hp hfuel hf
    obtain ⟨f, rfl⟩ : ∃ f, fuel = f + 1 := ⟨fuel - 1, by omega⟩
    rw [up_seq_succ] at hf
    have hc := emod_inRing g (p + 1) hN
    simp only [next_walk, step_up_eq g p hp]
    generalize (p + 1) % (g.History.val + 1) = c at hf hc
    obtain ⟨hc0, hc1⟩ := hc
    by_cases hcl : c = h.last.val
    · have : walk_stops h c = true := by simp [walk_stops, hcl]
      simp only [List.find?_cons, this] at hf
      simp [hcl, ← Option.some.inj hf]
    · simp only [hcl, if_false, hist_get_ok h.hist c hc0 (by omega)]
      by_cases he : h.hist.getD c.toNat none = none
      · have : walk_stops h c = false := by
          simp [-List.getD_eq_getElem?_getD, walk_stops, hcl, he]
        simp only [List.find?_cons, this] at hf
        simp only [he, if_true]
        exact ih c f j ⟨hc0, hc1⟩ (by omega) hf
      · have : walk_stops h c = true := by
          simp only [walk_stops, Bool.or_eq_true, Option.isSome_iff_ne_none]
          exact Or.inr he
        simp only [List.find?_cons, this] at hf
        simp [-List.getD_eq_getElem?_getD, he, ← Option.some.inj hf]

theorem last_mem_down_seq (g : Globals) (p l : Int) (hp : InRing g p) (hl : InRing g l) :
    l ∈ down_seq g p (g.History.val + 1).toNat := by
  obtain ⟨hp0, hp1⟩ := hp
  obtain ⟨hl0, hl1⟩ := hl
  simp only [down_seq, List.mem_map, List.mem_range]
  by_cases hlt : l < p
  · refine ⟨(p - l - 1).toNat, by omega, ?_⟩
    have : p - (((p - l - 1).toNat + 1 : Nat) : Int) = l := by omega
    rw [this, Int.emod_eq_of_lt hl0 (by omega)]
  · refine ⟨(p - l + g.History.val).toNat, by omega, ?_⟩
    have : p - (((p - l + g.History.val).toNat + 1 : Nat) : Int)
        = l + (-1) * (g.History.val + 1) := by
      have : (((p - l + g.History.val).toNat + 1 : Nat) : Int) = p - l + g.History.val + 1 := by
        omega
      rw [this]; ring
    rw [this, Int.add_mul_emod_self, Int.emod_eq_of_lt hl0 (by omega)]

theorem last_mem_up_seq (g : Globals) (p l : Int) (hp : InRing g p) (hl : InRing g l) :
    l ∈ up_seq g p (g.History.val + 1).toNat := by
  obtain ⟨hp0, hp1⟩ := hp
  obtain ⟨hl0, hl1⟩ := hl
  simp only [up_seq, List.mem_map, List.mem_range]
  by_cases hlt : p < l
  · refine ⟨(l - p - 1).toNat, by omega, ?_⟩
    have : p + (((l - p - 1).toNat + 1 : Nat) : Int) = l := by omega
    rw [this, Int.emod_eq_of_lt hl0 (by omega)]
  · refine ⟨(l - p + g.History.val).toNat, by omega, ?_⟩
    have : p + (((l - p + g.History.val).toNat + 1 : Nat) : Int)
        = l + 1 * (g.History.val + 1) := by
      have : (((l - p + g.History.val).toNat + 1 : Nat) : Int) = l - p + g.History.val + 1 := by
        omega
      rw [this]; ring
    rw [this, Int.add_mul_emod_self, Int.emod_eq_of_lt hl0 (by omega)]

theorem seq_inRing_down (g : Globals) (p : Int) (n : Nat) (hN : 1 ≤ g.History.val) :
    ∀ j ∈ down_seq g p n, InRing g j := by
  intro j hj
  simp only [down_seq, List.mem_map] at hj
  obtain ⟨k, _, rfl⟩ := hj
  exact emod_inRing g _ hN

theorem seq_inRing_up (g : Globals) (p : Int) (n : Nat) (hN : 1 ≤ g.History.val) :
    ∀ j ∈ up_seq g p n, InRing g j := by
  intro j hj
  simp only [up_seq, List.mem_map] at hj
  obtain ⟨k, _, rfl⟩ := hj
  exact emod_inRing g _ hN

theorem find_stops_of_last_mem (h : History) (l : List Int) (hm : h.last.val ∈ l) :
    ∃ j, l.find? (walk_stops h) = some j ∧ j ∈ l := by
  cases hf : l.find? (walk_stops h) with
  | none =>
    rw [List.find?_eq_none] at hf
    have := hf _ hm
    simp [walk_stops] at this
  | some j => exact ⟨j, rfl, List.mem_of_find?_eq_some hf⟩

theorem prev_eq_first_met (g : Globals) (hclass : Nat) (h : History) (fuel : Nat)
    (hs : RingSlots g hclass h) (hcur : InRing g h.cur.val) (hlast : InRing g h.last.val)
    (hfuel : (g.History.val + 1).toNat ≤ fuel) :
    ∃ j, first_met_down g h = some j ∧ InRing g j ∧ (Short.ofInt j).val = j ∧
      mutt_history_prev fuel g hclass =
        .ok (put_history g hclass { h with cur := Short.ofInt j },
          NONULL (h.hist.getD j.toNat none)) := by
  obtain ⟨hg, hN, hlen⟩ := hs
  have hN0 : g.History.val ≠ 0 := by omega
  obtain ⟨j, hj, hmem⟩ := find_stops_of_last_mem h _
    (last_mem_down_seq g h.cur.val h.last.val hcur hlast)
  have hjr := seq_inRing_down g _ _ hN j hmem
  have hw := prev_walk_find g h hN hlen _ h.cur.val fuel j hcur hfuel hj
  have hjv : (Short.ofInt j).val = j := Short.ofInt_val j (by have := hjr.1; omega)
    (by have := hjr.2; have := g.History.hi; omega)
  refine ⟨j, hj, hjr, hjv, ?_⟩
  have hget := hist_get_ok h.hist j hjr.1 (by have := hjr.2; omega)
  simp only [mutt_history_prev, hg, hN0, if_false, hw, Res.ok_bind, hjv, hget, Res.pure_eq]

theorem next_eq_first_met (g : Globals) (hclass : Nat) (h : History) (fuel : Nat)
    (hs : RingSlots g hclass h) (hcur : InRing g h.cur.val) (hlast : InRing g h.last.val)
    (hfuel : (g.History.val + 1).toNat ≤ fuel) :
    ∃ j, first_met_up g h = some j ∧ InRing g j ∧ (Short.ofInt j).val = j ∧
      mutt_history_next fuel g hclass =
        .ok (put_history g hclass { h with cur := Short.ofInt j },
          NONULL (h.hist.getD j.toNat none)) := by
  obtain ⟨hg, hN, hlen⟩ := hs
  have hN0 : g.History.val ≠ 0 := by omega
  obtain ⟨j, hj, hmem⟩ := find_stops_of_last_mem h _
    (last_mem_up_seq g h.cur.val h.last.val hcur hlast)
  have hjr := seq_inRing_up g _ _ hN j hmem
  have hw := next_walk_find g h hN hlen _ h.cur.val fuel j hcur hfuel hj
  have hjv : (Short.ofInt j).val = j := Short.ofInt_val j (by have := hjr.1; omega)
    (by have := hjr.2; have := g.History.hi; omega)
  refine ⟨j, hj, hjr, hjv, ?_⟩
  have hget := hist_get_ok h.hist j hjr.1 (by have := hjr.2; omega)
  simp only [mutt_history_next, hg, hN0, if_false, hw, Res.ok_bind, hjv, hget, Res.pure_eq]

/-- C2. With `cur` and `last` among the slots `0..N` and fuel for one turn
around the ring, `mutt_history_prev` moves `cur` to the first index `j` met
walking down from `cur - 1` (wrapping `0 → N`) that is the insertion point or
holds an entry, and `mutt_history_next` does the same walking up from `cur + 1`
(wrapping `N → 0`); each returns the content of `slots[j]`, the empty string for
an empty slot, and leaves the slots, `last` and all the rest as they were. -/
theorem navigation_first_met (g : Globals) (hclass : Nat) (h : History) (fuel : Nat)
    (hs : RingSlots g hclass h) (hcur : InRing g h.cur.val) (hlast : InRing g h.last.val)
    (hfuel : (g.History.val + 1).toNat ≤ fuel) :
    (∃ j, first_met_down g h = some j ∧ InRing g j ∧ (Short.ofInt j).val = j ∧
      mutt_history_prev fuel g hclass =
        .ok (put_history g hclass { hist := h.hist, cur := Short.ofInt j, last := h.last },
          NONULL (h.hist.getD j.toNat none))) ∧
    (∃ j, first_met_up g h = some j ∧ InRing g j ∧ (Short.ofInt j).val = j ∧
      mutt_history_next fuel g hclass =
        .ok (put_history g hclass { hist := h.hist, cur := Short.ofInt j, last := h.last },
          NONULL (h.hist.getD j.toNat none))) :=
  ⟨prev_eq_first_met g hclass h fuel hs hcur hlast hfuel,
    next_eq_first_met g hclass h fuel hs hcur hlast hfuel⟩

theorem navigation_first_met_witness :
    (∃ j, first_met_down scratch_example
        { hist := [some "a", some "b", some "old"], cur := Short.ofInt 0, last := Short.ofInt 2 }
          = some j ∧ InRing scratch_example j ∧ (Short.ofInt j).val = j ∧
      mutt_history_prev 3 scratch_example 1 =
        .ok (put_history scratch_example 1
          { hist := [some "a", some "b", some "old"], cur := Short.ofInt j,
            last := Short.ofInt 2 },
          NONULL ([some "a", some "b", some "old"].getD j.toNat none))) ∧
    (∃ j, first_met_up scratch_example
        { hist := [some "a", some "b", some "old"], cur := Short.ofInt 0, last := Short.ofInt 2 }
          = some j ∧ InRing scratch_example j ∧ (Short.ofInt j).val = j ∧
      mutt_history_next 3 scratch_example 1 =
        .ok (put_history scratch_example 1
          { hist := [some "a", some "b", some "old"], cur := Short.ofInt j,
            last := Short.ofInt 2 },
          NONULL ([some "a", some "b", some "old"].getD j.toNat none))) :=
  navigation_first_met scratch_example 1
    { hist := [some "a", some "b", some "old"], cur := Short.ofInt 0, last := Short.ofInt 2 } 3
    ⟨by decide, by decide, by decide⟩ ⟨by decide, by decide⟩ ⟨by decide, by decide⟩
    (by decide)

/-! ## Navigation at the bottom -/

theorem stays_at_bottom (g : Globals) (hclass : Nat) (h : History)
    (hs : RingSlots g hclass h) (hcur : h.cur = h.last) (hlast : InRing g h.last.val)
    (hother : ∀ i : Int, InRing g i → i ≠ h.last.val → h.hist.getD i.toNat none = none)
    (j : Int) (hj : InRing g j) (hstop : walk_stops h j = true) :
    put_history g hclass { hist := h.hist, cur := Short.ofInt j, last := h.last } = g ∧
      j = h.last.val := by
  have hjl : j = h.last.val := by
    by_contra hne
    have := hother j hj hne
    simp [-List.getD_eq_getElem?_getD, walk_stops, hne, this] at hstop
  refine ⟨?_, hjl⟩
  have : ({ hist := h.hist, cur := Short.ofInt j, last := h.last } : History) = h := by
    rw [hjl, Short.ofInt_self]
    cases h
    simp_all
  rw [this]
  exact put_get_self hs.1

theorem nav_at_bottom_alone (g : Globals) (hclass : Nat) (h : History) (fuel : Nat)
    (hs : RingSlots g hclass h) (hcur : h.cur = h.last) (hlast : InRing g h.last.val)
    (hother : ∀ i : Int, InRing g i → i ≠ h.last.val → h.hist.getD i.toNat none = none)
    (hfuel : (g.History.val + 1).toNat ≤ fuel) :
    mutt_history_prev fuel g hclass = .ok (g, NONULL (h.hist.getD h.last.val.toNat none)) ∧
    mutt_history_next fuel g hclass = .ok (g, NONULL (h.hist.getD h.last.val.toNat none)) := by
  have hc : InRing g h.cur.val := by rw [hcur]; exact hlast
  constructor
  · obtain ⟨j, hj, hjr, _, hrun⟩ := prev_eq_first_met g hclass h fuel hs hc hlast hfuel
    have hstop : walk_stops h j = true := by
      have := List.find?_some hj
      simpa using this
    obtain ⟨hput, hjl⟩ := stays_at_bottom g hclass h hs hcur hlast hother j hjr hstop
    rw [hrun, hput, hjl]
  · obtain ⟨j, hj, hjr, _, hrun⟩ := next_eq_first_met g hclass h fuel hs hc hlast hfuel
    have hstop : walk_stops h j = true := by
      have := List.find?_some hj
      simpa using this
    obtain ⟨hput, hjl⟩ := stays_at_bottom g hclass h hs hcur hlast hother j hjr hstop
    rw [hrun, hput, hjl]

/-- C9. On a ring that holds no entry (every slot empty, `cur = last`), every
call of any sequence of `mutt_history_prev` and `mutt_history_next` calls
returns the empty string and leaves the whole state, the cursor included, as it
was. -/
theorem navigation_on_empty_ring (g : Globals) (hclass : Nat) (h : History) (fuel : Nat)
    (hs : RingSlots g hclass h) (hcur : h.cur = h.last) (hlast : InRing g h.last.val)
    (hempty : ∀ x ∈ h.hist, x = none)
    (hfuel : (g.History.val + 1).toNat ≤ fuel) (calls : List Call)
    (hnav : ∀ c ∈ calls, c = Call.prev ∨ c = Call.next) :
    run_calls fuel g hclass calls = .ok (g, List.replicate calls.length "") ∧
      mutt_history_at_scratch g hclass = true := by
  have hall : ∀ i : Nat, h.hist.getD i none = none := by
    intro i
    rw [List.getD_eq_getElem?_getD]
    cases hi : h.hist[i]? with
    | none => rfl
    | some x => simpa using hempty x (List.getElem?_mem hi)
  obtain ⟨hp, hn⟩ := nav_at_bottom_alone g hclass h fuel hs hcur hlast
    (fun i _ _ => hall i.toNat) hfuel
  rw [hall] at hp hn
  refine ⟨?_, ?_⟩
  · induction calls with
    | nil => rfl
    | cons c cs ih =>
      have ih' := ih (fun c hc => hnav c (List.mem_cons_of_mem _ hc))
      rcases hnav c (List.mem_cons_self _ _) with rfl | rfl
      · simp [run_calls, run_call, hp, ih', NONULL, List.replicate_succ]
      · simp [run_calls, run_call, hn, ih', NONULL, List.replicate_succ]
  · have := at_scratch_put hs h hcur
    rwa [put_get_self hs.1] at this

theorem navigation_on_empty_ring_witness :
    run_calls 5 (fresh 7 (Short.ofInt 3) (Short.ofInt 0) false none) 2
        [Call.prev, Call.next, Call.next, Call.prev] =
      .ok (fresh 7 (Short.ofInt 3) (Short.ofInt 0) false none,
        List.replicate [Call.prev, Call.next, Call.next, Call.prev].length "") ∧
      mutt_history_at_scratch (fresh 7 (Short.ofInt 3) (Short.ofInt 0) false none) 2 = true :=
  navigation_on_empty_ring (fresh 7 (Short.ofInt 3) (Short.ofInt 0) false none) 2
    { hist := [none, none, none, none], cur := Short.ofInt 0, last := Short.ofInt 0 } 5
    ⟨by decide, by decide, by decide⟩ (by decide) ⟨by decide, by decide⟩ (by decide)
    (by decide) _ (by decide)

theorem up_seq_snoc (g : Globals) (p : Int) (n : Nat) :
    up_seq g p (n + 1) =
      up_seq g p n ++ [(p + ((n + 1 : Nat) : Int)) % (g.History.val + 1)] := by
  simp [up_seq, List.range_succ]

theorem mem_up_seq_of_ne (g : Globals) (p l : Int) (hp : InRing g p) (hl : InRing g l)
    (hne : l ≠ p) : l ∈ up_seq g p g.History.val.toNat := by
  obtain ⟨hp0, hp1⟩ := hp
  obtain ⟨hl0, hl1⟩ := hl
  simp only [up_seq, List.mem_map, List.mem_range]
  by_cases hlt : p < l
  · refine ⟨(l - p - 1).toNat, by omega, ?_⟩
    have : p + (((l - p - 1).toNat + 1 : Nat) : Int) = l := by omega
    rw [this, Int.emod_eq_of_lt hl0 (by omega)]
  · refine ⟨(l - p + g.History.val).toNat, by omega, ?_⟩
    have : p + (((l - p + g.History.val).toNat + 1 : Nat) : Int)
        = l + 1 * (g.History.val + 1) := by
      have : (((l - p + g.History.val).toNat + 1 : Nat) : Int) = l - p + g.History.val + 1 := by
        omega
      rw [this]; ring
    rw [this, Int.add_mul_emod_self, Int.emod_eq_of_lt hl0 (by omega)]

theorem up_seq_ne_start (g : Globals) (p : Int) (hp : InRing g p) :
    ∀ j ∈ up_seq g p g.History.val.toNat, j ≠ p := by
  obtain ⟨hp0, hp1⟩ := hp
  intro j hj
  simp only [up_seq, List.mem_map, List.mem_range] at hj
  obtain ⟨k, hk, rfl⟩ := hj
  intro heq
  by_cases hlt : p + ((k + 1 : Nat) : Int) < g.History.val + 1
  · rw [Int.emod_eq_of_lt (by omega) hlt] at heq
    omega
  · have : p + ((k + 1 : Nat) : Int)
        = (p + ((k + 1 : Nat) : Int) - (g.History.val + 1)) + 1 * (g.History.val + 1) := by
      ring
    rw [this, Int.add_mul_emod_self, Int.emod_eq_of_lt (by omega) (by omega)] at heq
    omega

/-- C8, as the code has it. With the cursor at the insertion point,
`mutt_history_next` stays there only when no other slot holds an entry, and it
then returns what `slots[last]` holds (the empty string when that slot is
empty), so that repeating the call changes nothing. When some other slot holds
an entry, the call leaves the bottom: the cursor moves to the first such slot
met walking up from `last + 1`, whose entry is returned. -/
theorem next_at_bottom (g : Globals) (hclass : Nat) (h : History) (fuel : Nat)
    (hs : RingSlots g hclass h) (hcur : h.cur = h.last) (hlast : InRing g h.last.val)
    (hfuel : (g.History.val + 1).toNat ≤ fuel) :
    ((∀ i : Int, InRing g i → i ≠ h.last.val → h.hist.getD i.toNat none = none) →
      mutt_history_next fuel g hclass =
        .ok (g, NONULL (h.hist.getD h.last.val.toNat none))) ∧
    ((∃ i : Int, InRing g i ∧ i ≠ h.last.val ∧ h.hist.getD i.toNat none ≠ none) →
      ∃ j t, first_met_up g h = some j ∧ InRing g j ∧ j ≠ h.last.val ∧
        h.hist.getD j.toNat none = some t ∧
        mutt_history_next fuel g hclass =
          .ok (put_history g hclass { hist := h.hist, cur := Short.ofInt j, last := h.last }, t) ∧
        mutt_history_at_scratch
          (put_history g hclass { hist := h.hist, cur := Short.ofInt j, last := h.last })
          hclass = false) := by
  have hc : InRing g h.cur.val := by rw [hcur]; exact hlast
  refine ⟨fun hother => (nav_at_bottom_alone g hclass h fuel hs hcur hlast hother hfuel).2, ?_⟩
  rintro ⟨i, hi, hil, hie⟩
  obtain ⟨hg, hN, hlen⟩ := hs
  have hmem := mem_up_seq_of_ne g h.cur.val i hc hi (by rw [hcur]; exact hil)
  have hsi : walk_stops h i = true := by
    simp only [walk_stops, Bool.or_eq_true, Option.isSome_iff_ne_none]
    exact Or.inr hie
  cases hf : (up_seq g h.cur.val g.History.val.toNat).find? (walk_stops h) with
  | none =>
    rw [List.find?_eq_none] at hf
    exact absurd hsi (hf i hmem)
  | some j =>
    have hjm := List.mem_of_find?_eq_some hf
    have hjr := seq_inRing_up g _ _ hN j hjm
    have hjne : j ≠ h.last.val := by
      rw [← hcur]; exact up_seq_ne_start g h.cur.val hc j hjm
    have hstop : walk_stops h j = true := by
      have := List.find?_some hf
      simpa using this
    have hjs : h.hist.getD j.toNat none ≠ none := by
      simp only [walk_stops, Bool.or_eq_true, decide_eq_true_eq, hjne, false_or,
        Option.isSome_iff_ne_none] at hstop
      exact hstop
    obtain ⟨t, ht⟩ := Option.ne_none_iff_exists'.mp hjs
    have hfull : first_met_up g h = some j := by
      have hto : (g.History.val + 1).toNat = g.History.val.toNat + 1 := by omega
      rw [first_met_up, hto, up_seq_snoc, List.find?_append, hf]
      rfl
    obtain ⟨j', hj', _, hjv, hrun⟩ :=
      next_eq_first_met g hclass h fuel ⟨hg, hN, hlen⟩ hc hlast hfuel
    rw [hfull] at hj'
    cases hj'
    refine ⟨j, t, hfull, hjr, hjne, ht, ?_, ?_⟩
    · rw [hrun, ht]; rfl
    · obtain ⟨hcl, _⟩ := get_history_some hg
      have hN0 : (put_history g hclass
          { hist := h.hist, cur := Short.ofInt j, last := h.last }).History.val ≠ 0 := by
        simp only [put_history]; omega
      have hne : Short.ofInt j ≠ h.last := by
        intro heq
        apply hjne
        rw [← hjv, heq]
      simp [mutt_history_at_scratch, get_put_same _ hcl, hN0, hne]

theorem next_at_bottom_witness :
    ((∀ i : Int, InRing scratch_example i → i ≠ 1 →
        [some "x", none, none].getD i.toNat none = none) →
      mutt_history_next 3 scratch_example 0 =
        .ok (scratch_example, NONULL ([some "x", none, none].getD 1 none))) ∧
    ((∃ i : Int, InRing scratch_example i ∧ i ≠ 1 ∧
        [some "x", none, none].getD i.toNat none ≠ none) →
      ∃ j t, first_met_up scratch_example
          { hist := [some "x", none, none], cur := Short.ofInt 1, last := Short.ofInt 1 }
            = some j ∧ InRing scratch_example j ∧ j ≠ 1 ∧
        [some "x", none, none].getD j.toNat none = some t ∧
        mutt_history_next 3 scratch_example 0 =
          .ok (put_history scratch_example 0
            { hist := [some "x", none, none], cur := Short.ofInt j, last := Short.ofInt 1 }, t) ∧
        mutt_history_at_scratch
          (put_history scratch_example 0
            { hist := [some "x", none, none], cur := Short.ofInt j, last := Short.ofInt 1 })
          0 = false) :=
  next_at_bottom scratch_example 0
    { hist := [some "x", none, none], cur := Short.ofInt 1, last := Short.ofInt 1 } 3
    ⟨by decide, by decide, by decide⟩ (by decide) ⟨by decide, by decide⟩ (by decide)

/-- C8 as stated fails: in a ring of capacity 3 that holds the one entry `a`,
the cursor is at the bottom after the insertion, and `mutt_history_next` then
returns `a` and leaves the bottom. -/
theorem next_at_bottom_counterexample :
    (run_calls 4 (fresh 7 (Short.ofInt 3) (Short.ofInt 0) false none) 0
        [Call.add "a" false]).bind (fun r => .ok (mutt_history_at_scratch r.1 0)) = .ok true ∧
    (run_calls 4 (fresh 7 (Short.ofInt 3) (Short.ofInt 0) false none) 0
        [Call.add "a" false, Call.next]).bind
        (fun r => .ok (r.2, mutt_history_at_scratch r.1 0)) = .ok (["a"], false) := by
  decide

/-! ## The scenario of capacity 3 -/

/-- C4, as the code has it. On a fresh ring of capacity 3, after `a`, `b`, `c`,
`d` have been inserted (with or without dedup, persisted or not), three calls of
`mutt_history_prev` return `d`, `c`, `b`; the two following calls of
`mutt_history_next` return `c` and then `d`, and the cursor is then on the
newest entry, not at the bottom. A third `mutt_history_next` reaches the bottom,
where it returns `a`, which `slots[last]` still holds. -/
theorem scenario_capacity_three :
    ∀ dedup save : Bool,
      (run_calls 4 (fresh 7 (Short.ofInt 3) (Short.ofInt 10) dedup none) 0
          [Call.add "a" save, Call.add "b" save, Call.add "c" save, Call.add "d" save,
            Call.prev, Call.prev, Call.prev, Call.next, Call.next]).bind
        (fun r => .ok (r.2, mutt_history_at_scratch r.1 0, get_history r.1 0)) =
        .ok (["d", "c", "b", "c", "d"], false,
          some { hist := [some "a", some "b", some "c", some "d"],
                 cur := Short.ofInt 3, last := Short.ofInt 0 }) ∧
      (run_calls 4 (fresh 7 (Short.ofInt 3) (Short.ofInt 10) dedup none) 0
          [Call.add "a" save, Call.add "b" save, Call.add "c" save, Call.add "d" save,
            Call.prev, Call.prev, Call.prev, Call.next, Call.next, Call.next]).bind
        (fun r => .ok (r.2, mutt_history_at_scratch r.1 0)) =
        .ok (["d", "c", "b", "c", "d", "a"], true) := by
  decide

/-- C4 as stated fails: the second `mutt_history_next` of the scenario does not
return the empty string with the cursor at the bottom; it returns `d` and the
cursor is not at the insertion point. -/
theorem scenario_capacity_three_counterexample :
    (run_calls 4 (fresh 7 (Short.ofInt 3) (Short.ofInt 0) false none) 0
        [Call.add "a" false, Call.add "b" false, Call.add "c" false, Call.add "d" false,
          Call.prev, Call.prev, Call.prev, Call.next, Call.next]).bind
      (fun r => .ok (r.2, mutt_history_at_scratch r.1 0)) ≠
      .ok (["d", "c", "b", "c", ""], true) := by
  decide

/-! ## The history file never disturbs the rings -/

theorem digitChar_isDigit (k : Nat) (hk : k < 10) : (Nat.digitChar k).isDigit = true := by
  interval_cases k <;> decide

theorem toDigitsCore_isDigit : ∀ (fuel n : Nat) (ds : List Char),
    (∀ c ∈ ds, c.isDigit = true) → ∀ c ∈ Nat.toDigitsCore 10 fuel n ds, c.isDigit = true
  | 0, _, ds, hds => by simpa [Nat.toDigitsCore] using hds
  | fuel + 1, n, ds, hds => by
    have hd := digitChar_isDigit (n % 10) (Nat.mod_lt _ (by decide))
    have hcons : ∀ c ∈ Nat.digitChar (n % 10) :: ds, c.isDigit = true := by
      intro c hc
      rcases List.mem_cons.mp hc with rfl | hc
      · exact hd
      · exact hds c hc
    simp only [Nat.toDigitsCore]
    split
    · exact hcons
    · exact toDigitsCore_isDigit fuel (n / 10) _ hcons

theorem toDigitsCore_ne_nil : ∀ (fuel n : Nat) (ds : List Char),
    (ds ≠ [] ∨ 0 < fuel) → Nat.toDigitsCore 10 fuel n ds ≠ []
  | 0, _, ds, h => by
    rcases h with h | h
    · simpa [Nat.toDigitsCore] using h
    · omega
  | fuel + 1, n, ds, _ => by
    simp only [Nat.toDigitsCore]
    split
    · simp
    · exact toDigitsCore_ne_nil fuel (n / 10) _ (Or.inl (by simp))

theorem toString_nat_digits (n : Nat) :
    (toString n).data ≠ [] ∧ ∀ c ∈ (toString n).data, c.isDigit = true := by
  have h : (toString n).data = Nat.toDigitsCore 10 (n + 1) n [] := rfl
  rw [h]
  exact ⟨toDigitsCore_ne_nil _ _ _ (Or.inr (by omega)),
    toDigitsCore_isDigit _ _ _ (by simp)⟩

theorem isDigit_not_space (c : Char) (h : c.isDigit = true) :
    isspace c = false ∧ c ≠ '+' ∧ c ≠ '-' ∧ c ≠ ':' := by
  have hne : ∀ d : Char, d.isDigit = false → c ≠ d := by
    intro d hd hcd
    rw [hcd, hd] at h
    cases h
  refine ⟨?_, hne _ (by decide), hne _ (by decide), hne _ (by decide)⟩
  simp only [isspace, Bool.or_eq_false_iff, decide_eq_false_iff_not]
  exact ⟨⟨⟨⟨⟨hne _ (by decide), hne _ (by decide)⟩, hne _ (by decide)⟩, hne _ (by decide)⟩,
    hne _ (by decide)⟩, hne _ (by decide)⟩

theorem takeWhile_digits (ds rest : List Char) (hds : ∀ c ∈ ds, c.isDigit = true) :
    (ds ++ ':' :: rest).takeWhile Char.isDigit = ds ∧
    (ds ++ ':' :: rest).dropWhile Char.isDigit = ':' :: rest := by
  induction ds with
  | nil => simp [List.takeWhile, List.dropWhile, show Char.isDigit ':' = false by decide]
  | cons d ds ih =>
    have hd := hds d (List.mem_cons_self _ _)
    have := ih (fun c hc => hds c (List.mem_cons_of_mem _ hc))
    simp [List.takeWhile, List.dropWhile, hd, this]

theorem sscanf_class_digits (ds rest : List Char) (hne : ds ≠ [])
    (hds : ∀ c ∈ ds, c.isDigit = true) :
    sscanf_class (String.mk (ds ++ ':' :: rest)) =
      (1, ((digits_value ds : Nat) : Int), some (ds.length + 1)) := by
  obtain ⟨d, ds', rfl⟩ := List.exists_cons_of_ne_nil hne
  have hd := isDigit_not_space d (hds d (List.mem_cons_self _ _))
  obtain ⟨ht, hdr⟩ := takeWhile_digits (d :: ds') rest hds
  simp only [sscanf_class]
  have hbody : List.dropWhile isspace (d :: ds' ++ ':' :: rest) = d :: ds' ++ ':' :: rest := by
    simp [List.dropWhile, hd.1]
  rw [hbody]
  simp only [List.cons_append] at ht hdr ⊢
  simp [hd.2.1, hd.2.2.1, ht, hdr]

theorem sscanf_class_colon (l : String) (rd : Nat) (h : (sscanf_class l).2.2 = some rd) :
    ∃ pre rest, l.data = pre ++ ':' :: rest ∧ rd = pre.length + 1 := by
  have hsplit := List.takeWhile_append_dropWhile isspace l.data
  simp only [sscanf_class] at h
  generalize hb : List.dropWhile isspace l.data = body at h hsplit
  generalize List.takeWhile isspace l.data = ws at hsplit
  cases body with
  | nil => simp at h
  | cons c rest =>
    simp only at h
    generalize hafter : (if (c = '+' || c = '-') = true then rest else c :: rest) = after at h
    have hds := List.takeWhile_append_dropWhile Char.isDigit after
    generalize List.takeWhile Char.isDigit after = ds at h hds
    generalize List.dropWhile Char.isDigit after = tail at h hds
    have hlen : l.data.length - (c :: rest).length = ws.length := by
      rw [← hsplit]; simp
    rw [hlen] at h
    split at h
    · simp at h
    · split at h
      · next r =>
        simp only [Option.some.injEq] at h
        by_cases hs : (c = '+' || c = '-') = true
        · simp only [hs, if_true] at hafter h
          subst hafter
          refine ⟨ws ++ c :: ds, r, ?_, ?_⟩
          · rw [← hsplit, ← hds]; simp
          · rw [← h]; simp; omega
        · simp only [hs] at hafter h
          simp only [Bool.false_eq_true, if_false] at hafter h
          subst hafter
          refine ⟨ws ++ ds, r, ?_, ?_⟩
          · rw [← hsplit, ← hds]; simp
          · rw [← h]; simp
      · simp at h

theorem parse_line_defined (l : String)
    (hd : (sscanf_class l).1 < 1 ∨ (sscanf_class l).2.2 ≠ none) (read : Option Nat) :
    ∃ x read', parse_line read l = .ok (x, read') ∧
      (x ≠ none → ∃ rd t, read' = some rd ∧ line_text l rd = .ok t) := by
  unfold parse_line
  by_cases h1 : (sscanf_class l).1 < 1
  · exact ⟨none, read, by simp [h1], by simp⟩
  · have h2 : (sscanf_class l).2.2 ≠ none := hd.resolve_left h1
    obtain ⟨rd, hrd⟩ := Option.ne_none_iff_exists'.mp h2
    obtain ⟨pre, rest, hdata, hlen⟩ := sscanf_class_colon l rd hrd
    simp only [h1, if_false, hrd, Option.isSome_some, if_true]
    by_cases h3 : rd = 0
    · exact ⟨none, some rd, by simp [h3], by simp⟩
    · by_cases h4 : l.data.getLast? ≠ some '|'
      · exact ⟨none, some rd, by simp [h3, h4], by simp⟩
      · by_cases h5 : (sscanf_class l).2.1 < 0
        · exact ⟨none, some rd, by simp [h3, h4, h5], by simp⟩
        · refine ⟨some (sscanf_class l).2.1, some rd, by simp [h3, h4, h5], fun _ => ?_⟩
          have hrest : rest ≠ [] := by
            intro hr
            apply h4
            simp [hdata, hr] at h4
          have hle : rd ≤ l.data.length - 1 := by
            have : 0 < rest.length := List.length_pos.mpr hrest
            rw [hdata, hlen]; simp; omega
          have hle' : rd ≤ l.length - 1 := hle
          exact ⟨rd, String.mk ((l.data.take (l.data.length - 1)).drop rd), rfl,
            by simp [line_text, hle']⟩
theorem shrink_count_ok (g : Globals) : ∀ (lines : List String),
    (∀ l ∈ lines, (sscanf_class l).1 < 1 ∨ (sscanf_class l).2.2 ≠ none) →
    ∀ (line : Nat) (st : ShrinkState), ∃ r, shrink_count g lines line st = .ok r
  | [], _, _, _ => ⟨_, rfl⟩
  | l :: rest, hall, line, st => by
    have ih := shrink_count_ok g rest (fun x hx => hall x (List.mem_cons_of_mem _ hx))
    obtain ⟨x, read', hp, ht⟩ := parse_line_defined l (hall l (List.mem_cons_self _ _)) st.read
    cases x with
    | none => exact ⟨.error (line + 1), by simp [shrink_count, hp]⟩
    | some hclass =>
      obtain ⟨rd, t, hr, hlt⟩ := ht (by simp)
      subst hr
      simp only [shrink_count, hp, Option.getD_some, hlt]
      split
      · exact ih _ _
      · split
        · exact ih _ _
        · exact ih _ _

theorem shrink_write_ok (g : Globals) : ∀ (lines : List String),
    (∀ l ∈ lines, (sscanf_class l).1 < 1 ∨ (sscanf_class l).2.2 ≠ none) →
    ∀ (line : Nat) (st : ShrinkState) (tmp : List String),
      ∃ out bad, shrink_write g lines line st tmp = .ok (out, bad) ∧
        ∀ x ∈ out, x ∈ tmp ∨ x ∈ lines
  | [], _, _, _, tmp => ⟨tmp, none, rfl, fun x hx => Or.inl hx⟩
  | l :: rest, hall, line, st, tmp => by
    have ih := shrink_write_ok g rest (fun x hx => hall x (List.mem_cons_of_mem _ hx))
    have lift : ∀ (line : Nat) (st : ShrinkState) (tmp' : List String),
        (∀ x ∈ tmp', x ∈ tmp ∨ x ∈ l :: rest) →
        ∃ out bad, shrink_write g rest line st tmp' = .ok (out, bad) ∧
          ∀ x ∈ out, x ∈ tmp ∨ x ∈ l :: rest := by
      intro line st tmp' htmp
      obtain ⟨out, bad, hrun, hsub⟩ := ih line st tmp'
      refine ⟨out, bad, hrun, fun x hx => ?_⟩
      rcases hsub x hx with h | h
      · exact htmp x h
      · exact Or.inr (List.mem_cons_of_mem _ h)
    obtain ⟨x, read', hp, ht⟩ := parse_line_defined l (hall l (List.mem_cons_self _ _)) st.read
    cases x with
    | none => exact ⟨tmp, some (line + 1), by simp [shrink_write, hp], fun x hx => Or.inl hx⟩
    | some hclass =>
      obtain ⟨rd, t, hr, hlt⟩ := ht (by simp)
      subst hr
      simp only [shrink_write, hp, Option.getD_some, hlt]
      split
      · exact lift _ _ _ (fun x hx => Or.inl hx)
      · split
        · exact lift _ _ _ (fun x hx => Or.inl hx)
        · split
          · refine lift _ _ _ (fun x hx => ?_)
            rcases List.mem_append.mp hx with h | h
            · exact Or.inl h
            · rw [List.mem_singleton] at h
              exact Or.inr (h ▸ List.mem_cons_self _ _)
          · exact lift _ _ _ (fun x hx => Or.inl hx)

theorem shrink_histfile_ok (g : Globals) (hf : histfile_defined g) :
    ∃ g', shrink_histfile g = .ok g' ∧ histfile_defined g' ∧ same_rings g g' ∧
      g'.save_n = g.save_n := by
  unfold shrink_histfile
  cases hfile : g.HistoryFile with
  | none => exact ⟨g, rfl, hf, by simp [same_rings], rfl⟩
  | some file =>
    have hall := hf file hfile
    simp only
    obtain ⟨r, hr⟩ := shrink_count_ok g file hall 0
      { read := none, n := List.replicate (HC_LAST g) 0,
        dup_hashes := List.replicate (HC_LAST g) [], regen_file := false }
    rw [hr]
    have keep : ∀ g' : Globals, g'.HistoryFile = some file → histfile_defined g' := by
      intro g' hg' file' hfile'
      rw [hg'] at hfile'
      cases hfile'
      exact hall
    cases r with
    | error line => exact ⟨_, rfl, keep _ rfl, by simp [same_rings], rfl⟩
    | ok st =>
      simp only
      split
      · split
        · obtain ⟨out, bad, hw, hsub⟩ := shrink_write_ok g file hall 0 st []
          rw [hw]
          simp only
          split
          · refine ⟨_, rfl, ?_, by simp [same_rings], rfl⟩
            intro file' hfile' l hl
            simp only [Option.some.injEq] at hfile'
            subst hfile'
            rcases hsub l hl with h | h
            · simp at h
            · exact hall l h
          · exact ⟨_, rfl, keep _ rfl, by simp [same_rings], rfl⟩
        · exact ⟨_, rfl, keep _ rfl, by simp [same_rings], rfl⟩
      · exact ⟨g, rfl, hf, by simp [same_rings], rfl⟩

theorem history_line_defined (hclass : Nat) (tmp : String) :
    (sscanf_class (history_line hclass tmp)).2.2 ≠ none := by
  obtain ⟨hne, hds⟩ := toString_nat_digits hclass
  have : history_line hclass tmp =
      String.mk ((toString hclass).data ++
        ':' :: (tmp.data.filter (fun c => c ≠ '\n') ++ ['|'])) := by
    apply String.ext
    simp [history_line]
  rw [this, sscanf_class_digits _ _ hne hds]
  simp

theorem save_history_ok (g : Globals) (hclass : Nat) (s : String) (hf : histfile_defined g) :
    ∃ g', save_history g hclass s = .ok g' ∧ histfile_defined g' ∧ same_rings g g' := by
  unfold save_history
  split
  · exact ⟨g, rfl, hf, by simp [same_rings]⟩
  · split
    · refine ⟨_, rfl, ?_, by simp [same_rings]⟩
      intro file hfile
      exact hf file hfile
    · have hdef : ∀ n, histfile_defined
          { g with
            HistoryFile := some (g.HistoryFile.getD [] ++
              [history_line hclass (mutt_convert_string s)])
            save_n := n } := by
        intro n file hfile l hl
        simp only [Option.some.injEq] at hfile
        subst hfile
        rcases List.mem_append.mp hl with h | h
        · cases hg : g.HistoryFile with
          | none => simp [hg] at h
          | some f => rw [hg] at h; exact hf f hg l h
        · rw [List.mem_singleton] at h
          subst h
          exact Or.inr (history_line_defined _ _)
      simp only
      split
      · obtain ⟨g', hrun, hd', hsame, _⟩ := shrink_histfile_ok _ (hdef g.SaveHistory.val)
        refine ⟨g', hrun, hd', ?_⟩
        simpa [same_rings] using hsame
      · exact ⟨_, rfl, hdef _, by simp [same_rings]⟩

/-! ## Accepted insertions -/

theorem get_history_same_rings {g g' : Globals} (h : same_rings g g') (c : Nat) :
    get_history g' c = get_history g c := by
  simp [get_history, HC_LAST, h.1]

theorem accept_iff (e : Option String) (s : String) :
    (e = none ∨ mutt_str_strcmp e s ≠ 0) ↔ e ≠ some s := by
  rw [Ne, mutt_str_strcmp_eq_zero]
  cases e with
  | none => simp
  | some t => simp [NONULL]

theorem add_unfold (g : Globals) (hclass : Nat) (h : History) (s : String) (save : Bool)
    (hs : RingSlots g hclass h) (hlast : InRing g h.last.val)
    (h1 : s ≠ "") (h2 : starts_with_space s = false)
    (h3 : h.hist.getD (prev_index g h).toNat none ≠ some s) :
    mutt_history_add g hclass s save =
      (add_dedup g hclass s).bind fun g1 =>
        (add_save g1 hclass s save).bind fun g2 => add_store g2 hclass s := by
  obtain ⟨hg, hN, hlen⟩ := hs
  obtain ⟨hl0, hl1⟩ := hlast
  have hN0 : g.History.val ≠ 0 := by omega
  have hp0 : 0 ≤ prev_index g h := by unfold prev_index; split <;> omega
  have hp1 : prev_index g h < h.hist.length := by unfold prev_index; split <;> omega
  have hget := hist_get_ok h.hist (prev_index g h) hp0 hp1
  have hacc := (accept_iff (h.hist.getD (prev_index g h).toNat none) s).mpr h3
  simp only [mutt_history_add, hg, hN0, if_false, h1, h2, hget, if_pos hacc]
  simp only [Bool.false_eq_true, if_false]
  cases add_dedup g hclass s with
  | fault => rfl
  | timeout => rfl
  | ok g1 =>
    simp only [Res.bind]
    cases add_save g1 hclass s save <;> rfl

theorem next_last_val (g : Globals) (h : History) (hlast : InRing g h.last.val) :
    (next_last g h).val =
      if h.last.val = 32767 then -32768 else (h.last.val + 1) % (g.History.val + 1) := by
  obtain ⟨hl0, hl1⟩ := hlast
  have hH := g.History.hi
  unfold next_last
  by_cases h32 : h.last.val = 32767
  · have hv : (Short.ofInt (h.last.val + 1)).val = -32768 := by
      rw [h32]; decide
    rw [hv, if_neg (by omega), hv, if_pos h32]
  · have hv : (Short.ofInt (h.last.val + 1)).val = h.last.val + 1 :=
      Short.ofInt_val _ (by omega) (by omega)
    rw [hv, if_neg h32]
    by_cases hN : h.last.val + 1 > g.History.val
    · have : h.last.val + 1 = g.History.val + 1 := by omega
      rw [if_pos hN, this, Int.emod_self]; rfl
    · rw [if_neg hN, hv, Int.emod_eq_of_lt (by omega) (by omega)]

theorem add_store_ok (g : Globals) (hclass : Nat) (h : History) (s : String)
    (hg : get_history g hclass = some h) (hl0 : 0 ≤ h.last.val)
    (hl1 : h.last.val < h.hist.length) :
    add_store g hclass s =
      .ok (put_history g hclass
        { hist := h.hist.set h.last.val.toNat (mutt_str_strdup s),
          cur := next_last g h, last := next_last g h }) := by
  simp only [add_store, hg, hist_set_ok h.hist h.last.val _ hl0 hl1]
  rfl

theorem add_save_ok (g : Globals) (hclass : Nat) (s : String) (save : Bool)
    (hf : histfile_defined g) :
    ∃ g', add_save g hclass s save = .ok g' ∧ histfile_defined g' ∧ same_rings g g' := by
  unfold add_save
  split
  · exact save_history_ok g hclass s hf
  · exact ⟨g, rfl, hf, by simp [same_rings]⟩

theorem put_same_rings {g g' : Globals} (hsame : same_rings g g') (c : Nat) (h : History) :
    same_rings (put_history g c h) (put_history g' c h) := by
  obtain ⟨h1, h2, h3, h4, h5, h6, h7⟩ := hsame
  simp [same_rings, put_history, h1, h2, h3, h4, h5, h6, h7]

theorem histfile_defined_put {g : Globals} (hf : histfile_defined g) (c : Nat) (h : History) :
    histfile_defined (put_history g c h) := by
  intro file hfile
  exact hf file hfile

/-- What an accepted insertion does once the dedup step has left the state
`g1` with the ring `h1`: the file step changes no ring, and the text is stored
at `h1.last`, which then moves on. -/
theorem add_after_dedup (g g1 : Globals) (hclass : Nat) (h h1 : History) (s : String)
    (save : Bool) (hs : RingSlots g hclass h) (hlast : InRing g h.last.val)
    (hacc1 : s ≠ "") (hacc2 : starts_with_space s = false)
    (hacc3 : h.hist.getD (prev_index g h).toNat none ≠ some s)
    (hdedup : add_dedup g hclass s = .ok g1) (hf1 : histfile_defined g1)
    (hg1 : get_history g1 hclass = some h1) (hl0 : 0 ≤ h1.last.val)
    (hl1 : h1.last.val < h1.hist.length) :
    ∃ g2, same_rings g1 g2 ∧ histfile_defined g2 ∧
      mutt_history_add g hclass s save =
        .ok (put_history g2 hclass
          { hist := h1.hist.set h1.last.val.toNat (some s),
            cur := next_last g1 h1, last := next_last g1 h1 }) := by
  obtain ⟨g2, hsave, hf2, hsame⟩ := add_save_ok g1 hclass s save hf1
  refine ⟨g2, hsame, hf2, ?_⟩
  have hg2 : get_history g2 hclass = some h1 := by
    rw [get_history_same_rings hsame, hg1]
  have hnl : next_last g2 h1 = next_last g1 h1 := by
    simp [next_last, hsame.2.2.1]
  have hdup : mutt_str_strdup s = some s := by simp [mutt_str_strdup, hacc1]
  rw [add_unfold g hclass h s save hs hlast hacc1 hacc2 hacc3, hdedup]
  simp only [Res.bind, hsave]
  rw [add_store_ok g2 hclass h1 s hg2 hl0 hl1, hnl, hdup]

/-- C1, as the code has it. Without dedup, for an accepted text (not empty, not
beginning with a space, different from the entry just before `last`) and a
history file that can be read back, `mutt_history_add` stores the text in
`slots[last]`, leaves every other slot and every other class alone, and sets
`cur` to the new `last`. The new `last` is `(last + 1) mod (N + 1)` except when
`last = 32767`, the largest `short`: there `h->last++` wraps to `-32768`, the
test `h->last > History` fails, and `last` and `cur` end outside the ring. -/
theorem mutt_history_add_accepted (g : Globals) (hclass : Nat) (h : History) (s : String)
    (save : Bool) (hs : RingSlots g hclass h) (hlast : InRing g h.last.val)
    (hfile : histfile_defined g) (hdedup : g.OPT_HISTORY_REMOVE_DUPS = false)
    (hacc1 : s ≠ "") (hacc2 : starts_with_space s = false)
    (hacc3 : h.hist.getD (prev_index g h).toNat none ≠ some s) :
    ∃ g' h', mutt_history_add g hclass s save = .ok g' ∧
      get_history g' hclass = some h' ∧
      h'.hist = h.hist.set h.last.val.toNat (some s) ∧
      h'.last.val =
        (if h.last.val = 32767 then -32768 else (h.last.val + 1) % (g.History.val + 1)) ∧
      h'.cur = h'.last ∧
      (∀ c, c ≠ hclass → get_history g' c = get_history g c) ∧
      g'.History = g.History := by
  have hs' := hs
  obtain ⟨hg, hN, hlen⟩ := hs
  have hd : add_dedup g hclass s = .ok g := by simp [add_dedup, hdedup]
  obtain ⟨g2, hsame, _, hrun⟩ := add_after_dedup g g hclass h h s save hs' hlast hacc1 hacc2
    hacc3 hd hfile hg hlast.1 (by have := hlast.2; omega)
  obtain ⟨hc, _⟩ := get_history_some hg
  have hc2 : hclass < g2.Histories.length := by rw [hsame.1]; exact hc
  refine ⟨_, _, hrun, get_put_same _ hc2, rfl, next_last_val g h hlast, rfl, ?_, ?_⟩
  · intro c hne
    rw [get_put_other g2 _ hne, get_history_same_rings hsame]
  · simp [put_history, hsame.2.2.1]

theorem overflow_hist_length : overflow_hist.length = 32768 := by
  unfold overflow_hist
  rw [List.length_append, List.length_map, List.length_range]
  rfl

theorem overflow_hist_getD (i : Nat) (hi : i < 32767) :
    overflow_hist.getD i none = some (if i % 2 = 0 then "a" else "b") := by
  unfold overflow_hist
  rw [List.getD_eq_getElem?_getD, List.getElem?_append_left (by simpa using hi),
    List.getElem?_map, List.getElem?_range hi]
  rfl

theorem overflow_ring (dedup : Bool) :
    RingSlots (overflow_example dedup) 0
        { hist := overflow_hist, cur := Short.ofInt 32767, last := Short.ofInt 32767 } ∧
      InRing (overflow_example dedup) 32767 ∧ histfile_defined (overflow_example dedup) := by
  have hH : (overflow_example dedup).History.val = 32767 := rfl
  refine ⟨⟨rfl, by rw [hH]; decide, ?_⟩, ⟨by decide, by rw [hH]⟩, ?_⟩
  · show ((overflow_hist.length : Nat) : Int) = _
    rw [overflow_hist_length, hH]; rfl
  · intro file hfile
    cases hfile

theorem mutt_history_add_accepted_witness :
    ∃ g' h', mutt_history_add (overflow_example false) 0 "x" false = .ok g' ∧
      get_history g' 0 = some h' ∧
      h'.hist = overflow_hist.set 32767 (some "x") ∧
      h'.last.val = -32768 ∧
      h'.cur = h'.last ∧
      (∀ c, c ≠ 0 → get_history g' c = get_history (overflow_example false) c) ∧
      g'.History = Short.ofInt 32767 :=
  mutt_history_add_accepted (overflow_example false) 0
    { hist := overflow_hist, cur := Short.ofInt 32767, last := Short.ofInt 32767 } "x" false
    (overflow_ring false).1 (overflow_ring false).2.1 (overflow_ring false).2.2 rfl
    (by decide) (by decide)
    (by
      have h := overflow_hist_getD 32766 (by decide)
      have hp : (prev_index (overflow_example false)
          { hist := overflow_hist, cur := Short.ofInt 32767,
            last := Short.ofInt 32767 }).toNat = 32766 := by decide
      rw [hp, h]
      decide)

/-! ## Dedup when nothing matches -/

theorem set_getD_self (hist : List (Option String)) (i : Nat) (hi : i < hist.length) :
    hist.set i (hist.getD i none) = hist := by
  apply List.ext_getElem?
  intro j
  by_cases hj : i = j
  · subst hj
    rw [List.getElem?_set_self hi, List.getD_eq_getElem?_getD, List.getElem?_eq_getElem hi]
    rfl
  · rw [List.getElem?_set_ne hj]

theorem dups_up_id (s : String) (last : Int) (hist : List (Option String))
    (hlast : last < hist.length) :
    ∀ (fuel : Nat) (source : Int), 0 ≤ source → source ≤ last →
      (last - source).toNat ≤ fuel →
      (∀ i : Int, source ≤ i → i < last → NONULL (hist.getD i.toNat none) ≠ s) →
      dups_up s last fuel source source hist = .ok (last, last, hist) := by
  intro fuel
  induction fuel with
  | zero =>
    intro source h0 h1 hf _
    have : source = last := by omega
    simp [dups_up, this]
  | succ fuel ih =>
    intro source h0 h1 hf hno
    by_cases hlt : source < last
    · have hget := hist_get_ok hist source h0 (by omega)
      have hne : mutt_str_strcmp (hist.getD source.toNat none) s ≠ 0 := by
        rw [Ne, mutt_str_strcmp_eq_zero]
        exact hno source (le_refl _) hlt
      have hset := hist_set_ok hist source (hist.getD source.toNat none) h0 (by omega)
      rw [set_getD_self hist source.toNat (by omega)] at hset
      simp only [dups_up, hlt, if_true, hget, hne, if_false, hset]
      exact ih (source + 1) (by omega) (by omega) (by omega)
        (fun i hi1 hi2 => hno i (by omega) hi2)
    · have : source = last := by omega
      simp [dups_up, this]

theorem dups_down_id (s : String) (old_last : Int) (hist : List (Option String))
    (hlast : 0 ≤ old_last) :
    ∀ (fuel : Nat) (source : Int), old_last ≤ source → source < hist.length →
      (source - old_last).toNat ≤ fuel →
      (∀ i : Int, old_last < i → i ≤ source → NONULL (hist.getD i.toNat none) ≠ s) →
      dups_down s old_last fuel source source hist = .ok (old_last, old_last, hist) := by
  intro fuel
  induction fuel with
  | zero =>
    intro source h0 h1 hf _
    have : source = old_last := by omega
    simp [dups_down, this]
  | succ fuel ih =>
    intro source h0 h1 hf hno
    by_cases hlt : source > old_last
    · have hget := hist_get_ok hist source (by omega) h1
      have hne : mutt_str_strcmp (hist.getD source.toNat none) s ≠ 0 := by
        rw [Ne, mutt_str_strcmp_eq_zero]
        exact hno source hlt (le_refl _)
      have hset := hist_set_ok hist source (hist.getD source.toNat none) (by omega) h1
      rw [set_getD_self hist source.toNat (by omega)] at hset
      simp only [dups_down, hlt, if_true, hget, hne, if_false, hset]
      exact ih (source - 1) (by omega) (by omega) (by omega)
        (fun i hi1 hi2 => hno i hi1 (by omega))
    · have : source = old_last := by omega
      simp [dups_down, this]

theorem fill_null_id (bound : Int) (fuel : Nat) (hist : List (Option String)) :
    fill_null bound fuel bound hist = .ok (bound, hist) := by
  cases fuel <;> simp [fill_null]

theorem remove_dups_ring_id (g : Globals) (h : History) (s : String)
    (hlen : (h.hist.length : Int) = g.History.val + 1) (hlast : InRing g h.last.val)
    (hno : ∀ i : Int, InRing g i → i ≠ h.last.val → NONULL (h.hist.getD i.toNat none) ≠ s) :
    remove_dups_ring g h s = .ok h := by
  obtain ⟨hl0, hl1⟩ := hlast
  have hup := dups_up_id s h.last.val h.hist (by omega) h.last.val.toNat 0 (le_refl _) hl0
    (by omega) (fun i hi1 hi2 => hno i ⟨hi1, by omega⟩ (by omega))
  have hdown := dups_down_id s h.last.val h.hist hl0 (g.History.val - h.last.val).toNat
    g.History.val hl1 (by omega) (le_refl _) (fun i hi1 hi2 => hno i ⟨by omega, hi2⟩ (by omega))
  have hget := hist_get_ok h.hist h.last.val hl0 (by omega)
  have hset := hist_set_ok h.hist h.last.val (h.hist.getD h.last.val.toNat none) hl0 (by omega)
  rw [set_getD_self h.hist h.last.val.toNat (by omega)] at hset
  simp only [remove_dups_ring, hup, Res.ok_bind, hget, hset, Short.ofInt_self, fill_null_id,
    hdown, Res.pure_eq]

/-! ## Filling a fresh ring -/

theorem fresh_ring (classes hclass : Nat) (H SH : Short) (dedup : Bool)
    (file : Option (List String)) (hc : hclass < classes) (hN : 1 ≤ H.val) :
    get_history (fresh classes H SH dedup file) hclass =
        some (filled (fresh classes H SH dedup file) []) ∧
      (fresh classes H SH dedup file).History = H ∧
      (fresh classes H SH dedup file).HistoryFile = file ∧
      (fresh classes H SH dedup file).OPT_HISTORY_REMOVE_DUPS = dedup := by
  have hne : ¬ H.val = 0 := by omega
  have hH : (fresh classes H SH dedup file).History = H := by
    simp [fresh, mutt_init_history, startup, hne]
  refine ⟨?_, hH, by simp [fresh, mutt_init_history, startup, hne],
    by simp [fresh, mutt_init_history, startup, hne]⟩
  have h0 : (Short.ofInt (0 : Int)).val = 0 := by decide
  simp only [filled, fill_last, hH, List.map_nil, List.nil_append, List.length_nil, Nat.sub_zero,
    Nat.cast_zero, h0]
  rw [if_neg (by omega)]
  simp [fresh, mutt_init_history, startup, hne, get_history, HC_LAST, hc, init_history]

theorem filled_facts (g : Globals) (ts : List String) (hk : (ts.length : Int) ≤ g.History.val) :
    (filled g ts).last.val = ts.length ∧
      ((filled g ts).hist.length : Int) = g.History.val + 1 := by
  have hH := g.History.hi
  have hv : (Short.ofInt (ts.length : Int)).val = ts.length :=
    Short.ofInt_val _ (by omega) (by omega)
  constructor
  · simp only [filled, fill_last, hv]
    rw [if_neg (by omega), hv]
  · simp only [filled, List.length_append, List.length_map, List.length_replicate]
    omega

theorem filled_getD (g : Globals) (ts : List String) (i : Nat) :
    (filled g ts).hist.getD i none = none ∨ ∃ t ∈ ts, (filled g ts).hist.getD i none = some t := by
  rw [List.getD_eq_getElem?_getD]
  cases hi : (filled g ts).hist[i]? with
  | none => exact Or.inl rfl
  | some x =>
    have hm := List.getElem?_mem hi
    simp only [filled, List.mem_append, List.mem_map, List.mem_replicate] at hm
    rcases hm with ⟨t, ht, rfl⟩ | ⟨_, rfl⟩
    · exact Or.inr ⟨t, ht, rfl⟩
    · exact Or.inl rfl

theorem filled_snoc (g : Globals) (ts : List String) (s : String)
    (hk : (ts.length : Int) ≤ g.History.val) :
    (filled g ts).hist.set ts.length (some s) = (filled g (ts ++ [s])).hist := by
  have hsub : (g.History.val + 1).toNat - ts.length
      = ((g.History.val + 1).toNat - (ts.length + 1)) + 1 := by omega
  simp only [filled, List.map_append, List.map_cons, List.map_nil, List.length_append,
    List.length_cons, List.length_nil]
  rw [hsub, List.replicate_succ]
  have : ts.length = (ts.map some).length + 0 := by simp
  rw [this, List.set_append_right _ _ (by simp)]
  simp

theorem filled_congr {g g' : Globals} (h : g'.History = g.History) (ts : List String) :
    filled g' ts = filled g ts := by
  simp [filled, fill_last, h]

theorem add_fill_step (g : Globals) (hclass : Nat) (pre : List String) (s : String)
    (save : Bool) (hg : get_history g hclass = some (filled g pre)) (hN : 1 ≤ g.History.val)
    (hk : (pre.length : Int) ≤ g.History.val) (hf : histfile_defined g)
    (hs1 : s ≠ "") (hs2 : starts_with_space s = false) (hnot : s ∉ pre) :
    ∃ g', mutt_history_add g hclass s save = .ok g' ∧
      get_history g' hclass = some (filled g' (pre ++ [s])) ∧
      g'.History = g.History ∧ histfile_defined g' ∧
      g'.OPT_HISTORY_REMOVE_DUPS = g.OPT_HISTORY_REMOVE_DUPS := by
  obtain ⟨hlv, hlen⟩ := filled_facts g pre hk
  have hs : RingSlots g hclass (filled g pre) := ⟨hg, hN, hlen⟩
  have hlast : InRing g (filled g pre).last.val := by rw [hlv]; exact ⟨by omega, hk⟩
  have hne : ∀ i : Nat, (filled g pre).hist.getD i none ≠ some s := by
    intro i
    rcases filled_getD g pre i with h | ⟨t, ht, h⟩
    · rw [h]; simp
    · rw [h]; intro heq; cases heq; exact hnot ht
  have hno : ∀ i : Nat, NONULL ((filled g pre).hist.getD i none) ≠ s := by
    intro i
    rcases filled_getD g pre i with h | ⟨t, ht, h⟩
    · rw [h]; exact fun heq => hs1 heq.symm
    · rw [h]; intro heq; exact hnot (by rw [← heq]; exact ht)
  have hd : add_dedup g hclass s = .ok g := by
    unfold add_dedup
    split
    · have hN0 : g.History.val ≠ 0 := by omega
      simp only [remove_history_dups, hg, hN0, if_false,
        remove_dups_ring_id g (filled g pre) s hlen hlast (fun i _ _ => hno i.toNat),
        Res.ok_bind, Res.pure_eq, put_get_self hg]
    · rfl
  obtain ⟨g2, hsame, hf2, hrun⟩ := add_after_dedup g g hclass (filled g pre) (filled g pre) s
    save hs hlast hs1 hs2 (hne _) hd hf hg hlast.1 (by have := hlast.2; omega)
  obtain ⟨hc, _⟩ := get_history_some hg
  have hc2 : hclass < g2.Histories.length := by rw [hsame.1]; exact hc
  have hH : (put_history g2 hclass
      { hist := (filled g pre).hist.set (filled g pre).last.val.toNat (some s),
        cur := next_last g (filled g pre),
        last := next_last g (filled g pre) }).History = g.History := by
    simp [put_history, hsame.2.2.1]
  refine ⟨_, hrun, ?_, hH, histfile_defined_put hf2 _ _, hsame.2.2.2.2.1⟩
  rw [get_put_same _ hc2, filled_congr hH]
  have hnl : next_last g (filled g pre) = fill_last g (pre ++ [s]).length := by
    simp only [next_last, fill_last, hlv, List.length_append, List.length_cons, List.length_nil,
      Nat.cast_add, Nat.cast_one, Nat.zero_add]
  have hto : (filled g pre).last.val.toNat = pre.length := by rw [hlv]; simp
  rw [hnl, hto, filled_snoc g pre s hk]
  rfl

theorem adds_fill (fuel : Nat) (hclass : Nat) (save : Bool) :
    ∀ (rest pre : List String) (g : Globals),
      get_history g hclass = some (filled g pre) → 1 ≤ g.History.val →
      ((pre.length + rest.length : Nat) : Int) ≤ g.History.val + 1 → histfile_defined g →
      (pre ++ rest).Nodup → (∀ t ∈ rest, t ≠ "" ∧ starts_with_space t = false) →
      ∃ g', run_calls fuel g hclass (rest.map (fun t => Call.add t save)) = .ok (g', []) ∧
        get_history g' hclass = some (filled g' (pre ++ rest)) ∧
        g'.History = g.History ∧ histfile_defined g' ∧
        g'.OPT_HISTORY_REMOVE_DUPS = g.OPT_HISTORY_REMOVE_DUPS := by
  intro rest
  induction rest with
  | nil =>
    intro pre g hg _ _ hf _ _
    exact ⟨g, rfl, by simpa using hg, rfl, hf, rfl⟩
  | cons s rest ih =>
    intro pre g hg hN hlen hf hnd hacc
    have hnot : s ∉ pre := by
      intro hm
      have := List.nodup_append.mp hnd
      exact this.2.2 hm (List.mem_cons_self _ _)
    obtain ⟨hs1, hs2⟩ := hacc s (List.mem_cons_self _ _)
    obtain ⟨g1, hadd, hg1, hH1, hf1, hd1⟩ := add_fill_step g hclass pre s save hg hN
      (by simp at hlen; omega) hf hs1 hs2 hnot
    obtain ⟨g2, hrun, hg2, hH2, hf2, hd2⟩ := ih (pre ++ [s]) g1 hg1 (by rw [hH1]; exact hN)
      (by rw [hH1]; simp at hlen ⊢; omega) hf1 (by simpa using hnd)
      (fun t ht => hacc t (List.mem_cons_of_mem _ ht))
    refine ⟨g2, ?_, by simpa using hg2, by rw [hH2, hH1], hf2, by rw [hd2, hd1]⟩
    simp [run_calls, run_call, hadd, hrun]

/-! ## Walking back through a full ring -/

theorem run_calls_append (fuel : Nat) (hclass : Nat) :
    ∀ (a b : List Call) (g g1 g2 : Globals) (o1 o2 : List String),
      run_calls fuel g hclass a = .ok (g1, o1) → run_calls fuel g1 hclass b = .ok (g2, o2) →
      run_calls fuel g hclass (a ++ b) = .ok (g2, o1 ++ o2) := by
  intro a
  induction a with
  | nil =>
    intro b g g1 g2 o1 o2 ha hb
    simp only [run_calls, Res.ok.injEq, Prod.mk.injEq] at ha
    obtain ⟨rfl, rfl⟩ := ha
    simpa using hb
  | cons c cs ih =>
    intro b g g1 g2 o1 o2 ha hb
    simp only [run_calls, List.cons_append] at ha ⊢
    cases hc : run_call fuel g hclass c with
    | fault => simp [hc] at ha
    | timeout => simp [hc] at ha
    | ok r =>
      obtain ⟨g', out⟩ := r
      simp only [hc] at ha ⊢
      cases hcs : run_calls fuel g' hclass cs with
      | fault => simp [hcs] at ha
      | timeout => simp [hcs] at ha
      | ok r' =>
        obtain ⟨g'', outs⟩ := r'
        simp only [hcs, Res.ok.injEq, Prod.mk.injEq] at ha
        obtain ⟨rfl, rfl⟩ := ha
        have := ih b g' g'' g2 outs o2 hcs hb
        show (match run_calls fuel g' hclass (cs ++ b) with
          | Res.fault => Res.fault
          | Res.timeout => Res.timeout
          | Res.ok (g, outs) => Res.ok (g, out ++ outs)) = _
        rw [this]
        simp

theorem map_some_getD (ts : List String) (i : Nat) (hi : i < ts.length) :
    (ts.map some).getD i none = some (ts.getD i "") := by
  simp [List.getD_eq_getElem?_getD, List.getElem?_eq_getElem hi]

theorem prev_full_step (g : Globals) (hclass : Nat) (ts : List String) (c L : Short)
    (fuel : Nat) (hg : get_history g hclass = some { hist := ts.map some, cur := c, last := L })
    (hN : 1 ≤ g.History.val) (hlen : (ts.length : Int) = g.History.val + 1)
    (hfuel : 1 ≤ fuel) (hc : c.val ≤ g.History.val + 1) :
    mutt_history_prev fuel g hclass =
      .ok (put_history g hclass
          { hist := ts.map some,
            cur := Short.ofInt (if c.val - 1 < 0 then g.History.val else c.val - 1), last := L },
        ts.getD (if c.val - 1 < 0 then g.History.val else c.val - 1).toNat "") := by
  obtain ⟨f, rfl⟩ : ∃ f, fuel = f + 1 := ⟨fuel - 1, by omega⟩
  have hN0 : g.History.val ≠ 0 := by omega
  have hH := g.History.hi
  generalize hc' : (if c.val - 1 < 0 then g.History.val else c.val - 1) = c'
  have hc0 : 0 ≤ c' := by rw [← hc']; split <;> omega
  have hc1 : c' ≤ g.History.val := by rw [← hc']; split <;> omega
  have hlt : c'.toNat < ts.length := by omega
  have hget : hist_get (ts.map some) c' = .ok (some (ts.getD c'.toNat "")) := by
    rw [hist_get_ok _ _ hc0 (by simp; omega), map_some_getD ts _ hlt]
  have hwalk : prev_walk g { hist := ts.map some, cur := c, last := L } (f + 1) c.val
      = .ok c' := by
    simp only [prev_walk, hc']
    split
    · rfl
    · simp [hget]
  have hv : (Short.ofInt c').val = c' := Short.ofInt_val _ (by omega) (by omega)
  simp only [mutt_history_prev, hg, hN0, if_false, hwalk, Res.ok_bind, hv, hget, Res.pure_eq,
    NONULL]

theorem prevs_down (g0 : Globals) (hclass : Nat) (ts : List String) (L : Short) (fuel : Nat)
    (hN : 1 ≤ g0.History.val) (hlen : (ts.length : Int) = g0.History.val + 1)
    (hfuel : 1 ≤ fuel) :
    ∀ (m c : Nat) (g : Globals), m ≤ c → (c : Int) ≤ g0.History.val →
      g.History = g0.History →
      get_history g hclass = some { hist := ts.map some, cur := Short.ofInt c, last := L } →
      ∃ g', run_calls fuel g hclass (List.replicate m Call.prev) =
        .ok (g', ((ts.take c).drop (c - m)).reverse) := by
  intro m
  induction m with
  | zero =>
    intro c g _ _ _ _
    exact ⟨g, by simp [run_calls]⟩
  | succ m ih =>
    intro c g hmc hcN hH hg
    have hHi := g0.History.hi
    have hcv : (Short.ofInt (c : Int)).val = c := Short.ofInt_val _ (by omega) (by omega)
    have hstep := prev_full_step g hclass ts (Short.ofInt c) L fuel hg (by rw [hH]; exact hN)
      (by rw [hH]; exact hlen) hfuel (by rw [hH, hcv]; omega)
    have hidx : (if (Short.ofInt (c : Int)).val - 1 < 0 then g.History.val
        else (Short.ofInt (c : Int)).val - 1) = ((c - 1 : Nat) : Int) := by
      rw [hcv, if_neg (by omega)]; omega
    rw [hidx] at hstep
    obtain ⟨hcl, _⟩ := get_history_some hg
    obtain ⟨g', hrun⟩ := ih (c - 1) _ (by omega) (by omega)
      (show (put_history g hclass
        { hist := ts.map some, cur := Short.ofInt ((c - 1 : Nat) : Int), last := L }).History
          = g0.History from hH)
      (get_put_same _ hcl)
    refine ⟨g', ?_⟩
    simp only [List.replicate_succ, run_calls, run_call, hstep, hrun, Int.toNat_ofNat]
    have hlt : c - 1 < ts.length := by omega
    have htake : ts.take c = ts.take (c - 1) ++ [ts.getD (c - 1) ""] := by
      have : c = (c - 1) + 1 := by omega
      conv_lhs => rw [this]
      rw [List.take_succ, List.getD_eq_getElem?_getD, List.getElem?_eq_getElem hlt]
      rfl
    have hd : c - (m + 1) = c - 1 - m := by omega
    rw [htake, hd, List.drop_append_of_le_length (by simp; omega)]
    simp

theorem fill_last_full (g : Globals) (k : Nat) (hk : (k : Int) = g.History.val + 1) :
    (fill_last g k).val ≤ 0 ∧ -32768 ≤ (fill_last g k).val := by
  have hH := g.History.hi
  have hL := g.History.lo
  unfold fill_last
  by_cases h32 : g.History.val = 32767
  · have hk' : (k : Int) = 32768 := by omega
    have hv : (Short.ofInt (k : Int)).val = -32768 := by rw [hk']; decide
    rw [hv, if_neg (by omega), hv]; omega
  · have hv : (Short.ofInt (k : Int)).val = k := Short.ofInt_val _ (by omega) (by omega)
    rw [hv, if_pos (by omega)]
    have : (Short.ofInt 0).val = 0 := by decide
    rw [this]; omega

/-- C3, as the code has it. After `N + 1` pairwise distinct accepted texts
`t0..tN` have been inserted into a fresh ring (with or without dedup, persisted
or not), `N + 1` calls of `mutt_history_prev` return `tN, ..., t1, t0`: the first
`N` calls return the `N` most recent texts, newest first, and the call after
them returns the oldest text `t0`, which is still in the slot array. -/
theorem insert_then_prev (classes hclass : Nat) (H SH : Short) (dedup save : Bool)
    (file : Option (List String)) (ts : List String) (fuel : Nat)
    (hc : hclass < classes) (hN : 1 ≤ H.val)
    (hfile : histfile_defined (fresh classes H SH dedup file))
    (hlen : (ts.length : Int) = H.val + 1) (hnd : ts.Nodup)
    (hacc : ∀ t ∈ ts, t ≠ "" ∧ starts_with_space t = false) (hfuel : 1 ≤ fuel) :
    ∃ g', run_calls fuel (fresh classes H SH dedup file) hclass
        (ts.map (fun t => Call.add t save) ++ List.replicate ts.length Call.prev) =
      .ok (g', ts.reverse) := by
  obtain ⟨hg0, hH0, _, _⟩ := fresh_ring classes hclass H SH dedup file hc hN
  obtain ⟨g1, hadds, hg1, hH1, _, _⟩ := adds_fill fuel hclass save ts []
    (fresh classes H SH dedup file) hg0 (by rw [hH0]; exact hN)
    (by rw [hH0]; simpa using hlen.le) hfile (by simpa using hnd) hacc
  rw [hH0] at hH1
  have hlen1 : (ts.length : Int) = g1.History.val + 1 := by rw [hH1]; exact hlen
  have hN1 : 1 ≤ g1.History.val := by rw [hH1]; exact hN
  obtain ⟨hL0, hL1⟩ := fill_last_full g1 ts.length hlen1
  have hfull : filled g1 ([] ++ ts) =
      { hist := ts.map some, cur := fill_last g1 ts.length, last := fill_last g1 ts.length } := by
    have : (g1.History.val + 1).toNat - ts.length = 0 := by omega
    simp [filled, this]
  rw [hfull] at hg1
  have hstep := prev_full_step g1 hclass ts _ _ fuel hg1 hN1 hlen1 hfuel (by omega)
  rw [if_pos (by omega)] at hstep
  obtain ⟨n, hn⟩ : ∃ n : Nat, ts.length = n + 1 := ⟨ts.length - 1, by omega⟩
  have hHn : g1.History.val = (n : Int) := by omega
  rw [hHn] at hstep
  obtain ⟨hcl, _⟩ := get_history_some hg1
  obtain ⟨g2, hdown⟩ := prevs_down g1 hclass ts (fill_last g1 ts.length) fuel hN1 hlen1 hfuel
    n n (put_history g1 hclass ⟨ts.map some, Short.ofInt (n : Int), fill_last g1 ts.length⟩)
    (le_refl _) (by omega) rfl (get_put_same _ hcl)
  have hprevs : run_calls fuel g1 hclass (List.replicate ts.length Call.prev) =
      .ok (g2, ts.reverse) := by
    rw [hn, List.replicate_succ]
    simp only [run_calls, run_call, hstep, hdown, Int.toNat_ofNat, Nat.sub_self, List.drop_zero]
    have hlt : n < ts.length := by omega
    have hts : ts = ts.take n ++ [ts.getD n ""] := by
      have h1 : ts.take (n + 1) = ts := List.take_of_length_le (by omega)
      conv_lhs => rw [← h1]
      rw [List.take_succ, List.getD_eq_getElem?_getD, List.getElem?_eq_getElem hlt]
      rfl
    conv_rhs => rw [hts]
    simp
  refine ⟨g2, ?_⟩
  have := run_calls_append fuel hclass _ _ _ g1 g2 [] ts.reverse hadds hprevs
  simpa using this

theorem insert_then_prev_witness :
    ∃ g', run_calls 1 (fresh 7 (Short.ofInt 2) (Short.ofInt 10) true none) 3
        (["one", "two", "three"].map (fun t => Call.add t true) ++
          List.replicate ["one", "two", "three"].length Call.prev) =
      .ok (g', ["one", "two", "three"].reverse) :=
  insert_then_prev 7 3 (Short.ofInt 2) (Short.ofInt 10) true true none ["one", "two", "three"] 1
    (by decide) (by decide) (by intro f hf; cases hf) (by decide) (by decide) (by decide)
    (by decide)

/-- C3 as stated fails already for capacity 1: after `a` and `b` have been
inserted into a fresh ring, the first `mutt_history_prev` returns `b` and the
second one returns `a`, the oldest text, which the claim says is gone. -/
theorem insert_then_prev_counterexample :
    (run_calls 2 (fresh 7 (Short.ofInt 1) (Short.ofInt 0) false none) 0
        [Call.add "a" false, Call.add "b" false, Call.prev, Call.prev]).bind
      (fun r => .ok r.2) = .ok ["b", "a"] := by
  decide

/-! ## The dedup compaction and the ring invariant -/

theorem getD_append_mid (A J : List (Option String)) (r : Option String)
    (R : List (Option String)) :
    (A ++ J ++ r :: R).getD (A.length + J.length) none = r := by
  rw [List.getD_eq_getElem?_getD, ← List.length_append,
    List.getElem?_append_right (le_refl _)]
  simp

theorem set_append_mid (A J : List (Option String)) (r v : Option String)
    (R : List (Option String)) :
    (A ++ J ++ r :: R).set (A.length + J.length) v = A ++ J ++ v :: R := by
  rw [← List.length_append, List.set_append_right _ _ (le_refl _)]
  simp

theorem set_junk_head (A J : List (Option String)) (r : Option String)
    (R : List (Option String)) :
    (A ++ J ++ r :: R).set A.length r = (A ++ [r]) ++ (J ++ [r]).drop 1 ++ R := by
  cases J with
  | nil => 
    simp
  | cons j J0 =>
    rw [List.append_assoc, List.set_append_right _ _ (le_refl _)]
    simp

theorem dups_up_spec (s : String) : ∀ (fuel : Nat) (A J R : List (Option String)),
    fuel ≤ R.length →
    ∃ J', J'.length + ((R.take fuel).filter (keeps s)).length = J.length + fuel ∧
      dups_up s ((A.length + J.length + fuel : Nat) : Int) fuel
        ((A.length + J.length : Nat) : Int) ((A.length : Nat) : Int) (A ++ J ++ R)
      = .ok (((A.length + J.length + fuel : Nat) : Int),
             ((A.length + ((R.take fuel).filter (keeps s)).length : Nat) : Int),
             A ++ (R.take fuel).filter (keeps s) ++ J' ++ R.drop fuel)
  | 0, A, J, R, _ => ⟨J, by simp, by simp [dups_up]⟩
  | fuel + 1, A, J, [], hf => by simp at hf
  | fuel + 1, A, J, r :: R', hf => by
    have hlt : ((A.length + J.length : Nat) : Int)
        < ((A.length + J.length + (fuel + 1) : Nat) : Int) := by omega
    have hlen : ((A.length + J.length : Nat) : Int) < ((A ++ J ++ r :: R').length : Nat) := by
      simp only [List.length_append, List.length_cons]; omega
    have hlen' : ((A.length : Nat) : Int) < ((A ++ J ++ r :: R').length : Nat) := by
      simp only [List.length_append, List.length_cons]; omega
    have hget : hist_get (A ++ J ++ r :: R') ((A.length + J.length : Nat) : Int) = .ok r := by
      rw [hist_get_ok _ _ (by omega) hlen, Int.toNat_ofNat, getD_append_mid]
    by_cases hk : mutt_str_strcmp r s = 0
    · have hset : hist_set (A ++ J ++ r :: R') ((A.length + J.length : Nat) : Int) none
          = .ok (A ++ (J ++ [none]) ++ R') := by
        rw [hist_set_ok _ _ _ (by omega) hlen, Int.toNat_ofNat, set_append_mid]
        simp
      obtain ⟨J', hJ', hrec⟩ := dups_up_spec s fuel A (J ++ [none]) R' (by simpa using hf)
      have hkf : keeps s r = false := by simp [keeps, hk]
      refine ⟨J', ?_, ?_⟩
      · simp only [List.take_succ_cons, List.filter_cons, hkf, List.length_append,
          List.length_singleton] at hJ' ⊢
        simp only [Bool.false_eq_true, if_false]
        omega
      · unfold dups_up
        rw [if_pos hlt, hget]
        simp only [hk, if_true, hset]
        have e1 : ((A.length + J.length : Nat) : Int) + 1
            = ((A.length + (J ++ [none]).length : Nat) : Int) := by
          simp only [List.length_append, List.length_singleton]; omega
        have e2 : ((A.length + J.length + (fuel + 1) : Nat) : Int)
            = ((A.length + (J ++ [none]).length + fuel : Nat) : Int) := by
          simp only [List.length_append, List.length_singleton]; omega
        rw [e1, e2, hrec]
        simp [hkf]
    · have hset : hist_set (A ++ J ++ r :: R') ((A.length : Nat) : Int) r
          = .ok ((A ++ [r]) ++ (J ++ [r]).drop 1 ++ R') := by
        rw [hist_set_ok _ _ _ (by omega) hlen', Int.toNat_ofNat, set_junk_head]
      have hJl : ((J ++ [r]).drop 1).length = J.length := by simp
      obtain ⟨J', hJ', hrec⟩ := dups_up_spec s fuel (A ++ [r]) ((J ++ [r]).drop 1) R'
        (by simpa using hf)
      have hkf : keeps s r = true := by simp [keeps, hk]
      refine ⟨J', ?_, ?_⟩
      · rw [hJl] at hJ'
        simp only [List.take_succ_cons, List.filter_cons, hkf, if_true, List.length_cons]
        omega
      · unfold dups_up
        rw [if_pos hlt, hget]
        simp only [hk, if_false, hset]
        have e1 : ((A.length + J.length : Nat) : Int) + 1
            = (((A ++ [r]).length + ((J ++ [r]).drop 1).length : Nat) : Int) := by
          rw [hJl]; simp only [List.length_append, List.length_singleton]; omega
        have e2 : ((A.length + J.length + (fuel + 1) : Nat) : Int)
            = (((A ++ [r]).length + ((J ++ [r]).drop 1).length + fuel : Nat) : Int) := by
          rw [hJl]; simp only [List.length_append, List.length_singleton]; omega
        have e3 : ((A.length : Nat) : Int) + 1 = (((A ++ [r]).length : Nat) : Int) := by
          simp
        rw [e1, e2, e3, hrec]
        simp [hkf]
        omega

theorem fill_null_spec (b : Nat) : ∀ (fuel : Nat) (P M R : List (Option String)),
    P.length = b + 1 → M.length = fuel →
    fill_null (b : Int) fuel ((b + fuel : Nat) : Int) (P ++ M ++ R)
      = .ok ((b : Int), P ++ List.replicate fuel none ++ R)
  | 0, P, M, R, _, hM => by
    have : M = [] := List.length_eq_zero.mp hM
    subst this
    simp [fill_null]
  | fuel + 1, P, M, R, hP, hM => by
    rcases List.eq_nil_or_concat M with hnil | ⟨M', m, hMm⟩
    · subst hnil; simp at hM
    rw [List.concat_eq_append] at hMm
    subst hMm
    have hM' : M'.length = fuel := by simpa using hM
    have hgt : ((b + (fuel + 1) : Nat) : Int) > (b : Int) := by omega
    have hidx : ((b + (fuel + 1) : Nat) : Int) = ((P.length + M'.length : Nat) : Int) := by
      rw [hP, hM']; omega
    have hset : hist_set (P ++ (M' ++ [m]) ++ R) ((b + (fuel + 1) : Nat) : Int) none
        = .ok (P ++ M' ++ none :: R) := by
      rw [hidx, hist_set_ok _ _ _ (by omega)
        (by simp only [List.length_append, List.length_cons, List.length_nil]; omega),
        Int.toNat_ofNat]
      have := set_append_mid P M' m none R
      simp only [List.append_assoc, List.singleton_append] at this ⊢
      rw [this]
    unfold fill_null
    rw [if_pos hgt, hset]
    have e1 : ((b + (fuel + 1) : Nat) : Int) - 1 = ((b + fuel : Nat) : Int) := by omega
    simp only []
    rw [e1, fill_null_spec b fuel P M' (none :: R) hP hM']
    simp [List.replicate_succ']

theorem set_junk_last (X J : List (Option String)) (q v : Option String)
    (A : List (Option String)) :
    (X ++ (q :: J) ++ A).set (X.length + J.length) v = X ++ (q :: J).dropLast ++ v :: A := by
  have hne : q :: J ≠ [] := by simp
  have hsplit := List.dropLast_append_getLast hne
  have hl : (q :: J).dropLast.length = J.length := by simp
  have := set_append_mid X (q :: J).dropLast ((q :: J).getLast hne) v A
  rw [hl] at this
  rw [show X ++ (q :: J) ++ A
      = X ++ ((q :: J).dropLast ++ [(q :: J).getLast hne]) ++ A from by rw [hsplit]]
  simp only [List.append_assoc, List.singleton_append] at this ⊢
  exact this

theorem dups_down_spec (s : String) : ∀ (fuel : Nat) (R Q J A : List (Option String)),
    Q.length = fuel →
    ∃ J', J'.length + (Q.filter (keeps s)).length = J.length + fuel ∧
      dups_down s ((R.length : Int) - 1) fuel
        ((R.length + Q.length : Nat) - 1) ((R.length + Q.length + J.length : Nat) - 1)
        (R ++ Q ++ J ++ A)
      = .ok ((R.length : Int) - 1, ((R.length + J'.length : Nat) : Int) - 1,
             R ++ J' ++ Q.filter (keeps s) ++ A)
  | 0, R, Q, J, A, hQ => by
    have : Q = [] := List.length_eq_zero.mp hQ
    subst this
    exact ⟨J, by simp, by simp [dups_down]⟩
  | fuel + 1, R, Q, J, A, hQ => by
    rcases List.eq_nil_or_concat Q with hnil | ⟨Q', q, hQq⟩
    · subst hnil; simp at hQ
    rw [List.concat_eq_append] at hQq
    subst hQq
    have hQ' : Q'.length = fuel := by simpa using hQ
    have hsrc : (((R.length + (Q' ++ [q]).length : Nat) : Int) - 1)
        = ((R.length + Q'.length : Nat) : Int) := by
      simp only [List.length_append, List.length_singleton]; omega
    have hdst : (((R.length + (Q' ++ [q]).length + J.length : Nat) : Int) - 1)
        = ((R.length + Q'.length + J.length : Nat) : Int) := by
      simp only [List.length_append, List.length_singleton]; omega
    have hgt : ((R.length + Q'.length : Nat) : Int) > (R.length : Int) - 1 := by omega
    have hform : R ++ (Q' ++ [q]) ++ J ++ A = R ++ Q' ++ q :: (J ++ A) := by simp
    have hget : hist_get (R ++ (Q' ++ [q]) ++ J ++ A) ((R.length + Q'.length : Nat) : Int)
        = .ok q := by
      rw [hform, hist_get_ok _ _ (by omega)
        (by simp only [List.length_append, List.length_cons]; omega),
        Int.toNat_ofNat, getD_append_mid]
    by_cases hk : mutt_str_strcmp q s = 0
    · have hset : hist_set (R ++ (Q' ++ [q]) ++ J ++ A) ((R.length + Q'.length : Nat) : Int) none
          = .ok (R ++ Q' ++ (none :: J) ++ A) := by
        rw [hform, hist_set_ok _ _ _ (by omega)
          (by simp only [List.length_append, List.length_cons]; omega),
          Int.toNat_ofNat, set_append_mid]
        simp
      obtain ⟨J', hJ', hrec⟩ := dups_down_spec s fuel R Q' (none :: J) A hQ'
      have hkf : keeps s q = false := by simp [keeps, hk]
      refine ⟨J', ?_, ?_⟩
      · simp only [List.filter_append, List.filter_cons, hkf, List.length_cons,
          List.filter_nil, List.append_nil] at hJ' ⊢
        simp only [Bool.false_eq_true, if_false, List.append_nil]
        omega
      · unfold dups_down
        rw [hsrc, hdst, if_pos hgt, hget]
        simp only [hk, if_true, hset]
        have e1 : ((R.length + Q'.length : Nat) : Int) - 1
            = ((R.length + Q'.length : Nat) : Int) - 1 := rfl
        have e2 : ((R.length + Q'.length + J.length : Nat) : Int)
            = ((R.length + Q'.length + (none :: J).length : Nat) : Int) - 1 := by
          simp only [List.length_cons]; omega
        rw [e2, hrec]
        simp [hkf]
    · have hset : hist_set (R ++ (Q' ++ [q]) ++ J ++ A)
          ((R.length + Q'.length + J.length : Nat) : Int) q
          = .ok (R ++ Q' ++ (q :: J).dropLast ++ q :: A) := by
        rw [hist_set_ok _ _ _ (by omega)
          (by simp only [List.length_append, List.length_cons, List.length_nil]; omega),
          Int.toNat_ofNat]
        have := set_junk_last (R ++ Q') J q q A
        simp only [List.length_append, List.append_assoc, List.singleton_append] at this ⊢
        rw [this]
      have hJl : ((q :: J).dropLast).length = J.length := by simp
      obtain ⟨J', hJ', hrec⟩ := dups_down_spec s fuel R Q' ((q :: J).dropLast) (q :: A) hQ'
      have hkf : keeps s q = true := by simp [keeps, hk]
      refine ⟨J', ?_, ?_⟩
      · rw [hJl] at hJ'
        simp only [List.filter_append, List.filter_cons, hkf, if_true, List.length_append,
          List.length_cons, List.filter_nil, List.length_nil]
        omega
      · unfold dups_down
        rw [hsrc, hdst, if_pos hgt, hget]
        simp only [hk, if_false, hset]
        have e2 : ((R.length + Q'.length + J.length : Nat) : Int) - 1
            = ((R.length + Q'.length + ((q :: J).dropLast).length : Nat) : Int) - 1 := by
          rw [hJl]
        rw [e2, hrec]
        simp [hkf]

theorem remove_dups_ring_spec (g : Globals) (h : History) (s : String)
    (lo hi : List (Option String)) (x : Option String)
    (hhist : h.hist = lo ++ x :: hi) (hlast : h.last.val = lo.length)
    (hN : g.History.val = ((lo.length + hi.length : Nat) : Int)) :
    remove_dups_ring g h s = .ok
      { hist := dedup_slots s lo x hi
        cur := h.cur
        last := Short.ofInt ((lo.filter (keeps s)).length : Int) } := by
  have hdle : (lo.filter (keeps s)).length ≤ lo.length := List.length_filter_le _ _
  have hhle : (hi.filter (keeps s)).length ≤ hi.length := List.length_filter_le _ _
  have hNhi := g.History.hi
  have hdv : (Short.ofInt ((lo.filter (keeps s)).length : Int)).val
      = ((lo.filter (keeps s)).length : Int) := Short.ofInt_val _ (by omega) (by omega)
  -- first loop
  obtain ⟨J1, hJ1, hup⟩ := dups_up_spec s lo.length [] [] (lo ++ x :: hi) (by simp)
  simp only [List.length_nil, Nat.zero_add, List.nil_append, List.take_left', List.drop_left',
    Nat.add_zero] at hup hJ1
  -- the move of the entry at `last`
  have hidx : ((lo.length : Nat) : Int)
      = (((lo.filter (keeps s)).length + J1.length : Nat) : Int) := by omega
  have hget : hist_get (lo.filter (keeps s) ++ J1 ++ x :: hi) ((lo.length : Nat) : Int)
      = .ok x := by
    rw [hidx, hist_get_ok _ _ (by omega)
      (by simp only [List.length_append, List.length_cons]; omega),
      Int.toNat_ofNat, getD_append_mid]
  have hset : hist_set (lo.filter (keeps s) ++ J1 ++ x :: hi)
      (((lo.filter (keeps s)).length : Nat) : Int) x
      = .ok ((lo.filter (keeps s) ++ [x]) ++ (J1 ++ [x]).drop 1 ++ hi) := by
    rw [hist_set_ok _ _ _ (by omega)
      (by simp only [List.length_append, List.length_cons]; omega),
      Int.toNat_ofNat, set_junk_head]
  -- first filling loop
  have hfill1 := fill_null_spec (lo.filter (keeps s)).length
    (lo.length - (lo.filter (keeps s)).length) (lo.filter (keeps s) ++ [x])
    ((J1 ++ [x]).drop 1) hi (by simp) (by simp; omega)
  rw [show (((lo.filter (keeps s)).length + (lo.length - (lo.filter (keeps s)).length) : Nat) : Int)
      = ((lo.length : Nat) : Int) from by omega] at hfill1
  -- second loop
  obtain ⟨J2, hJ2, hdown⟩ := dups_down_spec s hi.length
    (lo.filter (keeps s) ++ [x] ++ List.replicate (lo.length - (lo.filter (keeps s)).length) none)
    hi [] [] rfl
  have hRlen : (lo.filter (keeps s) ++ [x]
      ++ List.replicate (lo.length - (lo.filter (keeps s)).length) none).length
      = lo.length + 1 := by
    simp only [List.length_append, List.length_singleton, List.length_replicate]; omega
  rw [hRlen] at hdown
  simp only [List.length_nil, Nat.add_zero, List.append_nil] at hdown hJ2
  rw [show (((lo.length + 1 : Nat) : Int) - 1) = ((lo.length : Nat) : Int) from by omega,
    show (((lo.length + 1 + hi.length : Nat) : Int) - 1) = g.History.val from by omega,
    show (((lo.length + 1 + J2.length : Nat) : Int) - 1)
      = ((lo.length + J2.length : Nat) : Int) from by omega] at hdown
  have hfill2 := fill_null_spec lo.length J2.length
    (lo.filter (keeps s) ++ [x] ++ List.replicate (lo.length - (lo.filter (keeps s)).length) none)
    J2 (hi.filter (keeps s)) hRlen rfl
  have hfuel1 : h.last.val.toNat = lo.length := by omega
  have hfuel2 : (((lo.length : Nat) : Int) - ((lo.filter (keeps s)).length : Int)).toNat
      = lo.length - (lo.filter (keeps s)).length := by omega
  have hfuel3 : (g.History.val - ((lo.length : Nat) : Int)).toNat = hi.length := by omega
  have hfuel4 : ((((lo.length + J2.length : Nat) : Int)) - ((lo.length : Nat) : Int)).toNat
      = J2.length := by omega
  have hJ2len : J2.length = hi.length - (hi.filter (keeps s)).length := by omega
  unfold remove_dups_ring
  rw [hhist, hlast, Int.toNat_ofNat]
  simp only [Nat.cast_zero] at hup
  rw [hup]
  simp only [Res.ok_bind, hget, hset, hdv, hfuel2, hfill1, hfuel3, hdown, hfuel4, hfill2,
    Res.pure_eq]
  simp [dedup_slots, hJ2len]

theorem dropWhile_nones (m : Nat) (c : List String) :
    (List.replicate m (none : Option String) ++ c.map some).dropWhile Option.isNone
      = c.map some := by
  induction m with
  | zero => cases c <;> simp [List.dropWhile]
  | succ m ih => simp [List.replicate_succ, List.dropWhile, ih]

theorem nones_somes_of_all (l : List (Option String))
    (h : (l.dropWhile Option.isNone).all Option.isSome = true) :
    ∃ (m : Nat) (c : List String), l = List.replicate m none ++ c.map some := by
  induction l with
  | nil => exact ⟨0, [], rfl⟩
  | cons e l ih =>
    cases e with
    | none =>
      simp only [List.dropWhile, Option.isNone_none] at h
      obtain ⟨m, c, hl⟩ := ih h
      exact ⟨m + 1, c, by rw [hl]; simp [List.replicate_succ]⟩
    | some t =>
      simp only [List.dropWhile, Option.isNone_some, List.all_cons, Option.isSome_some,
        Bool.true_and] at h
      refine ⟨0, t :: l.reduceOption, ?_⟩
      simp only [List.replicate_zero, List.nil_append, List.map_cons, List.cons.injEq, true_and]
      clear ih
      induction l with
      | nil => rfl
      | cons e l ih2 =>
        simp only [List.all_cons, Bool.and_eq_true] at h
        cases e with
        | none => simp at h
        | some u =>
          simp only [List.reduceOption_cons_of_some, List.map_cons, List.cons.injEq, true_and]
          exact ih2 h.2

theorem one_run_iff (g : Globals) (h : History) :
    one_run g h = true ↔
      InRing g h.last.val ∧
        ∃ (m : Nat) (c : List String), ring_order h = List.replicate m none ++ c.map some := by
  unfold one_run InRing
  rw [Bool.and_eq_true, decide_eq_true_iff]
  constructor
  · rintro ⟨h1, h2⟩
    exact ⟨h1, nones_somes_of_all _ h2⟩
  · rintro ⟨h1, m, c, h2⟩
    refine ⟨h1, ?_⟩
    rw [h2, dropWhile_nones]
    simp

theorem ring_split (g : Globals) (h : History)
    (hlen : (h.hist.length : Int) = g.History.val + 1) (hlast : InRing g h.last.val) :
    h.hist = h.hist.take h.last.val.toNat ++
        h.hist.getD h.last.val.toNat none :: h.hist.drop (h.last.val.toNat + 1) ∧
      h.last.val = ((h.hist.take h.last.val.toNat).length : Nat) ∧
      g.History.val = (((h.hist.take h.last.val.toNat).length +
        (h.hist.drop (h.last.val.toNat + 1)).length : Nat) : Int) := by
  obtain ⟨h0, h1⟩ := hlast
  have hlt : h.last.val.toNat < h.hist.length := by omega
  refine ⟨?_, ?_, ?_⟩
  · rw [List.getD_eq_getElem?_getD, List.getElem?_eq_getElem hlt, Option.getD_some,
      ← List.drop_eq_getElem_cons hlt, List.take_append_drop]
  · rw [List.length_take]; omega
  · rw [List.length_take, List.length_drop]; omega

theorem keeps_none (s : String) : keeps s none = decide (s ≠ "") := by
  unfold keeps
  rw [decide_eq_decide, not_iff_not, mutt_str_strcmp_eq_zero]
  simp only [NONULL]
  exact eq_comm

theorem keeps_some (s t : String) : keeps s (some t) = decide (t ≠ s) := by
  unfold keeps
  rw [decide_eq_decide, not_iff_not, mutt_str_strcmp_eq_zero]
  simp only [NONULL]

theorem filter_keeps_somes (s : String) (c : List String) :
    (c.map some).filter (keeps s) = (c.filter (fun t => decide (t ≠ s))).map some := by
  induction c with
  | nil => rfl
  | cons t c ih =>
    simp only [List.map_cons, List.filter_cons, keeps_some, ih]
    split <;> simp

theorem filter_keeps_nones (s : String) (m : Nat) :
    (List.replicate m (none : Option String)).filter (keeps s)
      = List.replicate (if s = "" then 0 else m) none := by
  induction m with
  | zero => simp
  | succ m ih =>
    simp only [List.replicate_succ, List.filter_cons, keeps_none, ih]
    by_cases hs : s = "" <;> simp [hs, List.replicate_succ]

theorem filter_keeps_run (s : String) (m : Nat) (c : List String) :
    (List.replicate m (none : Option String) ++ c.map some).filter (keeps s)
      = List.replicate (if s = "" then 0 else m) none
        ++ (c.filter (fun t => decide (t ≠ s))).map some := by
  rw [List.filter_append, filter_keeps_somes, filter_keeps_nones]

theorem ring_cases (g : Globals) (h : History)
    (hlen : (h.hist.length : Int) = g.History.val + 1) (hlast : InRing g h.last.val) :
    ∃ (lo hi : List (Option String)) (x : Option String),
      h.hist = lo ++ x :: hi ∧ h.last.val = (lo.length : Nat) ∧ h.last.val.toNat = lo.length ∧
        g.History.val = ((lo.length + hi.length : Nat) : Int) ∧
        x = h.hist.getD h.last.val.toNat none := by
  obtain ⟨h1, h2, h3⟩ := ring_split g h hlen hlast
  exact ⟨_, _, _, h1, h2, by omega, h3, rfl⟩

theorem ring_order_eq (h : History) (lo hi : List (Option String)) (x : Option String)
    (hh : h.hist = lo ++ x :: hi) (hl : h.last.val.toNat = lo.length) :
    ring_order h = hi ++ lo := by
  unfold ring_order
  rw [hh, hl]
  simp

theorem dedup_slots_length (s : String) (lo hi : List (Option String)) (x : Option String) :
    (dedup_slots s lo x hi).length = lo.length + hi.length + 1 := by
  have h1 : (lo.filter (keeps s)).length ≤ lo.length := List.length_filter_le _ _
  have h2 : (hi.filter (keeps s)).length ≤ hi.length := List.length_filter_le _ _
  simp only [dedup_slots, List.length_append, List.length_cons, List.length_replicate]
  omega

theorem dedup_ring (g : Globals) (h : History) (s : String)
    (hlen : (h.hist.length : Int) = g.History.val + 1) (hlast : InRing g h.last.val) :
    ∃ h1, remove_dups_ring g h s = .ok h1 ∧ h1.cur = h.cur ∧ InRing g h1.last.val ∧
      (h1.hist.length : Int) = g.History.val + 1 ∧
      ring_order h1 =
        List.replicate (g.History.val.toNat - ((ring_order h).filter (keeps s)).length) none
          ++ (ring_order h).filter (keeps s) := by
  obtain ⟨lo, hi, x, hh, hl, hlt, hN, _⟩ := ring_cases g h hlen hlast
  have h1 : (lo.filter (keeps s)).length ≤ lo.length := List.length_filter_le _ _
  have h2 : (hi.filter (keeps s)).length ≤ hi.length := List.length_filter_le _ _
  have hNhi := g.History.hi
  have hv : (Short.ofInt ((lo.filter (keeps s)).length : Int)).val
      = ((lo.filter (keeps s)).length : Int) := Short.ofInt_val _ (by omega) (by omega)
  refine ⟨_, remove_dups_ring_spec g h s lo hi x hh hl hN, rfl, ?_, ?_, ?_⟩
  · simp only [hv]; constructor <;> omega
  · simp only [dedup_slots_length]; omega
  · rw [ring_order_eq h lo hi x hh hlt]
    rw [ring_order_eq _ (lo.filter (keeps s))
      ((List.replicate (lo.length - (lo.filter (keeps s)).length) none ++
        List.replicate (hi.length - (hi.filter (keeps s)).length) none) ++ hi.filter (keeps s))
      x (by simp [dedup_slots]) (by simp only [hv]; omega)]
    rw [List.filter_append, List.length_append, ← List.replicate_add]
    have : g.History.val.toNat - ((hi.filter (keeps s)).length + (lo.filter (keeps s)).length)
        = lo.length - (lo.filter (keeps s)).length
          + (hi.length - (hi.filter (keeps s)).length) := by omega
    rw [this]
    simp

theorem next_last_small (g : Globals) (h : History) (hlast : InRing g h.last.val)
    (hN : g.History.val ≤ 32766) :
    (next_last g h).val = if h.last.val = g.History.val then 0 else h.last.val + 1 := by
  obtain ⟨hl0, hl1⟩ := hlast
  rw [next_last_val g h ⟨hl0, hl1⟩, if_neg (by omega)]
  split
  · next he => rw [he, Int.emod_self]
  · rw [Int.emod_eq_of_lt (by omega) (by omega)]

theorem store_ring (g : Globals) (h : History) (v : Option String)
    (hlen : (h.hist.length : Int) = g.History.val + 1) (hlast : InRing g h.last.val)
    (hN1 : 1 ≤ g.History.val) (hN : g.History.val ≤ 32766) :
    ring_order { hist := h.hist.set h.last.val.toNat v, cur := next_last g h,
                 last := next_last g h }
        = (ring_order h).drop 1 ++ [v] ∧
      InRing g (next_last g h).val := by
  obtain ⟨lo, hi, x, hh, hl, hlt, hNe, _⟩ := ring_cases g h hlen hlast
  have hnl := next_last_small g h hlast hN
  have hset : h.hist.set h.last.val.toNat v = lo ++ v :: hi := by
    rw [hh, hlt]
    simp
  rw [ring_order_eq h lo hi x hh hlt]
  by_cases hfull : h.last.val = g.History.val
  · rw [if_pos hfull] at hnl
    have hhi : hi = [] := by
      apply List.length_eq_zero.mp; omega
    subst hhi
    have hlo : lo ≠ [] := by
      intro h0; subst h0; simp at hNe; omega
    refine ⟨?_, by rw [hnl]; constructor <;> omega⟩
    unfold ring_order
    simp only [hnl, hset]
    cases lo with
    | nil => exact absurd rfl hlo
    | cons a lo => simp
  · rw [if_neg hfull] at hnl
    have hhi : hi ≠ [] := by
      intro h0; subst h0; simp at hNe; omega
    refine ⟨?_, by rw [hnl]; constructor <;> omega⟩
    rw [ring_order_eq _ (lo ++ [v]) (hi.drop 1) (hi.headD none)
      (by
        simp only [hset]
        cases hi with
        | nil => exact absurd rfl hhi
        | cons a hi => simp)
      (by simp only [hnl, List.length_append, List.length_singleton]; omega)]
    cases hi with
    | nil => exact absurd rfl hhi
    | cons a hi => simp

theorem one_run_congr {g g' : Globals} {h h' : History} (hH : g'.History = g.History)
    (hl : h'.last = h.last) (hr : ring_order h' = ring_order h) :
    one_run g' h' = one_run g h := by
  simp only [one_run, hH, hl, hr]

theorem put_well_formed {g : Globals} {hclass : Nat} {h : History} (h' : History)
    (hs : RingSlots g hclass h) (hlen : (h'.hist.length : Int) = g.History.val + 1)
    (hcur : InRing g h'.cur.val) (hrun : one_run g h' = true) :
    well_formed (put_history g hclass h') hclass h' := by
  obtain ⟨hg, hN, _⟩ := hs
  obtain ⟨hc, _⟩ := get_history_some hg
  exact ⟨⟨get_put_same h' hc, hN, hlen⟩, hcur, hrun⟩

theorem ring_order_set_last (g : Globals) (h : History) (v : Option String)
    (hlen : (h.hist.length : Int) = g.History.val + 1) (hlast : InRing g h.last.val) :
    ring_order { h with hist := h.hist.set h.last.val.toNat v } = ring_order h := by
  obtain ⟨lo, hi, x, hh, hl, hlt, hNe, _⟩ := ring_cases g h hlen hlast
  rw [ring_order_eq h lo hi x hh hlt]
  exact ring_order_eq { h with hist := h.hist.set h.last.val.toNat v } lo hi v
    (by simp only [hh, hlt]; simp) hlt

theorem run_filter (s : String) (l : List (Option String))
    (h : ∃ (m : Nat) (c : List String), l = List.replicate m none ++ c.map some) (n : Nat) :
    ∃ (m : Nat) (c : List String),
      List.replicate n none ++ l.filter (keeps s) = List.replicate m none ++ c.map some := by
  obtain ⟨m, c, rfl⟩ := h
  refine ⟨n + (if s = "" then 0 else m), c.filter (fun t => decide (t ≠ s)), ?_⟩
  rw [filter_keeps_run, List.replicate_add, List.append_assoc]

theorem run_drop_snoc (s : Option String) (hs : s ≠ none) (l : List (Option String))
    (h : ∃ (m : Nat) (c : List String), l = List.replicate m none ++ c.map some) :
    ∃ (m : Nat) (c : List String),
      l.drop 1 ++ [s] = List.replicate m none ++ c.map some := by
  obtain ⟨m, c, rfl⟩ := h
  obtain ⟨t, rfl⟩ := Option.ne_none_iff_exists'.mp hs
  cases m with
  | succ m => exact ⟨m, c ++ [t], by simp [List.replicate_succ]⟩
  | zero =>
    cases c with
    | nil => exact ⟨0, [t], by simp⟩
    | cons a c => exact ⟨0, c ++ [t], by simp⟩

theorem remove_history_dups_ok (g : Globals) (hclass : Nat) (h : History) (s : String)
    (hs : RingSlots g hclass h) (hlast : InRing g h.last.val) :
    ∃ h1, remove_history_dups g hclass s = .ok (put_history g hclass h1) ∧
      h1.cur = h.cur ∧ InRing g h1.last.val ∧
      (h1.hist.length : Int) = g.History.val + 1 ∧
      ring_order h1 =
        List.replicate (g.History.val.toNat - ((ring_order h).filter (keeps s)).length) none
          ++ (ring_order h).filter (keeps s) := by
  obtain ⟨hg, hN, hlen⟩ := hs
  obtain ⟨h1, hrun, hrest⟩ := dedup_ring g h s hlen hlast
  have hN0 : g.History.val ≠ 0 := by omega
  refine ⟨h1, ?_, hrest⟩
  simp only [remove_history_dups, hg, hN0, if_false, hrun, Res.ok_bind, Res.pure_eq]

theorem add_rejected_eq (g : Globals) (hclass : Nat) (h : History) (s : String) (save : Bool)
    (hs : RingSlots g hclass h) (hlast : InRing g h.last.val)
    (hrej : s = "" ∨ starts_with_space s = true ∨
      h.hist.getD (prev_index g h).toNat none = some s) :
    mutt_history_add g hclass s save = .ok (put_history g hclass { h with cur := h.last }) := by
  obtain ⟨hg, hN, hlen⟩ := hs
  obtain ⟨hl0, hl1⟩ := hlast
  have hN0 : g.History.val ≠ 0 := by omega
  by_cases h1 : s = ""
  · simp only [mutt_history_add, hg, hN0, if_false, h1, if_true]
  by_cases h2 : starts_with_space s = true
  · simp only [mutt_history_add, hg, hN0, if_false, h1, h2, if_true]
  have h3 : h.hist.getD (prev_index g h).toNat none = some s := by
    rcases hrej with h | h | h
    · exact absurd h h1
    · exact absurd h h2
    · exact h
  have hp0 : 0 ≤ prev_index g h := by unfold prev_index; split <;> omega
  have hp1 : prev_index g h < h.hist.length := by unfold prev_index; split <;> omega
  have hget := hist_get_ok h.hist (prev_index g h) hp0 hp1
  have hacc : ¬ (h.hist.getD (prev_index g h).toNat none = none ∨
      mutt_str_strcmp (h.hist.getD (prev_index g h).toNat none) s ≠ 0) := by
    rw [accept_iff]; exact fun hne => hne h3
  simp only [mutt_history_add, hg, hN0, if_false, h1, h2, hget, if_neg hacc]
  simp

theorem add_dedup_ok (g : Globals) (hclass : Nat) (h : History) (s : String)
    (hs : RingSlots g hclass h) (hlast : InRing g h.last.val) (hf : histfile_defined g) :
    ∃ g1 h1, add_dedup g hclass s = .ok g1 ∧ RingSlots g1 hclass h1 ∧ histfile_defined g1 ∧
      g1.History = g.History ∧ InRing g1 h1.last.val ∧
      ring_order h1 = dedup_order g s (ring_order h) := by
  by_cases hdd : g.OPT_HISTORY_REMOVE_DUPS = true
  · obtain ⟨h1, hrun, _, hl1, hlen1, hro⟩ := remove_history_dups_ok g hclass h s hs hlast
    have hs1 : RingSlots (put_history g hclass h1) hclass h1 := by
      obtain ⟨hg, hN, _⟩ := hs
      obtain ⟨hc, _⟩ := get_history_some hg
      exact ⟨get_put_same h1 hc, hN, hlen1⟩
    refine ⟨_, h1, ?_, hs1, histfile_defined_put hf _ _, rfl, hl1, ?_⟩
    · simp only [add_dedup, hdd, if_true, hrun]
    · simp only [dedup_order, hdd, if_true, hro]
  · refine ⟨g, h, ?_, hs, hf, rfl, hlast, ?_⟩
    · simp only [add_dedup, hdd]; rfl
    · simp only [dedup_order, hdd]; rfl

theorem dedup_order_run (g : Globals) (s : String) (l : List (Option String))
    (h : ∃ (m : Nat) (c : List String), l = List.replicate m none ++ c.map some) :
    ∃ (m : Nat) (c : List String),
      dedup_order g s l = List.replicate m none ++ c.map some := by
  unfold dedup_order
  split
  · exact run_filter s l h _
  · exact h

theorem add_accepted_ring (g : Globals) (hclass : Nat) (h : History) (s : String)
    (save : Bool) (hw : well_formed g hclass h) (hf : histfile_defined g)
    (hN : g.History.val ≤ 32766)
    (hacc1 : s ≠ "") (hacc2 : starts_with_space s = false)
    (hacc3 : h.hist.getD (prev_index g h).toNat none ≠ some s) :
    ∃ g' h', mutt_history_add g hclass s save = .ok g' ∧ well_formed g' hclass h' ∧
      histfile_defined g' ∧ g'.History = g.History ∧
      ring_order h' = (dedup_order g s (ring_order h)).drop 1 ++ [some s] := by
  obtain ⟨hs, hcur, hrun⟩ := hw
  obtain ⟨hlast, hform⟩ := (one_run_iff g h).mp hrun
  obtain ⟨g1, h1, hdedup, hs1, hf1, hH1, hl1, hro1⟩ := add_dedup_ok g hclass h s hs hlast hf
  obtain ⟨hg1, hN1, hlen1⟩ := hs1
  obtain ⟨g2, hsame, hf2, hadd⟩ := add_after_dedup g g1 hclass h h1 s save hs hlast hacc1 hacc2
    hacc3 hdedup hf1 hg1 hl1.1 (by have := hl1.2; omega)
  obtain ⟨hro2, hl2⟩ := store_ring g1 h1 (some s) hlen1 hl1 hN1 (by rw [hH1]; exact hN)
  have hH2 : g2.History = g1.History := hsame.2.2.1
  have hs2 : RingSlots g2 hclass h1 :=
    ⟨by rw [get_history_same_rings hsame, hg1], by rw [hH2]; exact hN1, by rw [hH2]; exact hlen1⟩
  have hl2' : InRing g2 (next_last g1 h1).val := by
    unfold InRing at hl2 ⊢; rw [hH2]; exact hl2
  refine ⟨_, ⟨h1.hist.set h1.last.val.toNat (some s), next_last g1 h1, next_last g1 h1⟩, hadd, ?_, histfile_defined_put hf2 _ _, ?_, ?_⟩
  · apply put_well_formed _ hs2
    · simp only [List.length_set]; rw [hH2]; exact hlen1
    · exact hl2'
    · rw [one_run_iff]
      refine ⟨hl2', ?_⟩
      rw [hro2, hro1]
      exact run_drop_snoc _ (by simp) _ (dedup_order_run g s _ hform)
  · simp only [put_history]; rw [hH2, hH1]
  · rw [hro2, hro1]

theorem run_call_well_formed (fuel : Nat) (g : Globals) (hclass : Nat) (h : History)
    (c : Call) (hw : well_formed g hclass h) (hf : histfile_defined g)
    (hN : g.History.val ≤ 32766) (hfuel : (g.History.val + 1).toNat ≤ fuel) :
    ∃ g' out h', run_call fuel g hclass c = .ok (g', out) ∧ well_formed g' hclass h' ∧
      histfile_defined g' ∧ g'.History = g.History := by
  have hw' := hw
  obtain ⟨hs, hcur, hrun⟩ := hw
  obtain ⟨hlast, hform⟩ := (one_run_iff g h).mp hrun
  have hs' := hs
  obtain ⟨hg, hN1, hlen⟩ := hs
  have hN0 : g.History.val ≠ 0 := by omega
  have hreset : well_formed (put_history g hclass { h with cur := h.last }) hclass
      { h with cur := h.last } :=
    put_well_formed _ hs' hlen hlast (by rw [← hrun]; exact one_run_congr rfl rfl rfl)
  cases c with
  | add s save =>
    by_cases hrej : s = "" ∨ starts_with_space s = true ∨
        h.hist.getD (prev_index g h).toNat none = some s
    · refine ⟨_, [], _, ?_, hreset, histfile_defined_put hf _ _, rfl⟩
      simp only [run_call, add_rejected_eq g hclass h s save hs' hlast hrej]
    · simp only [not_or, Bool.not_eq_true] at hrej
      obtain ⟨g', h', hadd, hw2, hf2, hH2, _⟩ := add_accepted_ring g hclass h s save hw' hf hN
        hrej.1 hrej.2.1 hrej.2.2
      refine ⟨g', [], h', ?_, hw2, hf2, hH2⟩
      simp only [run_call, hadd]
  | dups s =>
    obtain ⟨h1, hdups, hc1, hl1, hlen1, hro1⟩ := remove_history_dups_ok g hclass h s hs' hlast
    refine ⟨put_history g hclass h1, [], h1, ?_, ?_, histfile_defined_put hf _ _, rfl⟩
    · simp only [run_call, hdups]
    · apply put_well_formed _ hs' hlen1 (by rw [hc1]; exact hcur)
      rw [one_run_iff]
      exact ⟨hl1, by rw [hro1]; exact run_filter s _ hform _⟩
  | scratch s =>
    have hset := hist_set_ok h.hist h.last.val (mutt_str_strdup s) hlast.1
      (by have := hlast.2; omega)
    refine ⟨put_history g hclass ⟨h.hist.set h.last.val.toNat (mutt_str_strdup s), h.cur, h.last⟩,
      [], ⟨h.hist.set h.last.val.toNat (mutt_str_strdup s), h.cur, h.last⟩, ?_, ?_,
      histfile_defined_put hf _ _, rfl⟩
    · simp only [run_call, mutt_history_save_scratch, hg, hN0, if_false, hset, Res.ok_bind,
        Res.pure_eq]
    · refine put_well_formed ⟨h.hist.set h.last.val.toNat (mutt_str_strdup s), h.cur, h.last⟩
        hs' ?_ hcur ?_
      · simp only [List.length_set]; exact hlen
      · rw [← hrun]
        exact one_run_congr rfl rfl (ring_order_set_last g h _ hlen hlast)
  | reset =>
    refine ⟨_, [], _, ?_, hreset, histfile_defined_put hf _ _, rfl⟩
    simp only [run_call, mutt_reset_history_state, hg, hN0, if_false]
  | prev =>
    obtain ⟨j, _, hj, hjv, hprev⟩ := prev_eq_first_met g hclass h fuel hs' hcur hlast hfuel
    refine ⟨put_history g hclass ⟨h.hist, Short.ofInt j, h.last⟩,
      [NONULL (h.hist.getD j.toNat none)], ⟨h.hist, Short.ofInt j, h.last⟩, ?_, ?_,
      histfile_defined_put hf _ _, rfl⟩
    · simp only [run_call, hprev]
    · exact put_well_formed _ hs' hlen (by simp only [hjv]; exact hj)
        (by rw [← hrun]; exact one_run_congr rfl rfl rfl)
  | next =>
    obtain ⟨j, _, hj, hjv, hnext⟩ := next_eq_first_met g hclass h fuel hs' hcur hlast hfuel
    refine ⟨put_history g hclass ⟨h.hist, Short.ofInt j, h.last⟩,
      [NONULL (h.hist.getD j.toNat none)], ⟨h.hist, Short.ofInt j, h.last⟩, ?_, ?_,
      histfile_defined_put hf _ _, rfl⟩
    · simp only [run_call, hnext]
    · exact put_well_formed _ hs' hlen (by simp only [hjv]; exact hj)
        (by rw [← hrun]; exact one_run_congr rfl rfl rfl)

theorem run_calls_well_formed (fuel : Nat) (hclass : Nat) :
    ∀ (calls : List Call) (g : Globals) (h : History), well_formed g hclass h →
      histfile_defined g → g.History.val ≤ 32766 → (g.History.val + 1).toNat ≤ fuel →
      ∃ g' outs h', run_calls fuel g hclass calls = .ok (g', outs) ∧
        well_formed g' hclass h' ∧ histfile_defined g' ∧ g'.History = g.History
  | [], g, h, hw, hf, _, _ => ⟨g, [], h, rfl, hw, hf, rfl⟩
  | c :: cs, g, h, hw, hf, hN, hfuel => by
    obtain ⟨g1, out, h1, hrun1, hw1, hf1, hH1⟩ := run_call_well_formed fuel g hclass h c hw hf
      hN hfuel
    obtain ⟨g2, outs, h2, hrun2, hw2, hf2, hH2⟩ := run_calls_well_formed fuel hclass cs g1 h1
      hw1 hf1 (by rw [hH1]; exact hN) (by rw [hH1]; exact hfuel)
    refine ⟨g2, out ++ outs, h2, ?_, hw2, hf2, by rw [hH2, hH1]⟩
    simp only [run_calls, hrun1, hrun2]

theorem fresh_well_formed (classes hclass : Nat) (H SH : Short) (dedup : Bool)
    (file : Option (List String)) (hc : hclass < classes) (hN : 1 ≤ H.val) :
    well_formed (fresh classes H SH dedup file) hclass
      (filled (fresh classes H SH dedup file) []) := by
  obtain ⟨hg, hH, _, _⟩ := fresh_ring classes hclass H SH dedup file hc hN
  obtain ⟨hl, hlen⟩ := filled_facts (fresh classes H SH dedup file) [] (by rw [hH]; simpa using by omega)
  simp only [List.length_nil, Nat.cast_zero] at hl
  have hcur : (filled (fresh classes H SH dedup file) []).cur.val = 0 := by
    rw [← hl]; rfl
  refine ⟨⟨hg, by rw [hH]; exact hN, hlen⟩, ?_, ?_⟩
  · rw [hcur, InRing, hH]; constructor <;> omega
  · rw [one_run_iff]
    refine ⟨by rw [hl, InRing, hH]; constructor <;> omega, ?_⟩
    refine ⟨(fresh classes H SH dedup file).History.val.toNat, [], ?_⟩
    unfold ring_order
    rw [hl]
    simp only [filled, List.map_nil, List.nil_append, List.length_nil, Nat.sub_zero,
      Int.toNat_zero, List.take_zero, List.append_nil, Nat.zero_add, List.drop_replicate]
    congr 1
    rw [hH]; omega

/-- The ring invariant below the largest capacity. For every capacity
`1 ≤ N ≤ 32766`, starting
from a freshly initialised registry whose history file can be read back, every
sequence of `mutt_history_add` (dedup on or off, persisted or not),
`remove_history_dups`, `mutt_history_save_scratch`, `mutt_reset_history_state`
and navigation calls on a class runs to its end, and in the state it leaves
`last` is a slot and the non-empty slots other than `slots[last]` form one run
that ends just before `last`. -/
theorem ring_invariant_below_max (classes hclass : Nat) (H SH : Short) (dedup : Bool)
    (file : Option (List String)) (calls : List Call) (fuel : Nat)
    (hc : hclass < classes) (hH1 : 1 ≤ H.val) (hH2 : H.val ≤ 32766)
    (hfile : histfile_defined (fresh classes H SH dedup file))
    (hfuel : (H.val + 1).toNat ≤ fuel) :
    ∃ g' outs h', run_calls fuel (fresh classes H SH dedup file) hclass calls = .ok (g', outs) ∧
      get_history g' hclass = some h' ∧ one_run g' h' = true := by
  obtain ⟨_, hH, _, _⟩ := fresh_ring classes hclass H SH dedup file hc hH1
  obtain ⟨g', outs, h', hrun, hw, _, _⟩ := run_calls_well_formed fuel hclass calls _ _
    (fresh_well_formed classes hclass H SH dedup file hc hH1) hfile (by rw [hH]; exact hH2)
    (by rw [hH]; exact hfuel)
  exact ⟨g', outs, h', hrun, hw.1.1, hw.2.2⟩

theorem reduceOption_run (m : Nat) (c : List String) :
    (List.replicate m (none : Option String) ++ c.map some).reduceOption = c := by
  induction m with
  | zero =>
    induction c with
    | nil => rfl
    | cons a c ih =>
      simp only [List.replicate_zero, List.nil_append, List.map_cons,
        List.reduceOption_cons_of_some] at ih ⊢
      rw [ih]
  | succ m ih =>
    rw [List.replicate_succ, List.cons_append, List.reduceOption_cons_of_none]
    exact ih

theorem live_after_store (n N : Nat) (c : List String) (s : String) (hN : 1 ≤ N)
    (hlen : n + c.length = N) :
    ((List.replicate n (none : Option String) ++ c.map some).drop 1 ++ [some s]).reduceOption
      = most_recent N (c ++ [s]) := by
  unfold most_recent
  cases n with
  | succ n =>
    have h0 : (c ++ [s]).length - N = 0 := by
      simp only [List.length_append, List.length_singleton]; omega
    rw [h0, List.drop_zero, List.replicate_succ, List.cons_append, List.drop_one, List.tail_cons,
      List.reduceOption_append, reduceOption_run]
    rfl
  | zero =>
    have h1 : (c ++ [s]).length - N = 1 := by
      simp only [List.length_append, List.length_singleton]; omega
    cases c with
    | nil => simp at hlen; omega
    | cons a c =>
      rw [h1]
      simp only [List.replicate_zero, List.nil_append, List.map_cons, List.drop_one,
        List.tail_cons, List.cons_append]
      rw [List.reduceOption_append]
      have := reduceOption_run 0 c
      simp only [List.replicate_zero, List.nil_append] at this
      rw [this]
      rfl

theorem ring_order_length (g : Globals) (h : History)
    (hlen : (h.hist.length : Int) = g.History.val + 1) (hlast : InRing g h.last.val) :
    (ring_order h).length = g.History.val.toNat := by
  obtain ⟨lo, hi, x, hh, hl, hlt, hNe, _⟩ := ring_cases g h hlen hlast
  rw [ring_order_eq h lo hi x hh hlt, List.length_append]
  omega

/-- Insertion with dedup below the largest capacity. With dedup enabled, for
every capacity
`1 ≤ N ≤ 32766`, every well-formed ring state and every accepted text `s`,
`mutt_history_add` returns, the ring invariant holds afterwards, and the live
history is then the live history before with every occurrence of `s` removed,
followed by `s`, cut to its `N` most recent entries. -/
theorem dedup_add_below_max (g : Globals) (hclass : Nat) (h : History) (s : String)
    (save : Bool) (hw : well_formed g hclass h) (hf : histfile_defined g)
    (hN : g.History.val ≤ 32766) (hdedup : g.OPT_HISTORY_REMOVE_DUPS = true)
    (hacc1 : s ≠ "") (hacc2 : starts_with_space s = false)
    (hacc3 : h.hist.getD (prev_index g h).toNat none ≠ some s) :
    ∃ g' h', mutt_history_add g hclass s save = .ok g' ∧ get_history g' hclass = some h' ∧
      one_run g' h' = true ∧
      live h' = most_recent g.History.val.toNat
        ((live h).filter (fun t => decide (t ≠ s)) ++ [s]) := by
  obtain ⟨g', h', hadd, hw2, _, _, hro⟩ := add_accepted_ring g hclass h s save hw hf hN
    hacc1 hacc2 hacc3
  refine ⟨g', h', hadd, hw2.1.1, hw2.2.2, ?_⟩
  obtain ⟨hs, _, hrun⟩ := hw
  obtain ⟨hlast, m, c, hform⟩ := (one_run_iff g h).mp hrun
  have hrl := ring_order_length g h hs.2.2 hlast
  rw [hform, List.length_append, List.length_replicate, List.length_map] at hrl
  have hcl : (c.filter (fun t => decide (t ≠ s))).length ≤ c.length := List.length_filter_le _ _
  unfold live
  rw [hro, hform, reduceOption_run]
  simp only [dedup_order, hdedup, if_true, filter_keeps_run, hacc1, if_false]
  rw [← List.append_assoc, ← List.replicate_add]
  apply live_after_store
  · have := hs.2.1; omega
  · simp only [List.length_append, List.length_replicate, List.length_map]
    omega

theorem dedup_add_below_max_witness :
    ∃ g' h', mutt_history_add dedup_example 0 "c" false = .ok g' ∧
      get_history g' 0 = some h' ∧ one_run g' h' = true ∧ live h' = ["b", "d", "c"] := by
  obtain ⟨g', h', h1, h2, h3, h4⟩ := dedup_add_below_max dedup_example 0
    ⟨[some "d", some "a", some "b", some "c"], Short.ofInt 1, Short.ofInt 1⟩ "c" false
    ⟨⟨by decide, by decide, by decide⟩, by unfold InRing; decide, by decide⟩
    (by intro f hf; cases hf) (by decide) (by decide) (by decide) (by decide) (by decide)
  exact ⟨g', h', h1, h2, h3, by rw [h4]; decide⟩

theorem ring_invariant_below_max_witness :
    ∃ g' outs h',
      run_calls 4 (fresh 2 (Short.ofInt 3) (Short.ofInt 0) true none) 1
        [Call.add "a" false, Call.add "b" false, Call.scratch "dr", Call.prev,
         Call.add "a" false, Call.dups "b", Call.next] = .ok (g', outs) ∧
      get_history g' 1 = some h' ∧ one_run g' h' = true :=
  ring_invariant_below_max 2 1 (Short.ofInt 3) (Short.ofInt 0) true none _ 4 (by decide)
    (by decide) (by decide) (by intro f hf; cases hf) (by decide)

/-! ## The largest capacity -/

theorem distinct_texts_length (n : Nat) : (distinct_texts n).length = n := by
  simp [distinct_texts]

theorem distinct_texts_nodup (n : Nat) : (distinct_texts n).Nodup := by
  unfold distinct_texts
  apply List.Nodup.map _ (List.nodup_range n)
  intro i j hij
  have h := congrArg (fun s : String => s.data.length) hij
  simp only [List.length_replicate] at h
  omega

theorem distinct_texts_accepted (n : Nat) :
    ∀ t ∈ distinct_texts n, t ≠ "" ∧ starts_with_space t = false ∧ t ≠ "x" := by
  intro t ht
  simp only [distinct_texts, List.mem_map, List.mem_range] at ht
  obtain ⟨i, _, rfl⟩ := ht
  refine ⟨?_, ?_, ?_⟩
  · intro h
    have := congrArg (fun s : String => s.data.length) h
    simp at this
  · simp [starts_with_space, List.replicate_succ]
  · intro h
    have := congrArg (fun s : String => s.data.head?) h
    simp [List.replicate_succ] at this

theorem fill_last_overflow (g : Globals) (hH : g.History = Short.ofInt 32767) :
    (fill_last g 32768).val = -32768 := by
  unfold fill_last
  rw [hH]
  decide

theorem add_out_of_ring (g : Globals) (hclass : Nat) (h : History) (s : String)
    (e : Option String) (hg : get_history g hclass = some h) (hN : 1 ≤ g.History.val)
    (hlast : h.last.val < 0) (hs1 : s ≠ "") (hs2 : starts_with_space s = false)
    (hprev : hist_get h.hist g.History.val = .ok e) (hacc : e ≠ some s)
    (hdedup : g.OPT_HISTORY_REMOVE_DUPS = false) :
    mutt_history_add g hclass s false = .fault := by
  have hN0 : g.History.val ≠ 0 := by omega
  have hp : prev_index g h = g.History.val := by
    unfold prev_index; rw [if_pos (by omega)]
  have hacc' := (accept_iff e s).mpr hacc
  have hset : hist_set h.hist h.last.val (mutt_str_strdup s) = .fault := by
    unfold hist_set; rw [if_neg (by omega)]
  simp only [mutt_history_add, hg, hN0, if_false, hs1, hs2, hp, hprev, if_pos hacc']
  simp [add_dedup, hdedup, add_save, add_store, hg, hset]

/-- C6 at the largest capacity. With dedup enabled and `History = 32767`, the
ring that holds the 32767 distinct texts `a`, `aa`, ... accepts the new text
`x`: it is stored in slot 32767, and `last` and `cur` become `-32768`, which is
no slot. All `32768` slots then hold entries: nothing was dropped, although the
ring is to keep at most the `N = 32767` most recent ones. -/
theorem dedup_add_overflow :
    ∃ g' h', mutt_history_add overflow_dedup_example 0 "x" false = .ok g' ∧
      get_history g' 0 = some h' ∧
      h'.hist = (distinct_texts 32767 ++ ["x"]).map some ∧
      h'.last.val = -32768 ∧ h'.cur.val = -32768 := by
  have hH : overflow_dedup_example.History = Short.ofInt 32767 := rfl
  have hHs : overflow_dedup_example.Histories =
      [filled (overflow_base true) (distinct_texts 32767)] := rfl
  have hg : get_history overflow_dedup_example 0 =
      some (filled overflow_dedup_example (distinct_texts 32767)) := by
    rw [filled_congr (g := overflow_base true) hH]
    simp [get_history, HC_LAST, hHs]
  have hHv : overflow_dedup_example.History.val = 32767 := rfl
  obtain ⟨g', hadd, hg', hH', _, _⟩ := add_fill_step overflow_dedup_example 0
    (distinct_texts 32767) "x" false hg (by rw [hHv]; decide)
    (by rw [distinct_texts_length, hHv]; decide) (by intro f hf; cases hf) (by decide)
    (by decide) (fun hm => (distinct_texts_accepted _ _ hm).2.2 rfl)
  rw [hH] at hH'
  have hlen : (distinct_texts 32767 ++ ["x"]).length = 32768 := by
    rw [List.length_append, distinct_texts_length]; rfl
  have hv := fill_last_overflow g' hH'
  refine ⟨g', _, hadd, hg', ?_, ?_, ?_⟩
  · have : (g'.History.val + 1).toNat - (distinct_texts 32767 ++ ["x"]).length = 0 := by
      rw [hlen, hH']; decide
    simp only [filled, this, List.replicate_zero, List.append_nil]
  · simp only [filled, hlen]; exact hv
  · simp only [filled, hlen]; exact hv

/-- C7 at the largest capacity. In a freshly initialised ring with
`History = 32767`, the 32768 insertions of the distinct texts `a`, `aa`, ...
leave `last = -32768`, which is no slot of the ring, and the next insertion
writes through `hist[-32768]`, outside the slot array. -/
theorem ring_invariant_overflow :
    ∃ g1 h1,
      run_calls 1 (fresh 1 (Short.ofInt 32767) (Short.ofInt 0) false none) 0
        ((distinct_texts 32768).map (fun t => Call.add t false)) = .ok (g1, []) ∧
      get_history g1 0 = some h1 ∧ h1.hist = (distinct_texts 32768).map some ∧
      h1.last.val = -32768 ∧
      run_call 1 g1 0 (Call.add "x" false) = .fault := by
  have hHv : (Short.ofInt 32767).val = 32767 := by decide
  obtain ⟨hg0, hH0, hF0, hd0⟩ := fresh_ring 1 0 (Short.ofInt 32767) (Short.ofInt 0) false none
    (by decide) (by rw [hHv]; decide)
  obtain ⟨g1, hadds, hg1, hH1, _, hd1⟩ := adds_fill 1 0 false (distinct_texts 32768) []
    (fresh 1 (Short.ofInt 32767) (Short.ofInt 0) false none) hg0 (by rw [hH0, hHv]; decide)
    (by rw [hH0, hHv, distinct_texts_length]; decide)
    (by intro f hf; rw [hF0] at hf; cases hf)
    (by simpa using distinct_texts_nodup 32768)
    (fun t ht => ⟨(distinct_texts_accepted _ t ht).1, (distinct_texts_accepted _ t ht).2.1⟩)
  rw [hH0] at hH1
  simp only [List.nil_append] at hg1
  have hv := fill_last_overflow g1 hH1
  have hz : (g1.History.val + 1).toNat - (distinct_texts 32768).length = 0 := by
    rw [distinct_texts_length, hH1]; decide
  have hhist : (filled g1 (distinct_texts 32768)).hist = (distinct_texts 32768).map some := by
    simp only [filled, hz, List.replicate_zero, List.append_nil]
  have hlast : (filled g1 (distinct_texts 32768)).last.val = -32768 := by
    simp only [filled, distinct_texts_length]; exact hv
  refine ⟨g1, _, hadds, hg1, hhist, hlast, ?_⟩
  have hprev : hist_get (filled g1 (distinct_texts 32768)).hist g1.History.val
      = .ok (some ((distinct_texts 32768).getD 32767 "")) := by
    rw [hhist, hH1, hHv, hist_get_ok _ _ (by decide) (by simp [distinct_texts_length])]
    rw [show (32767 : Int).toNat = 32767 from rfl,
      map_some_getD _ _ (by rw [distinct_texts_length]; decide)]
  have hmem : (distinct_texts 32768).getD 32767 "" ∈ distinct_texts 32768 := by
    rw [List.getD_eq_getElem?_getD,
      List.getElem?_eq_getElem (by rw [distinct_texts_length]; decide)]
    exact List.getElem_mem _
  have hdd : g1.OPT_HISTORY_REMOVE_DUPS = false := by rw [hd1, hd0]
  have hfault := add_out_of_ring g1 0 _ "x" _ hg1 (by rw [hH1, hHv]; decide)
    (by rw [hlast]; decide) (by decide) (by decide) hprev
    (by
      intro h
      have heq := Option.some.inj h
      rw [heq] at hmem
      exact (distinct_texts_accepted _ _ hmem).2.2 rfl) hdd
  simp [run_call, hfault]

/-! ## The disabled state and the dedup index -/

theorem find_delete_same (t : Hash) (s : String) :
    mutt_hash_find_elem (mutt_hash_delete t s) s = none := by
  unfold mutt_hash_find_elem mutt_hash_delete
  rw [Option.map_eq_none', List.find?_eq_none]
  intro e he
  have := (List.mem_filter.mp he).2
  simpa using this

theorem find_delete_other (t : Hash) (s k : String) (hk : k ≠ s) :
    mutt_hash_find_elem (mutt_hash_delete t s) k = mutt_hash_find_elem t k := by
  unfold mutt_hash_find_elem mutt_hash_delete
  congr 1
  induction t with
  | nil => rfl
  | cons e t ih =>
    by_cases hes : e.1 = s
    · have hek : ¬ e.1 = k := fun h => hk (h ▸ hes)
      rw [List.filter_cons_of_neg (by simpa using hes), List.find?_cons_of_neg _ (by simpa using hek)]
      exact ih
    · rw [List.filter_cons_of_pos (by simpa using hes)]
      by_cases hek : e.1 = k
      · rw [List.find?_cons_of_pos _ (by simpa using hek),
          List.find?_cons_of_pos _ (by simpa using hek)]
      · rw [List.find?_cons_of_neg _ (by simpa using hek),
          List.find?_cons_of_neg _ (by simpa using hek)]
        exact ih

theorem find_store_same (t : Hash) (s : String) (c : Nat) :
    mutt_hash_find_elem (mutt_hash_store t s c) s = some c := by
  simp [mutt_hash_find_elem, mutt_hash_store]

theorem find_store_other (t : Hash) (s k : String) (c : Nat) (hk : k ≠ s) :
    mutt_hash_find_elem (mutt_hash_store t s c) k = mutt_hash_find_elem t k := by
  rw [← find_delete_other t s k hk]
  simp [mutt_hash_find_elem, mutt_hash_store, Ne.symm hk]

/-- C11. When the capacity is 0 or the class is not a recognised one
(`hclass ≥ HC_LAST`), `mutt_history_add`, `mutt_reset_history_state` and
`mutt_history_save_scratch` leave the whole state as it is,
`mutt_history_next` and `mutt_history_prev` return the empty string and leave
the state (every cursor included) as it is, and `mutt_history_at_scratch` is
false. -/
theorem disabled_noop (g : Globals) (hclass : Nat) (s : String) (save : Bool) (fuel : Nat)
    (hdis : g.History.val = 0 ∨ hclass ≥ HC_LAST g) :
    mutt_history_add g hclass s save = .ok g ∧
      mutt_reset_history_state g hclass = g ∧
      mutt_history_save_scratch g hclass s = .ok g ∧
      mutt_history_next fuel g hclass = .ok (g, "") ∧
      mutt_history_prev fuel g hclass = .ok (g, "") ∧
      mutt_history_at_scratch g hclass = false := by
  rcases hdis with h0 | hc
  · cases hg : get_history g hclass <;>
      simp [mutt_history_add, mutt_reset_history_state, mutt_history_save_scratch,
        mutt_history_next, mutt_history_prev, mutt_history_at_scratch, hg, h0]
  · have hg : get_history g hclass = none := by simp [get_history, hc]
    simp [mutt_history_add, mutt_reset_history_state, mutt_history_save_scratch,
      mutt_history_next, mutt_history_prev, mutt_history_at_scratch, hg]

theorem disabled_noop_witness :
    mutt_history_add scratch_example 2 "text" true = .ok scratch_example ∧
      mutt_reset_history_state scratch_example 2 = scratch_example ∧
      mutt_history_save_scratch scratch_example 2 "text" = .ok scratch_example ∧
      mutt_history_next 3 scratch_example 2 = .ok (scratch_example, "") ∧
      mutt_history_prev 3 scratch_example 2 = .ok (scratch_example, "") ∧
      mutt_history_at_scratch scratch_example 2 = false :=
  disabled_noop scratch_example 2 "text" true 3 (Or.inr (by decide))

theorem dup_hash_inc_spec (t : Hash) (s : String) :
    (dup_hash_inc t s).2 = (((mutt_hash_find_elem t s).getD 0 + 1 : Nat) : Int) ∧
      mutt_hash_find_elem (dup_hash_inc t s).1 s
        = some ((mutt_hash_find_elem t s).getD 0 + 1) ∧
      ∀ k, k ≠ s → mutt_hash_find_elem (dup_hash_inc t s).1 k = mutt_hash_find_elem t k := by
  unfold dup_hash_inc
  cases h : mutt_hash_find_elem t s with
  | none => exact ⟨rfl, find_store_same _ _ _, fun k hk => find_store_other _ _ _ _ hk⟩
  | some c => exact ⟨rfl, find_store_same _ _ _, fun k hk => find_store_other _ _ _ _ hk⟩

theorem dup_hash_dec_absent (t : Hash) (s : String) (h : mutt_hash_find_elem t s = none) :
    dup_hash_dec t s = (t, -1) := by
  simp [dup_hash_dec, h]

theorem dup_hash_dec_present (t : Hash) (s : String) (c : Nat)
    (h : mutt_hash_find_elem t s = some c) (hc : 1 ≤ c) :
    (dup_hash_dec t s).2 = (c : Int) - 1 ∧
      mutt_hash_find_elem (dup_hash_dec t s).1 s = (if c - 1 = 0 then none else some (c - 1)) ∧
      ∀ k, k ≠ s → mutt_hash_find_elem (dup_hash_dec t s).1 k = mutt_hash_find_elem t k := by
  unfold dup_hash_dec
  rw [h]
  by_cases h1 : c ≤ 1
  · have hc1 : c = 1 := by omega
    subst hc1
    simp only [if_pos h1]
    exact ⟨rfl, by simp [find_delete_same], fun k hk => find_delete_other _ _ _ hk⟩
  · simp only [if_neg h1]
    refine ⟨by omega, ?_, fun k hk => find_store_other _ _ _ _ hk⟩
    rw [find_store_same, if_neg (by omega)]

theorem counts_positive_inc (t : Hash) (s : String) (hpos : counts_positive t) :
    counts_positive (dup_hash_inc t s).1 := by
  obtain ⟨_, hs, ho⟩ := dup_hash_inc_spec t s
  intro k c hk
  by_cases hks : k = s
  · subst hks; rw [hs] at hk; cases hk; omega
  · rw [ho k hks] at hk; exact hpos k c hk

theorem counts_positive_dec (t : Hash) (s : String) (hpos : counts_positive t) :
    counts_positive (dup_hash_dec t s).1 := by
  cases h : mutt_hash_find_elem t s with
  | none => rw [dup_hash_dec_absent t s h]; exact hpos
  | some c0 =>
    obtain ⟨_, hs, ho⟩ := dup_hash_dec_present t s c0 h (hpos s c0 h)
    intro k c hk
    by_cases hks : k = s
    · subst hks
      rw [hs] at hk
      split at hk
      · cases hk
      · cases hk; omega
    · rw [ho k hks] at hk; exact hpos k c hk

theorem find_inc_n (t : Hash) (s : String) : ∀ (k : Nat),
    1 ≤ k → mutt_hash_find_elem (dup_hash_inc_n t s k) s
      = some ((mutt_hash_find_elem t s).getD 0 + k)
  | 0, h => by omega
  | 1, _ => (dup_hash_inc_spec t s).2.1
  | k + 2, _ => by
    have ih := find_inc_n (dup_hash_inc t s).1 s (k + 1) (by omega)
    rw [(dup_hash_inc_spec t s).2.1] at ih
    simp only [dup_hash_inc_n] at ih ⊢
    rw [ih]
    simp only [Option.getD_some]
    congr 1
    omega

theorem dec_n_from (s : String) : ∀ (k : Nat) (t : Hash),
    mutt_hash_find_elem t s = (if k = 0 then none else some k) → ∀ (m : Nat),
    dup_hash_dec_n t s (k + m)
      = ((List.range k).reverse.map (fun i => (i : Int))) ++ List.replicate m (-1)
  | 0, t, h, m => by
    have h0 : mutt_hash_find_elem t s = none := by simpa using h
    induction m with
    | zero => rfl
    | succ m ih =>
      have : 0 + (m + 1) = (0 + m) + 1 := by omega
      rw [this]
      simp only [dup_hash_dec_n, dup_hash_dec_absent t s h0]
      rw [ih]
      simp [List.replicate_succ]
  | k + 1, t, h, m => by
    have h1 : mutt_hash_find_elem t s = some (k + 1) := by simpa using h
    obtain ⟨hv, hf, _⟩ := dup_hash_dec_present t s (k + 1) h1 (by omega)
    have ih := dec_n_from s k (dup_hash_dec t s).1 (by simpa using hf) m
    have : k + 1 + m = (k + m) + 1 := by omega
    rw [this]
    simp only [dup_hash_dec_n]
    rw [ih, hv, List.range_succ, List.reverse_append]
    simp

/-- C12. `dup_hash_inc` returns the previous count of the key plus one (1 for a
key that is absent) and stores it; `dup_hash_dec` returns -1 and changes
nothing when the key is absent, and otherwise, the stored count being at least
1, returns the previous count minus one, stores it, and removes the key when
that is 0; neither changes the count of another key, and both keep the stored
counts at least 1. Hence, for a key that was absent, after `k` increments
`k` successive decrements return `k-1, ..., 1, 0` and every further one
returns -1. -/
theorem dup_hash_contract (t : Hash) (s : String) (hpos : counts_positive t) :
    ((dup_hash_inc t s).2 = (((mutt_hash_find_elem t s).getD 0 + 1 : Nat) : Int) ∧
      mutt_hash_find_elem (dup_hash_inc t s).1 s
        = some ((mutt_hash_find_elem t s).getD 0 + 1) ∧
      (∀ k, k ≠ s →
        mutt_hash_find_elem (dup_hash_inc t s).1 k = mutt_hash_find_elem t k) ∧
      counts_positive (dup_hash_inc t s).1) ∧
    (mutt_hash_find_elem t s = none → dup_hash_dec t s = (t, -1)) ∧
    (∀ c, mutt_hash_find_elem t s = some c →
      (dup_hash_dec t s).2 = (c : Int) - 1 ∧
      mutt_hash_find_elem (dup_hash_dec t s).1 s = (if c - 1 = 0 then none else some (c - 1)) ∧
      (∀ k, k ≠ s →
        mutt_hash_find_elem (dup_hash_dec t s).1 k = mutt_hash_find_elem t k) ∧
      counts_positive (dup_hash_dec t s).1) ∧
    (mutt_hash_find_elem t s = none → ∀ k m : Nat,
      dup_hash_dec_n (dup_hash_inc_n t s k) s (k + m)
        = ((List.range k).reverse.map (fun i => (i : Int))) ++ List.replicate m (-1)) := by
  obtain ⟨hi1, hi2, hi3⟩ := dup_hash_inc_spec t s
  refine ⟨⟨hi1, hi2, hi3, counts_positive_inc t s hpos⟩, dup_hash_dec_absent t s, ?_, ?_⟩
  · intro c hc
    obtain ⟨h1, h2, h3⟩ := dup_hash_dec_present t s c hc (hpos s c hc)
    exact ⟨h1, h2, h3, counts_positive_dec t s hpos⟩
  · intro habs k m
    apply dec_n_from s k
    cases k with
    | zero => simpa [dup_hash_inc_n] using habs
    | succ k =>
      rw [find_inc_n t s (k + 1) (by omega), habs]
      simp

theorem dup_hash_contract_witness :
    dup_hash_dec_n (dup_hash_inc_n [("b", 2)] "a" 3) "a" (3 + 2) = [2, 1, 0, -1, -1] ∧
      (dup_hash_dec [("b", 2)] "b").2 = 1 := by
  have h := dup_hash_contract [("b", 2)] "a" (by
    intro k c hk
    simp only [mutt_hash_find_elem, List.find?_cons, List.find?_nil] at hk
    split at hk
    · simp at hk; omega
    · simp at hk)
  have h2 := dup_hash_contract [("b", 2)] "b" (by
    intro k c hk
    simp only [mutt_hash_find_elem, List.find?_cons, List.find?_nil] at hk
    split at hk
    · simp at hk; omega
    · simp at hk)
  exact ⟨h.2.2.2 (by decide) 3 2, (h2.2.2.1 2 (by decide)).1⟩

/-! ## The line format -/

theorem digits_value_foldl (ds : List Char) (a : Nat) :
    ds.foldl (fun a c => 10 * a + (c.toNat - 48)) a = a * 10 ^ ds.length + digits_value ds := by
  unfold digits_value
  induction ds generalizing a with
  | nil => simp
  | cons d ds ih =>
    simp only [List.foldl_cons, List.length_cons]
    rw [ih (10 * a + (d.toNat - 48)), ih (10 * 0 + (d.toNat - 48))]
    ring

theorem digits_value_cons (d : Char) (ds : List Char) :
    digits_value (d :: ds) = (d.toNat - 48) * 10 ^ ds.length + digits_value ds := by
  have := digits_value_foldl ds (10 * 0 + (d.toNat - 48))
  simp only [digits_value, List.foldl_cons] at this ⊢
  rw [this]
  simp

theorem digitChar_value (k : Nat) (hk : k < 10) : (Nat.digitChar k).toNat - 48 = k := by
  interval_cases k <;> rfl

theorem toDigitsCore_value : ∀ (fuel n : Nat) (ds : List Char), n < fuel →
    digits_value (Nat.toDigitsCore 10 fuel n ds) = n * 10 ^ ds.length + digits_value ds
  | 0, n, ds, h => by omega
  | fuel + 1, n, ds, h => by
    have hd := digitChar_value (n % 10) (Nat.mod_lt _ (by decide))
    simp only [Nat.toDigitsCore]
    split
    · next h0 =>
      rw [digits_value_cons, hd]
      have : n = n % 10 := by omega
      rw [← this]
    · next h0 =>
      rw [toDigitsCore_value fuel (n / 10) _ (by omega), digits_value_cons, hd,
        List.length_cons, pow_succ]
      have hdm := Nat.div_add_mod n 10
      conv_rhs => rw [← hdm]
      ring

theorem digits_value_toString (n : Nat) : digits_value (toString n).data = n := by
  have h : (toString n).data = Nat.toDigitsCore 10 (n + 1) n [] := rfl
  rw [h, toDigitsCore_value _ _ _ (by omega)]
  simp [digits_value]

theorem history_line_data (hclass : Nat) (s : String) :
    history_line hclass s =
      String.mk ((toString hclass).data ++ ':' :: ((strip_newlines s).data ++ ['|'])) := by
  apply String.ext
  simp [history_line, strip_newlines]

theorem parse_history_line (hclass : Nat) (s : String) (read : Option Nat) :
    parse_line read (history_line hclass s)
        = .ok (some (hclass : Int), some ((toString hclass).data.length + 1)) ∧
      line_text (history_line hclass s) ((toString hclass).data.length + 1)
        = .ok (strip_newlines s) := by
  obtain ⟨hne, hds⟩ := toString_nat_digits hclass
  have hsc := sscanf_class_digits (toString hclass).data ((strip_newlines s).data ++ ['|'])
    hne hds
  rw [← history_line_data, digits_value_toString] at hsc
  have hdata : (history_line hclass s).data
      = ((toString hclass).data ++ ':' :: (strip_newlines s).data) ++ ['|'] := by
    rw [history_line_data]; simp
  have hlast : (history_line hclass s).data.getLast? = some '|' := by
    rw [hdata, List.getLast?_concat]
  constructor
  · simp only [parse_line, hsc]
    simp [hlast]
  · unfold line_text
    simp only [hdata, List.length_append, List.length_cons, List.length_nil]
    rw [if_pos (by omega)]
    congr 1
    apply String.ext
    simp only [Nat.add_sub_cancel]
    rw [show (toString hclass).data.length + ((strip_newlines s).data.length + 1)
        = ((toString hclass).data ++ ':' :: (strip_newlines s).data).length from by
          simp only [List.length_append, List.length_cons], List.take_left' rfl]
    rw [show (toString hclass).data ++ ':' :: (strip_newlines s).data
        = ((toString hclass).data ++ [':']) ++ (strip_newlines s).data from by simp,
      show (toString hclass).data.length + 1 = ((toString hclass).data ++ [':']).length from by
        simp, List.drop_left' rfl]

theorem line_entry_history_line (hclass : Nat) (s : String) :
    line_entry (history_line hclass s) = some ((hclass : Int), strip_newlines s) := by
  obtain ⟨h1, h2⟩ := parse_history_line hclass s (some 0)
  simp only [line_entry, h1, h2]

theorem strip_newlines_id (s : String) (h : '\n' ∉ s.data) : strip_newlines s = s := by
  apply String.ext
  simp only [strip_newlines]
  rw [List.filter_eq_self]
  intro c hc
  simp only [ne_eq, decide_not, Bool.not_eq_true', decide_eq_false_iff_not]
  intro hcn
  exact h (hcn ▸ hc)

/-- C20. For a non-empty text `s`, with the history file open for appending,
`save_history` appends the one line made of the decimal class number, `:`, the
text without its newline characters, and `|` (and then, when its counter runs
out, calls `shrink_histfile` on the file so extended). Read back as
`mutt_read_histfile` reads a line, that line gives the class `hclass` and the
text without its newlines, so a text without newlines comes back unchanged,
whatever `|` it contains; and for a recognised class the reading loop hands
exactly that text to `mutt_history_add` with `save = false`. -/
theorem line_format_round_trip (g : Globals) (hclass : Nat) (s : String) (line : Nat)
    (hs : s ≠ "") (hw : g.can_write = true) (hc : hclass < HC_LAST g) :
    save_history g hclass s =
        (if g.save_n - 1 < 0 then
          shrink_histfile
            { g with
              HistoryFile := some (g.HistoryFile.getD [] ++ [history_line hclass s])
              save_n := g.SaveHistory.val }
        else
          .ok { g with
                HistoryFile := some (g.HistoryFile.getD [] ++ [history_line hclass s])
                save_n := g.save_n - 1 }) ∧
      (history_line hclass s).data
        = (toString hclass).data ++ ':' :: ((strip_newlines s).data ++ ['|']) ∧
      line_entry (history_line hclass s) = some ((hclass : Int), strip_newlines s) ∧
      ('\n' ∉ s.data → line_entry (history_line hclass s) = some ((hclass : Int), s)) ∧
      read_lines [history_line hclass s] line g =
        (match mutt_str_strdup (strip_newlines s) with
          | none => .ok (g, none)
          | some p => (mutt_history_add g hclass p false).bind (fun g' => .ok (g', none))) := by
  refine ⟨?_, ?_, line_entry_history_line hclass s, ?_, ?_⟩
  · simp only [save_history, hs, if_false, hw, Bool.not_true, Bool.false_eq_true,
      mutt_convert_string]
  · rw [history_line_data]
  · intro hn
    rw [line_entry_history_line, strip_newlines_id s hn]
  · obtain ⟨h1, h2⟩ := parse_history_line hclass s (some 0)
    have hlt : ¬ ((hclass : Int) ≥ (HC_LAST g : Int)) := by omega
    simp only [read_lines, h1, if_neg hlt, Option.getD_some, h2, Int.toNat_ofNat,
      mutt_convert_string]
    cases mutt_str_strdup (strip_newlines s) with
    | none => rfl
    | some p =>
      simp only
      cases mutt_history_add g hclass p false <;> rfl

theorem line_format_round_trip_witness :
    line_entry (history_line 0 "a|b\n|") = some (0, "a|b|") ∧
      save_history rejected_example 0 "a|b\n|"
        = .ok { rejected_example with HistoryFile := some ["0:a|", "0:a|b||"], save_n := 2 } := by
  have h := line_format_round_trip rejected_example 0 "a|b\n|" 0 (by decide) (by decide)
    (by decide)
  refine ⟨h.2.2.1.trans (by decide), h.1.trans (by decide)⟩

/-! ## Compaction of the history file -/

theorem line_entry_parse (l : String) (c : Int) (t : String)
    (h : line_entry l = some (c, t)) (read : Option Nat) :
    ∃ rd, parse_line read l = .ok (some c, some rd) ∧ line_text l rd = .ok t ∧ 0 ≤ c := by
  unfold line_entry at h
  unfold parse_line at h ⊢
  by_cases h1 : (sscanf_class l).1 < 1
  · simp [h1] at h
  simp only [h1, if_false] at h ⊢
  cases hst : (sscanf_class l).2.2 with
  | none =>
    simp [hst] at h
  | some rd =>
    simp only [hst, Option.isSome_some, if_true] at h ⊢
    by_cases h3 : rd = 0
    · simp [h3] at h
    by_cases h4 : l.data.getLast? ≠ some '|'
    · simp [h3, h4] at h
    by_cases h5 : (sscanf_class l).2.1 < 0
    · simp [h3, h4, h5] at h
    simp only [h3, h4, h5, if_false] at h ⊢
    cases hlt : line_text l rd with
    | ok text =>
      simp only [hlt, Option.some.injEq, Prod.mk.injEq] at h
      obtain ⟨rfl, rfl⟩ := h
      exact ⟨rd, rfl, hlt, by omega⟩
    | fault => simp [hlt] at h
    | timeout => simp [hlt] at h

theorem entry_some (g : Globals) (l : String) (c : Nat) (t : String)
    (h : entry g l = some (c, t)) :
    c < HC_LAST g ∧ line_entry l = some ((c : Int), t) := by
  unfold entry at h
  cases hl : line_entry l with
  | none => simp [hl] at h
  | some e =>
    obtain ⟨c0, t0⟩ := e
    obtain ⟨_, _, _, hc0⟩ := line_entry_parse l c0 t0 hl none
    simp only [hl] at h
    split at h
    · cases h
    · simp only [Option.some.injEq, Prod.mk.injEq] at h
      obtain ⟨rfl, rfl⟩ := h
      refine ⟨by omega, ?_⟩
      rw [Int.toNat_of_nonneg hc0]

theorem entry_none (g : Globals) (l : String) (c : Int) (t : String)
    (hl : line_entry l = some (c, t)) (h : entry g l = none) : c ≥ (HC_LAST g : Int) := by
  simp only [entry, hl] at h
  split at h
  · assumption
  · cases h

theorem getD_set_same {α : Type} (l : List α) (i : Nat) (v d : α) (h : i < l.length) :
    (l.set i v).getD i d = v := by
  rw [List.getD_eq_getElem?_getD, List.getElem?_set_self h]
  rfl

theorem getD_set_other {α : Type} (l : List α) (i j : Nat) (v d : α) (h : i ≠ j) :
    (l.set i v).getD j d = l.getD j d := by
  rw [List.getD_eq_getElem?_getD, List.getD_eq_getElem?_getD, List.getElem?_set_ne h]

theorem hash_counts_nil : hash_counts [] (fun _ => 0) := by
  intro s; rfl

theorem hash_counts_inc (t : Hash) (f : String → Nat) (s : String) (h : hash_counts t f) :
    (dup_hash_inc t s).2 = ((f s + 1 : Nat) : Int) ∧
      hash_counts (dup_hash_inc t s).1 (fun k => if k = s then f s + 1 else f k) := by
  obtain ⟨h1, h2, h3⟩ := dup_hash_inc_spec t s
  have hf : (mutt_hash_find_elem t s).getD 0 = f s := by
    rw [h s]; split <;> simp [*]
  rw [hf] at h1 h2
  refine ⟨h1, fun k => ?_⟩
  by_cases hk : k = s
  · subst hk; simp [h2]
  · rw [h3 k hk, h k]; simp [hk]

theorem hash_counts_dec (t : Hash) (f : String → Nat) (s : String) (h : hash_counts t f)
    (hpos : 1 ≤ f s) :
    (dup_hash_dec t s).2 = (f s : Int) - 1 ∧
      hash_counts (dup_hash_dec t s).1 (fun k => if k = s then f s - 1 else f k) := by
  have hfind : mutt_hash_find_elem t s = some (f s) := by
    rw [h s, if_neg (by omega)]
  obtain ⟨h1, h2, h3⟩ := dup_hash_dec_present t s (f s) hfind hpos
  refine ⟨h1, fun k => ?_⟩
  by_cases hk : k = s
  · subst hk; simp [h2]
  · rw [h3 k hk, h k]; simp [hk]

theorem entries_cons_none (g : Globals) (l : String) (rest : List String)
    (h : entry g l = none) : entries g (l :: rest) = entries g rest := by
  simp [entries, List.filterMap_cons, h]

theorem entries_cons_some (g : Globals) (l : String) (rest : List String) (e : Nat × String)
    (h : entry g l = some e) : entries g (l :: rest) = e :: entries g rest := by
  simp [entries, List.filterMap_cons, h]

theorem counted_cons_none (g : Globals) (c : Nat) (l : String) (rest : List String)
    (h : entry g l = none) : counted g c (l :: rest) = counted g c rest := by
  simp only [counted, survivors, h]

theorem counted_cons_dup (g : Globals) (c : Nat) (l : String) (rest : List String)
    (e : Nat × String) (h : entry g l = some e) (hd : later_dup g e rest = true) :
    counted g c (l :: rest) = counted g c rest := by
  simp only [counted, survivors, h, hd, if_true]

theorem counted_cons_keep (g : Globals) (c : Nat) (l : String) (rest : List String)
    (e : Nat × String) (h : entry g l = some e) (hd : later_dup g e rest = false) :
    counted g c (l :: rest) = (if e.1 = c then 1 else 0) + counted g c rest := by
  simp only [counted, survivors, h, hd, Bool.false_eq_true, if_false, class_lines,
    List.filter_cons, Option.map_some', Option.some.injEq]
  by_cases hc : e.1 = c
  · simp [hc]; omega
  · simp [hc]

theorem shrink_write_spec (g : Globals) : ∀ (ls : List String), well_formed_file ls →
    ∀ (st : ShrinkState), write_state g st ls → ∀ (line : Nat) (tmp : List String),
      shrink_write g ls line st tmp = .ok (tmp ++ shrunk g ls, none)
  | [], _, _, _, _, tmp => by simp [shrink_write, shrunk]
  | l :: rest, hwf, st, hst, line, tmp => by
    have hwf' : well_formed_file rest := fun x hx => hwf x (List.mem_cons_of_mem _ hx)
    obtain ⟨hn, hh, hcnt, hhash⟩ := hst
    obtain ⟨⟨c0, t⟩, hle⟩ := Option.isSome_iff_exists.mp (hwf l (List.mem_cons_self _ _))
    obtain ⟨rd, hparse, htext, hc0⟩ := line_entry_parse l c0 t hle st.read
    by_cases hrec : c0 ≥ (HC_LAST g : Int)
    · have hent : entry g l = none := by simp [entry, hle, hrec]
      have ih := shrink_write_spec g rest hwf' { st with read := some rd }
        ⟨hn, hh, fun c hc => by rw [← counted_cons_none g c l rest hent]; exact hcnt c hc,
          fun hd c hc => by rw [← entries_cons_none g l rest hent]; exact hhash hd c hc⟩
        (line + 1) tmp
      simp only [shrink_write, hparse, if_pos hrec, ih, shrunk, hent]
    · have hent : entry g l = some (c0.toNat, t) := by simp [entry, hle, hrec]
      have hc : c0.toNat < HC_LAST g := by omega
      have hcn : c0.toNat < st.n.length := by omega
      have hch : c0.toNat < st.dup_hashes.length := by omega
      simp only [shrink_write, hparse, if_neg hrec, Option.getD_some, htext]
      by_cases hdd : g.OPT_HISTORY_REMOVE_DUPS = true
      · have hf1 : 1 ≤ (entries g (l :: rest)).count (c0.toNat, t) := by
          rw [entries_cons_some g l rest _ hent]; simp
        obtain ⟨hdec, hdech⟩ := hash_counts_dec _ _ t (hhash hdd _ hc) hf1
        have hcount : (entries g (l :: rest)).count (c0.toNat, t)
            = (entries g rest).count (c0.toNat, t) + 1 := by
          rw [entries_cons_some g l rest _ hent]; simp
        have hashes' : ∀ c, c < HC_LAST g →
            hash_counts ((st.dup_hashes.set c0.toNat
              (dup_hash_dec (st.dup_hashes.getD c0.toNat []) t).1).getD c [])
              (fun k => (entries g rest).count (c, k)) := by
          intro c hcl
          by_cases hcc : c0.toNat = c
          · subst hcc
            rw [getD_set_same _ _ _ _ hch]
            intro k
            have := hdech k
            beta_reduce at this ⊢
            rw [this]
            by_cases hk : k = t
            · subst hk; simp [hcount]
            · simp only [hk, if_false, entries_cons_some g l rest _ hent]
              rw [List.count_cons_of_ne (fun h => hk (congrArg Prod.snd h))]
          · rw [getD_set_other _ _ _ _ _ hcc]
            intro k
            have := hhash hdd c hcl k
            beta_reduce at this ⊢
            rw [this, entries_cons_some g l rest _ hent,
              List.count_cons_of_ne (fun h => hcc (congrArg Prod.fst h).symm)]
        by_cases hlater : (c0.toNat, t) ∈ entries g rest
        · have hld : later_dup g (c0.toNat, t) rest = true := by simp [later_dup, hdd, hlater]
          have hpos : (dup_hash_dec (st.dup_hashes.getD c0.toNat []) t).2 > 0 := by
            rw [hdec, hcount]
            have := List.count_pos_iff.mpr hlater
            omega
          have ih := shrink_write_spec g rest hwf'
            { st with read := some rd,
                      dup_hashes := st.dup_hashes.set c0.toNat
                        (dup_hash_dec (st.dup_hashes.getD c0.toNat []) t).1 }
            ⟨hn, by simp only [List.length_set]; exact hh,
              fun c hcl => by
                rw [← counted_cons_dup g c l rest _ hent hld]; exact hcnt c hcl,
              fun _ => hashes'⟩ (line + 1) tmp
          simp only [hdd, hpos, decide_True, Bool.and_self, if_true, ih, shrunk, hent, hld]
        · have hld : later_dup g (c0.toNat, t) rest = false := by simp [later_dup, hlater]
          have hzero : ¬ (dup_hash_dec (st.dup_hashes.getD c0.toNat []) t).2 > 0 := by
            rw [hdec, hcount, List.count_eq_zero.mpr hlater]
            omega
          have hcnt' : ∀ c, c < HC_LAST g →
              (st.n.set c0.toNat (st.n.getD c0.toNat 0 - 1)).getD c 0
                = ((counted g c rest : Nat) : Int) := by
            intro c hcl
            by_cases hcc : c0.toNat = c
            · subst hcc
              rw [getD_set_same _ _ _ _ hcn, hcnt _ hc, counted_cons_keep g _ l rest _ hent hld]
              simp
            · rw [getD_set_other _ _ _ _ _ hcc, hcnt c hcl,
                counted_cons_keep g c l rest _ hent hld]
              simp [hcc]
          have ihst : write_state g
              { st with read := some rd,
                        dup_hashes := st.dup_hashes.set c0.toNat
                          (dup_hash_dec (st.dup_hashes.getD c0.toNat []) t).1,
                        n := st.n.set c0.toNat (st.n.getD c0.toNat 0 - 1) } rest :=
            ⟨by simp only [List.length_set]; exact hn, by simp only [List.length_set]; exact hh,
              hcnt', fun _ => hashes'⟩
          simp only [hdd, hzero, decide_False, Bool.and_false, Bool.false_eq_true, if_false,
            if_true, shrunk, hent, hld, hcnt _ hc]
          split
          · rw [← hcnt _ hc, shrink_write_spec g rest hwf' _ ihst]
            simp
          · rw [← hcnt _ hc, shrink_write_spec g rest hwf' _ ihst]
      · have hld : later_dup g (c0.toNat, t) rest = false := by simp [later_dup, hdd]
        have hcnt' : ∀ c, c < HC_LAST g →
            (st.n.set c0.toNat (st.n.getD c0.toNat 0 - 1)).getD c 0
              = ((counted g c rest : Nat) : Int) := by
          intro c hcl
          by_cases hcc : c0.toNat = c
          · subst hcc
            rw [getD_set_same _ _ _ _ hcn, hcnt _ hc, counted_cons_keep g _ l rest _ hent hld]
            simp
          · rw [getD_set_other _ _ _ _ _ hcc, hcnt c hcl,
              counted_cons_keep g c l rest _ hent hld]
            simp [hcc]
        have ihst : write_state g
            { st with read := some rd,
                      n := st.n.set c0.toNat (st.n.getD c0.toNat 0 - 1) } rest :=
          ⟨by simp only [List.length_set]; exact hn, hh, hcnt', fun h => absurd h hdd⟩
        simp only [hdd, Bool.false_and, Bool.false_eq_true, if_false, shrunk, hent, hld,
          hcnt _ hc]
        split
        · rw [← hcnt _ hc, shrink_write_spec g rest hwf' _ ihst]
          simp
        · rw [← hcnt _ hc, shrink_write_spec g rest hwf' _ ihst]

theorem entries_snoc_none (g : Globals) (P : List String) (l : String)
    (h : entry g l = none) : entries g (P ++ [l]) = entries g P := by
  simp [entries, List.filterMap_append, h]

theorem entries_snoc_some (g : Globals) (P : List String) (l : String) (e : Nat × String)
    (h : entry g l = some e) : entries g (P ++ [l]) = entries g P ++ [e] := by
  simp [entries, List.filterMap_append, h]

theorem first_count_snoc_none (g : Globals) (c : Nat) (P : List String) (l : String)
    (h : entry g l = none) : first_count g c (P ++ [l]) = first_count g c P := by
  simp only [first_count, entries_snoc_none g P l h]

theorem first_count_snoc_seen (g : Globals) (c : Nat) (P : List String) (l : String)
    (e : Nat × String) (h : entry g l = some e) (hd : g.OPT_HISTORY_REMOVE_DUPS = true)
    (hm : e ∈ entries g P) : first_count g c (P ++ [l]) = first_count g c P := by
  simp only [first_count, entries_snoc_some g P l e h, hd, if_true]
  congr 2
  ext x
  simp only [List.toFinset_append, List.toFinset_cons, List.toFinset_nil, Finset.mem_union,
    List.mem_toFinset, Finset.mem_insert, Finset.not_mem_empty, or_false]
  constructor
  · rintro (hx | rfl)
    · exact hx
    · exact hm
  · exact Or.inl

theorem first_count_snoc_new (g : Globals) (c : Nat) (P : List String) (l : String)
    (e : Nat × String) (h : entry g l = some e)
    (hm : g.OPT_HISTORY_REMOVE_DUPS = true → e ∉ entries g P) :
    first_count g c (P ++ [l]) = first_count g c P + (if e.1 = c then 1 else 0) := by
  simp only [first_count, entries_snoc_some g P l e h]
  by_cases hd : g.OPT_HISTORY_REMOVE_DUPS = true
  · simp only [hd, if_true]
    have hset : (entries g P ++ [e]).toFinset = insert e (entries g P).toFinset := by
      ext x
      simp only [List.toFinset_append, List.toFinset_cons, List.toFinset_nil, Finset.mem_union,
        List.mem_toFinset, Finset.mem_insert, Finset.not_mem_empty, or_false]
      exact or_comm
    rw [hset, Finset.filter_insert]
    by_cases hc : e.1 = c
    · rw [if_pos hc, if_pos hc, Finset.card_insert_of_not_mem]
      simp only [Finset.mem_filter, List.mem_toFinset, not_and]
      intro hx; exact absurd hx (hm hd)
    · rw [if_neg hc, if_neg hc]; rfl
  · simp only [hd, Bool.false_eq_true, if_false, List.filter_append, List.length_append,
      List.filter_cons, List.filter_nil]
    by_cases hc : e.1 = c <;> simp [hc]

theorem shrink_count_spec (g : Globals) : ∀ (R : List String), well_formed_file R →
    ∀ (P : List String) (st : ShrinkState), count_state g st P → ∀ (line : Nat),
      ∃ st', shrink_count g R line st = .ok (.ok st') ∧ count_state g st' (P ++ R)
  | [], _, P, st, hst, _ => ⟨st, rfl, by simpa using hst⟩
  | l :: R, hwf, P, st, hst, line => by
    have hwf' : well_formed_file R := fun x hx => hwf x (List.mem_cons_of_mem _ hx)
    have happ : P ++ l :: R = (P ++ [l]) ++ R := by simp
    obtain ⟨hn, hh, hcnt, hhash, hregen⟩ := hst
    obtain ⟨⟨c0, t⟩, hle⟩ := Option.isSome_iff_exists.mp (hwf l (List.mem_cons_self _ _))
    obtain ⟨rd, hparse, htext, hc0⟩ := line_entry_parse l c0 t hle st.read
    rw [happ]
    by_cases hrec : c0 ≥ (HC_LAST g : Int)
    · have hent : entry g l = none := by simp [entry, hle, hrec]
      obtain ⟨st', hrun, hst'⟩ := shrink_count_spec g R hwf' (P ++ [l]) { st with read := some rd }
        ⟨hn, hh, fun c hc => by rw [first_count_snoc_none g c P l hent]; exact hcnt c hc,
          fun hd c hc => by rw [entries_snoc_none g P l hent]; exact hhash hd c hc,
          by rw [entries_snoc_none g P l hent]; exact hregen⟩ (line + 1)
      exact ⟨st', by simp only [shrink_count, hparse, if_pos hrec, hrun], hst'⟩
    · have hent : entry g l = some (c0.toNat, t) := by simp [entry, hle, hrec]
      have hc : c0.toNat < HC_LAST g := by omega
      have hcn : c0.toNat < st.n.length := by omega
      have hch : c0.toNat < st.dup_hashes.length := by omega
      have hcnt' : (g.OPT_HISTORY_REMOVE_DUPS = true → (c0.toNat, t) ∉ entries g P) →
          ∀ c, c < HC_LAST g →
          (st.n.set c0.toNat (st.n.getD c0.toNat 0 + 1)).getD c 0
            = ((first_count g c (P ++ [l]) : Nat) : Int) := by
        intro hnew c hcl
        rw [first_count_snoc_new g c P l _ hent hnew]
        by_cases hcc : c0.toNat = c
        · subst hcc
          rw [getD_set_same _ _ _ _ hcn, hcnt _ hc]
          simp
        · rw [getD_set_other _ _ _ _ _ hcc, hcnt c hcl]
          simp [hcc]
      simp only [shrink_count, hparse, if_neg hrec, Option.getD_some, htext]
      by_cases hdd : g.OPT_HISTORY_REMOVE_DUPS = true
      · obtain ⟨hinc, hinch⟩ := hash_counts_inc _ _ t (hhash hdd _ hc)
        have hashes' : ∀ c, c < HC_LAST g →
            hash_counts ((st.dup_hashes.set c0.toNat
              (dup_hash_inc (st.dup_hashes.getD c0.toNat []) t).1).getD c [])
              (fun k => (entries g (P ++ [l])).count (c, k)) := by
          intro c hcl
          rw [entries_snoc_some g P l _ hent]
          by_cases hcc : c0.toNat = c
          · subst hcc
            rw [getD_set_same _ _ _ _ hch]
            intro k
            have := hinch k
            beta_reduce at this ⊢
            rw [this]
            by_cases hk : k = t
            · subst hk; simp
            · simp only [hk, if_false, List.count_append]
              rw [List.count_cons_of_ne (fun h => hk (congrArg Prod.snd h))]
              simp
          · rw [getD_set_other _ _ _ _ _ hcc]
            intro k
            have := hhash hdd c hcl k
            beta_reduce at this ⊢
            rw [this, List.count_append,
              List.count_cons_of_ne (fun h => hcc (congrArg Prod.fst h).symm)]
            simp
        by_cases hseen : (c0.toNat, t) ∈ entries g P
        · have hgt : (dup_hash_inc (st.dup_hashes.getD c0.toNat []) t).2 > 1 := by
            rw [hinc]
            have := List.count_pos_iff.mpr hseen
            omega
          obtain ⟨st', hrun, hst'⟩ := shrink_count_spec g R hwf' (P ++ [l])
            { st with read := some rd,
                      dup_hashes := st.dup_hashes.set c0.toNat
                        (dup_hash_inc (st.dup_hashes.getD c0.toNat []) t).1,
                      regen_file := true }
            ⟨hn, by simp only [List.length_set]; exact hh,
              fun c hcl => by
                rw [first_count_snoc_seen g c P l _ hent hdd hseen]; exact hcnt c hcl,
              fun _ => hashes',
              by
                rw [entries_snoc_some g P l _ hent]
                have : ¬ (entries g P ++ [(c0.toNat, t)]).Nodup := by
                  rw [List.nodup_append]
                  intro h
                  exact h.2.2 hseen (List.mem_singleton_self _)
                simp [hdd, this]⟩ (line + 1)
          exact ⟨st', by simp only [hdd, hgt, decide_True, Bool.and_self, if_true, hrun], hst'⟩
        · have hle1 : ¬ (dup_hash_inc (st.dup_hashes.getD c0.toNat []) t).2 > 1 := by
            rw [hinc, List.count_eq_zero.mpr hseen]
            omega
          obtain ⟨st', hrun, hst'⟩ := shrink_count_spec g R hwf' (P ++ [l])
            { st with read := some rd,
                      dup_hashes := st.dup_hashes.set c0.toNat
                        (dup_hash_inc (st.dup_hashes.getD c0.toNat []) t).1,
                      n := st.n.set c0.toNat (st.n.getD c0.toNat 0 + 1) }
            ⟨by simp only [List.length_set]; exact hn,
              by simp only [List.length_set]; exact hh,
              hcnt' (fun _ => hseen), fun _ => hashes',
              by
                rw [entries_snoc_some g P l _ hent, hregen]
                have : (entries g P ++ [(c0.toNat, t)]).Nodup ↔ (entries g P).Nodup := by
                  rw [List.nodup_append]
                  constructor
                  · exact fun h => h.1
                  · intro h
                    refine ⟨h, List.nodup_singleton _, ?_⟩
                    intro a ha hb
                    rw [List.mem_singleton] at hb
                    subst hb
                    exact hseen ha
                simp [this]⟩ (line + 1)
          exact ⟨st', by
            simp only [hdd, hle1, decide_False, Bool.and_false, Bool.false_eq_true, if_false,
              if_true, hrun], hst'⟩
      · obtain ⟨st', hrun, hst'⟩ := shrink_count_spec g R hwf' (P ++ [l])
          { st with read := some rd,
                    n := st.n.set c0.toNat (st.n.getD c0.toNat 0 + 1) }
          ⟨by simp only [List.length_set]; exact hn, hh,
            hcnt' (fun h => absurd h hdd), fun h => absurd h hdd,
            by rw [hregen]; simp [hdd]⟩ (line + 1)
        exact ⟨st', by
          simp only [hdd, Bool.false_and, Bool.false_eq_true, if_false, hrun], hst'⟩

theorem first_count_eq_counted (g : Globals) (c : Nat) : ∀ (ls : List String),
    first_count g c ls = counted g c ls
  | [] => by simp [first_count, counted, entries, survivors, class_lines]
  | l :: rest => by
    have ih := first_count_eq_counted g c rest
    cases hent : entry g l with
    | none =>
      rw [counted_cons_none g c l rest hent, ← ih]
      simp only [first_count, entries_cons_none g l rest hent]
    | some e =>
      by_cases hdd : g.OPT_HISTORY_REMOVE_DUPS = true
      · by_cases hm : e ∈ entries g rest
        · have hld : later_dup g e rest = true := by simp [later_dup, hdd, hm]
          rw [counted_cons_dup g c l rest e hent hld, ← ih]
          simp only [first_count, entries_cons_some g l rest e hent, hdd, if_true,
            List.toFinset_cons]
          rw [Finset.insert_eq_of_mem (List.mem_toFinset.mpr hm)]
        · have hld : later_dup g e rest = false := by simp [later_dup, hm]
          rw [counted_cons_keep g c l rest e hent hld, ← ih]
          simp only [first_count, entries_cons_some g l rest e hent, hdd, if_true,
            List.toFinset_cons, Finset.filter_insert]
          by_cases hc : e.1 = c
          · rw [if_pos hc, if_pos hc, Finset.card_insert_of_not_mem]
            · omega
            · simp only [Finset.mem_filter, List.mem_toFinset, not_and]
              intro hx; exact absurd hx hm
          · rw [if_neg hc, if_neg hc]; omega
      · have hld : later_dup g e rest = false := by simp [later_dup, hdd]
        rw [counted_cons_keep g c l rest e hent hld, ← ih]
        simp only [first_count, entries_cons_some g l rest e hent, hdd, Bool.false_eq_true,
          if_false, List.filter_cons]
        by_cases hc : e.1 = c <;> simp [hc] <;> omega

theorem any_of_getD (n : List Int) (k : Nat) (f : Nat → Int) (p : Int → Bool)
    (hlen : n.length = k) (hget : ∀ c, c < k → n.getD c 0 = f c) :
    n.any p = (List.range k).any (fun c => p (f c)) := by
  have : n = (List.range k).map f := by
    apply List.ext_getElem
    · simp [hlen]
    · intro i h1 h2
      have := hget i (by omega)
      rw [List.getD_eq_getElem?_getD, List.getElem?_eq_getElem h1] at this
      simpa using this
  rw [this]
  generalize List.range k = r
  induction r with
  | nil => rfl
  | cons a r ih => simp only [List.map_cons, List.any_cons, ih]

/-- The exact result of `shrink_histfile` on a file of well-formed lines, when
the temporary file can be created and the history file can be written. -/
theorem shrink_histfile_spec (g : Globals) (file : List String)
    (hfile : g.HistoryFile = some file) (hwf : well_formed_file file)
    (hm : g.can_mktemp = true) (hw : g.can_write = true) :
    shrink_histfile g =
      .ok (if needs_rewrite g file then { g with HistoryFile := some (shrunk g file) } else g) := by
  obtain ⟨st, hcount, hst⟩ := shrink_count_spec g file hwf []
    { read := none, n := List.replicate (HC_LAST g) 0,
      dup_hashes := List.replicate (HC_LAST g) [], regen_file := false }
    ⟨by simp, by simp,
      fun c hc => by
        simp [first_count, entries, List.getD_eq_getElem?_getD, List.getElem?_replicate, hc],
      fun _ c hc => by
        simp only [List.getD_eq_getElem?_getD, List.getElem?_replicate, hc, if_true,
          Option.getD_some, entries, List.filterMap_nil, List.count_nil]
        exact hash_counts_nil,
      by simp [entries]⟩ 0
  simp only [List.nil_append] at hst
  obtain ⟨hn, hh, hcnt, hhash, hregen⟩ := hst
  have hws : write_state g st file :=
    ⟨hn, hh, fun c hc => by rw [hcnt c hc, first_count_eq_counted], hhash⟩
  have hany : st.n.any (fun k => decide (k > g.SaveHistory.val)) = over_limit g file := by
    rw [any_of_getD st.n (HC_LAST g) (fun c => ((counted g c file : Nat) : Int)) _ hn
      (fun c hc => by rw [hcnt c hc, first_count_eq_counted])]
    rfl
  have hreg : (st.regen_file || st.n.any (fun k => decide (k > g.SaveHistory.val)))
      = needs_rewrite g file := by
    rw [hany, hregen]; rfl
  simp only [shrink_histfile, hfile, hcount, hreg]
  by_cases hr : needs_rewrite g file = true
  · simp only [hr, if_true, hm, shrink_write_spec g file hwf st hws 0 [], List.nil_append, hw]
  · simp only [hr, Bool.false_eq_true, if_false]

theorem shrunk_append (g : Globals) (ls : List String) : ∀ (pre : List String),
    ∃ X, X.Sublist pre ∧ shrunk g (pre ++ ls) = X ++ shrunk g ls
  | [] => ⟨[], List.Sublist.refl _, rfl⟩
  | l :: pre => by
    obtain ⟨X, hX, hs⟩ := shrunk_append g ls pre
    simp only [List.cons_append, shrunk]
    split
    · exact ⟨X, hX.cons l, hs⟩
    · split
      · exact ⟨X, hX.cons l, hs⟩
      · split
        · exact ⟨l :: X, hX.cons₂ l, congrArg (List.cons l) hs⟩
        · exact ⟨X, hX.cons l, hs⟩

theorem shrunk_sublist (g : Globals) (ls : List String) : (shrunk g ls).Sublist ls := by
  obtain ⟨X, hX, hs⟩ := shrunk_append g [] ls
  simp only [List.append_nil, shrunk] at hs
  rw [hs]
  exact hX

theorem shrunk_length_le (g : Globals) (ls : List String) :
    (shrunk g ls).length ≤ ls.length :=
  (shrunk_sublist g ls).length_le

theorem shrunk_lt_of_dup (g : Globals) (hdd : g.OPT_HISTORY_REMOVE_DUPS = true) :
    ∀ (ls : List String), ¬ (entries g ls).Nodup → (shrunk g ls).length < ls.length
  | [], h => by simp [entries] at h
  | l :: rest, h => by
    have hle := shrunk_length_le g rest
    cases hent : entry g l with
    | none =>
      simp only [shrunk, hent, List.length_cons]; omega
    | some e =>
      by_cases hm : e ∈ entries g rest
      · have hld : later_dup g e rest = true := by simp [later_dup, hdd, hm]
        simp only [shrunk, hent, hld, if_true, List.length_cons]; omega
      · have hld : later_dup g e rest = false := by simp [later_dup, hm]
        have hrest : ¬ (entries g rest).Nodup := by
          intro hnd
          apply h
          rw [entries_cons_some g l rest e hent]
          exact List.nodup_cons.mpr ⟨hm, hnd⟩
        have ih := shrunk_lt_of_dup g hdd rest hrest
        simp only [shrunk, hent, hld, Bool.false_eq_true, if_false]
        split
        · simp only [List.length_cons]; omega
        · simp only [List.length_cons]; omega

theorem shrunk_lt_of_over (g : Globals) (c : Nat) (hS : 0 ≤ g.SaveHistory.val) :
    ∀ (ls : List String), ((counted g c ls : Nat) : Int) > g.SaveHistory.val →
      (shrunk g ls).length < ls.length
  | [], h => by
    exfalso
    have : counted g c [] = 0 := by simp [counted, survivors, class_lines]
    rw [this] at h
    simp only [Nat.cast_zero] at h
    omega
  | l :: rest, h => by
    have hle := shrunk_length_le g rest
    cases hent : entry g l with
    | none =>
      simp only [shrunk, hent, List.length_cons]; omega
    | some e =>
      by_cases hld : later_dup g e rest = true
      · simp only [shrunk, hent, hld, if_true, List.length_cons]; omega
      · have hld' : later_dup g e rest = false := by simpa using hld
        rw [counted_cons_keep g c l rest e hent hld'] at h
        simp only [shrunk, hent, hld', Bool.false_eq_true, if_false]
        by_cases hc : e.1 = c
        · rw [hc, counted_cons_keep g c l rest e hent hld', if_pos hc]
          rw [if_pos hc] at h
          rw [if_neg (by omega)]
          simp only [List.length_cons]; omega
        · rw [if_neg hc] at h
          have ih := shrunk_lt_of_over g c hS rest (by simpa using h)
          split
          · simp only [List.length_cons]; omega
          · simp only [List.length_cons]; omega

theorem shrunk_of_neg (g : Globals) (hS : g.SaveHistory.val < 0) :
    ∀ (ls : List String), shrunk g ls = []
  | [] => rfl
  | l :: rest => by
    have ih := shrunk_of_neg g hS rest
    simp only [shrunk]
    split
    · exact ih
    · split
      · exact ih
      · rw [if_neg (by omega)]
        exact ih

theorem shrunk_lt (g : Globals) (ls : List String) (hr : needs_rewrite g ls = true)
    (hne : ls ≠ []) : (shrunk g ls).length < ls.length := by
  by_cases hS : g.SaveHistory.val < 0
  · rw [shrunk_of_neg g hS]
    exact List.length_pos.mpr hne
  · simp only [needs_rewrite, has_dup, over_limit, Bool.or_eq_true, Bool.and_eq_true,
      decide_eq_true_eq, List.any_eq_true, List.mem_range] at hr
    rcases hr with ⟨hdd, hnd⟩ | ⟨c, _, hc⟩
    · exact shrunk_lt_of_dup g hdd ls hnd
    · exact shrunk_lt_of_over g c (by omega) ls hc

theorem count_le_of_nodup : ∀ (l : List (Nat × String)), l.Nodup → ∀ a, l.count a ≤ 1
  | [], _, a => by simp
  | x :: l, h, a => by
    obtain ⟨hx, hl⟩ := List.nodup_cons.mp h
    have ih := count_le_of_nodup l hl a
    by_cases hxa : x = a
    · subst hxa
      rw [List.count_cons_self, List.count_eq_zero.mpr hx]
    · rw [List.count_cons_of_ne (Ne.symm hxa)]
      exact ih

theorem count_of_not_nodup : ∀ (l : List (Nat × String)), ¬ l.Nodup → ∃ a, 2 ≤ l.count a
  | [], h => absurd List.nodup_nil h
  | x :: l, h => by
    by_cases hx : x ∈ l
    · refine ⟨x, ?_⟩
      rw [List.count_cons_self]
      have := List.count_pos_iff.mpr hx
      omega
    · have hl : ¬ l.Nodup := fun hl => h (List.nodup_cons.mpr ⟨hx, hl⟩)
      obtain ⟨a, ha⟩ := count_of_not_nodup l hl
      refine ⟨a, ?_⟩
      have := List.count_le_count_cons a x l
      omega

theorem needs_rewrite_iff (g : Globals) (file : List String) :
    needs_rewrite g file = true ↔
      (g.OPT_HISTORY_REMOVE_DUPS = true ∧ ∃ c t, 2 ≤ (entries g file).count (c, t)) ∨
        ∃ c, c < HC_LAST g ∧ ((counted g c file : Nat) : Int) > g.SaveHistory.val := by
  simp only [needs_rewrite, has_dup, over_limit, Bool.or_eq_true, Bool.and_eq_true,
    decide_eq_true_eq, List.any_eq_true, List.mem_range]
  have hnd : ¬ (entries g file).Nodup ↔ ∃ c t, 2 ≤ (entries g file).count (c, t) := by
    constructor
    · intro h
      obtain ⟨a, ha⟩ := count_of_not_nodup _ h
      exact ⟨a.1, a.2, ha⟩
    · rintro ⟨c, t, hct⟩ h
      have := count_le_of_nodup _ h (c, t)
      omega
  rw [hnd]

theorem shrunk_at (g : Globals) (pre post : List String) (l : String) :
    ∃ X, X.Sublist pre ∧ shrunk g (pre ++ l :: post) = X ++ shrunk g (l :: post) :=
  shrunk_append g (l :: post) pre

theorem mem_entries (g : Globals) (ls : List String) (e : Nat × String) :
    e ∈ entries g ls ↔ ∃ l ∈ ls, entry g l = some e := by
  simp [entries, List.mem_filterMap]

/-- C15. On a file of well-formed lines, with the temporary file and the history
file writable, `shrink_histfile` returns, and it replaces the content of the
file (by that of `shrunk`, shorter than the file unless the file has no line)
exactly when dedup is enabled and some recognised class has two lines with the
same text, or some recognised class has more counted lines than `SaveHistory`;
when neither holds the state, and the file with it, is left as it was. -/
theorem shrink_rewrites_iff (g : Globals) (file : List String)
    (hfile : g.HistoryFile = some file) (hwf : well_formed_file file)
    (hm : g.can_mktemp = true) (hw : g.can_write = true) :
    ∃ g', shrink_histfile g = .ok g' ∧
      (((g.OPT_HISTORY_REMOVE_DUPS = true ∧ ∃ c t, 2 ≤ (entries g file).count (c, t)) ∨
          ∃ c, c < HC_LAST g ∧ ((counted g c file : Nat) : Int) > g.SaveHistory.val) →
        g' = { g with HistoryFile := some (shrunk g file) } ∧
          (file ≠ [] → (shrunk g file).length < file.length)) ∧
      (¬ ((g.OPT_HISTORY_REMOVE_DUPS = true ∧ ∃ c t, 2 ≤ (entries g file).count (c, t)) ∨
          ∃ c, c < HC_LAST g ∧ ((counted g c file : Nat) : Int) > g.SaveHistory.val) →
        g' = g) := by
  refine ⟨_, shrink_histfile_spec g file hfile hwf hm hw, ?_, ?_⟩
  · intro hcond
    have hr := (needs_rewrite_iff g file).mpr hcond
    exact ⟨by rw [if_pos hr], shrunk_lt g file hr⟩
  · intro hcond
    have hr : ¬ needs_rewrite g file = true := fun h => hcond ((needs_rewrite_iff g file).mp h)
    rw [if_neg hr]

/-- C13. With dedup enabled, on a file of well-formed lines (temporary file and
history file writable), `shrink_histfile` returns, and for a line `l` of a
recognised class `c` with the text `t`, standing between the lines `pre` and
`post`: when a later line has the class `c` and the text `t`, the new file is
made of lines of `pre` followed by lines of `post`, so `l` is dropped; when no
later line has both the class `c` and the text `t`, whatever lines of other
classes have the text `t`, and the file is rewritten with the class `c` within
its limit from `l` on, the new file is made of lines of `pre`, then `l`, then
lines of `post`, so `l` is kept. -/
theorem shrink_drops_earlier_duplicates (g : Globals) (pre post : List String) (l : String)
    (c : Nat) (t : String) (hfile : g.HistoryFile = some (pre ++ l :: post))
    (hwf : well_formed_file (pre ++ l :: post))
    (hm : g.can_mktemp = true) (hw : g.can_write = true)
    (hdd : g.OPT_HISTORY_REMOVE_DUPS = true) (hl : entry g l = some (c, t)) :
    ∃ g', shrink_histfile g = .ok g' ∧
      ((∃ l' ∈ post, entry g l' = some (c, t)) →
        ∃ X Y, X.Sublist pre ∧ Y.Sublist post ∧ g'.HistoryFile = some (X ++ Y)) ∧
      ((∀ l' ∈ post, entry g l' ≠ some (c, t)) →
        needs_rewrite g (pre ++ l :: post) = true →
        ((counted g c (l :: post) : Nat) : Int) ≤ g.SaveHistory.val →
        ∃ X Y, X.Sublist pre ∧ Y.Sublist post ∧ g'.HistoryFile = some (X ++ l :: Y)) := by
  refine ⟨_, shrink_histfile_spec g _ hfile hwf hm hw, ?_, ?_⟩
  · intro hlater
    have hmem : (c, t) ∈ entries g post := (mem_entries g post (c, t)).mpr hlater
    have hr : needs_rewrite g (pre ++ l :: post) = true := by
      rw [needs_rewrite_iff]
      refine Or.inl ⟨hdd, c, t, ?_⟩
      have h1 : entries g (pre ++ l :: post) = entries g pre ++ (c, t) :: entries g post := by
        simp [entries, List.filterMap_append, List.filterMap_cons, hl]
      rw [h1, List.count_append, List.count_cons_self]
      have := List.count_pos_iff.mpr hmem
      omega
    obtain ⟨X, hX, hs⟩ := shrunk_at g pre post l
    have hld : later_dup g (c, t) post = true := by simp [later_dup, hdd, hmem]
    rw [if_pos hr, hs]
    refine ⟨X, shrunk g post, hX, shrunk_sublist g post, ?_⟩
    simp only [shrunk, hl, hld, if_true]
  · intro hno hr hlim
    have hmem : (c, t) ∉ entries g post := by
      rw [mem_entries]
      rintro ⟨l', hl', he⟩
      exact hno l' hl' he
    obtain ⟨X, hX, hs⟩ := shrunk_at g pre post l
    have hld : later_dup g (c, t) post = false := by simp [later_dup, hmem]
    rw [if_pos hr, hs]
    refine ⟨X, shrunk g post, hX, shrunk_sublist g post, ?_⟩
    simp only [shrunk, hl, hld, Bool.false_eq_true, if_false, if_pos hlim]

theorem class_lines_survivors_off (g : Globals) (c : Nat)
    (hdd : g.OPT_HISTORY_REMOVE_DUPS = false) : ∀ (ls : List String),
    class_lines g c (survivors g ls) = class_lines g c ls
  | [] => rfl
  | l :: rest => by
    have ih := class_lines_survivors_off g c hdd rest
    cases hent : entry g l with
    | none =>
      simp only [survivors, hent]
      rw [ih]
      simp [class_lines, List.filter_cons, hent]
    | some e =>
      have hld : later_dup g e rest = false := by simp [later_dup, hdd]
      simp only [survivors, hent, hld, Bool.false_eq_true, if_false]
      simp only [class_lines, List.filter_cons] at ih ⊢
      rw [ih]

theorem class_lines_shrunk (g : Globals) (c : Nat) : ∀ (ls : List String),
    class_lines g c (shrunk g ls)
      = most_recent (min ((counted g c ls : Nat) : Int) g.SaveHistory.val).toNat
          (class_lines g c (survivors g ls))
  | [] => by simp [most_recent, shrunk, survivors, class_lines]
  | l :: rest => by
    have ih := class_lines_shrunk g c rest
    have hlen : (class_lines g c (survivors g rest)).length = counted g c rest := rfl
    cases hent : entry g l with
    | none =>
      rw [counted_cons_none g c l rest hent]
      simp only [shrunk, survivors, hent]
      exact ih
    | some e =>
      by_cases hld : later_dup g e rest = true
      · rw [counted_cons_dup g c l rest e hent hld]
        simp only [shrunk, survivors, hent, hld, if_true]
        exact ih
      · have hld' : later_dup g e rest = false := by simpa using hld
        rw [counted_cons_keep g c l rest e hent hld']
        simp only [shrunk, survivors, hent, hld', Bool.false_eq_true, if_false]
        by_cases hc : e.1 = c
        · have hcl : class_lines g c (l :: survivors g rest)
              = l :: class_lines g c (survivors g rest) := by
            simp [class_lines, List.filter_cons, hent, hc]
          rw [if_pos hc, hcl, hc, counted_cons_keep g c l rest e hent hld', if_pos hc]
          by_cases hlim : (((1 + counted g c rest : Nat) : Int)) ≤ g.SaveHistory.val
          · rw [if_pos hlim]
            have hcl2 : class_lines g c (l :: shrunk g rest)
                = l :: class_lines g c (shrunk g rest) := by
              simp [class_lines, List.filter_cons, hent, hc]
            rw [hcl2, ih]
            unfold most_recent
            rw [hlen, List.length_cons, hlen]
            have h1 : counted g c rest
                - (min ((counted g c rest : Nat) : Int) g.SaveHistory.val).toNat = 0 := by omega
            have h2 : counted g c rest + 1
                - (min (((1 + counted g c rest : Nat) : Nat) : Int) g.SaveHistory.val).toNat
                = 0 := by omega
            rw [h1, h2]
            rfl
          · rw [if_neg hlim, ih]
            unfold most_recent
            rw [hlen, List.length_cons, hlen]
            have h2 : counted g c rest + 1
                - (min (((1 + counted g c rest : Nat) : Nat) : Int) g.SaveHistory.val).toNat
                = (counted g c rest
                  - (min ((counted g c rest : Nat) : Int) g.SaveHistory.val).toNat) + 1 := by
              omega
            rw [h2, List.drop_succ_cons]
        · have hcl : class_lines g c (l :: survivors g rest)
              = class_lines g c (survivors g rest) := by
            simp [class_lines, List.filter_cons, hent, hc]
          rw [if_neg hc, hcl, Nat.zero_add]
          split
          · have hcl2 : class_lines g c (l :: shrunk g rest)
                = class_lines g c (shrunk g rest) := by
              simp [class_lines, List.filter_cons, hent, hc]
            rw [hcl2]
            exact ih
          · exact ih

/-- C14. On a file of well-formed lines that `shrink_histfile` rewrites
(temporary file and history file writable), the new file is made of lines of the
old one in their order, and for every recognised class `c` its lines of the
class `c` are the `min(M, SaveHistory)` last of the `M` lines of the class `c`
that are not dropped as duplicates, which are all the lines of the class `c`
when dedup is off. -/
theorem shrink_keeps_most_recent (g : Globals) (file : List String) (c : Nat)
    (hfile : g.HistoryFile = some file) (hwf : well_formed_file file)
    (hm : g.can_mktemp = true) (hw : g.can_write = true) (hc : c < HC_LAST g)
    (hr : needs_rewrite g file = true) :
    ∃ g' out, shrink_histfile g = .ok g' ∧ g'.HistoryFile = some out ∧
      out.Sublist file ∧
      class_lines g c out
        = most_recent (min ((counted g c file : Nat) : Int) g.SaveHistory.val).toNat
            (class_lines g c (survivors g file)) ∧
      counted g c file = (class_lines g c (survivors g file)).length ∧
      (g.OPT_HISTORY_REMOVE_DUPS = false →
        class_lines g c (survivors g file) = class_lines g c file) := by
  refine ⟨_, shrunk g file, shrink_histfile_spec g file hfile hwf hm hw, ?_,
    shrunk_sublist g file, class_lines_shrunk g c file, rfl,
    fun hdd => class_lines_survivors_off g c hdd file⟩
  rw [if_pos hr]

theorem shrink_rewrites_iff_witness :
    ∃ g', shrink_histfile dups_file_example = .ok g' ∧
      g' = { dups_file_example with HistoryFile := some ["1:a|", "0:b|", "0:a|"] } := by
  obtain ⟨g', hrun, hyes, _⟩ := shrink_rewrites_iff dups_file_example
    ["0:a|", "1:a|", "0:b|", "0:a|"] rfl (by unfold well_formed_file; decide) rfl rfl
  exact ⟨g', hrun, (hyes (Or.inl ⟨rfl, 0, "a", by decide⟩)).1.trans (by decide)⟩

theorem shrink_drops_earlier_duplicates_witness :
    (∃ g' X Y, shrink_histfile dups_file_example = .ok g' ∧ X.Sublist [] ∧
      Y.Sublist ["1:a|", "0:b|", "0:a|"] ∧ g'.HistoryFile = some (X ++ Y)) ∧
    (∃ g' X Y, shrink_histfile dups_file_example = .ok g' ∧ X.Sublist ["0:a|"] ∧
      Y.Sublist ["0:b|", "0:a|"] ∧ g'.HistoryFile = some (X ++ "1:a|" :: Y)) := by
  obtain ⟨g1, hrun1, hdrop, _⟩ := shrink_drops_earlier_duplicates dups_file_example []
    ["1:a|", "0:b|", "0:a|"] "0:a|" 0 "a" rfl (by unfold well_formed_file; decide) rfl rfl rfl
    (by decide)
  obtain ⟨g2, hrun2, _, hkeep⟩ := shrink_drops_earlier_duplicates dups_file_example ["0:a|"]
    ["0:b|", "0:a|"] "1:a|" 1 "a" rfl (by unfold well_formed_file; decide) rfl rfl rfl
    (by decide)
  obtain ⟨X, Y, hX, hY, hf⟩ := hdrop ⟨"0:a|", by decide, by decide⟩
  obtain ⟨X2, Y2, hX2, hY2, hf2⟩ := hkeep (by decide) (by decide) (by decide)
  exact ⟨⟨g1, X, Y, hrun1, hX, hY, hf⟩, ⟨g2, X2, Y2, hrun2, hX2, hY2, hf2⟩⟩

theorem shrink_keeps_most_recent_witness :
    (∃ g' out, shrink_histfile limit_file_example = .ok g' ∧ g'.HistoryFile = some out ∧
      class_lines limit_file_example 0 out = ["0:d|", "0:e|"]) ∧
    (∃ g' out, shrink_histfile limit_file_example = .ok g' ∧ g'.HistoryFile = some out ∧
      class_lines limit_file_example 1 out = ["1:x|"]) := by
  obtain ⟨g0, out0, hrun0, hf0, _, hc0, _⟩ := shrink_keeps_most_recent limit_file_example
    ["0:a|", "1:x|", "0:b|", "0:c|", "0:d|", "0:e|"] 0 rfl
    (by unfold well_formed_file; decide) rfl rfl (by decide) (by decide)
  obtain ⟨g1, out1, hrun1, hf1, _, hc1, _⟩ := shrink_keeps_most_recent limit_file_example
    ["0:a|", "1:x|", "0:b|", "0:c|", "0:d|", "0:e|"] 1 rfl
    (by unfold well_formed_file; decide) rfl rfl (by decide) (by decide)
  exact ⟨⟨g0, out0, hrun0, hf0, hc0.trans (by decide)⟩,
    ⟨g1, out1, hrun1, hf1, hc1.trans (by decide)⟩⟩

theorem parse_malformed (l : String)
    (hdef : (sscanf_class l).1 < 1 ∨ (sscanf_class l).2.2 ≠ none)
    (hbad : line_entry l = none) (read : Option Nat) :
    ∃ read', parse_line read l = .ok (none, read') := by
  by_cases h1 : (sscanf_class l).1 < 1
  · exact ⟨read, by simp [parse_line, h1]⟩
  · have h2 := hdef.resolve_left h1
    obtain ⟨rd, hrd⟩ := Option.ne_none_iff_exists'.mp h2
    have heq : parse_line read l = parse_line (some 0) l := by
      simp only [parse_line, h1, if_false, hrd, Option.isSome_some, if_true]
    obtain ⟨x, read', hp, ht⟩ := parse_line_defined l hdef (some 0)
    rw [heq, hp]
    cases x with
    | none => exact ⟨read', rfl⟩
    | some c =>
      exfalso
      obtain ⟨rd', t, hr', hlt⟩ := ht (by simp)
      simp [line_entry, hp, hr', hlt] at hbad

theorem shrink_count_abort (g : Globals) (bad : String) (post : List String)
    (hdef : (sscanf_class bad).1 < 1 ∨ (sscanf_class bad).2.2 ≠ none)
    (hbad : line_entry bad = none) : ∀ (pre : List String), well_formed_file pre →
    ∀ (line : Nat) (st : ShrinkState),
      shrink_count g (pre ++ bad :: post) line st = .ok (.error (line + pre.length + 1))
  | [], _, line, st => by
    obtain ⟨r, hr⟩ := parse_malformed bad hdef hbad st.read
    simp [shrink_count, hr]
  | l :: pre, hwf, line, st => by
    have hwf' : well_formed_file pre := fun x hx => hwf x (List.mem_cons_of_mem _ hx)
    have ih := shrink_count_abort g bad post hdef hbad pre hwf' (line + 1)
    obtain ⟨⟨c0, t⟩, hle⟩ := Option.isSome_iff_exists.mp (hwf l (List.mem_cons_self _ _))
    obtain ⟨rd, hparse, htext, _⟩ := line_entry_parse l c0 t hle st.read
    have hlen : line + (l :: pre).length + 1 = line + 1 + pre.length + 1 := by
      simp only [List.length_cons]; omega
    simp only [List.cons_append, shrink_count, hparse, Option.getD_some, htext, hlen]
    split
    · exact ih _
    · split
      · exact ih _
      · exact ih _

/-- A malformed line stops the compaction wherever the test of the reading loop
does not depend on a `read` left by another line: when `sscanf` converts no
class number on it, or finds the `:` after the number (so that the line lacks
the final `|` or has a negative class number), after well-formed lines,
`shrink_histfile` reports the line and leaves the file as it is. -/
theorem shrink_aborts_on_malformed (g : Globals) (pre post : List String) (bad : String)
    (hfile : g.HistoryFile = some (pre ++ bad :: post)) (hwf : well_formed_file pre)
    (hdef : (sscanf_class bad).1 < 1 ∨ (sscanf_class bad).2.2 ≠ none)
    (hbad : line_entry bad = none) :
    shrink_histfile g = .ok { g with errors := g.errors ++ [bad_format (pre.length + 1)] } := by
  simp only [shrink_histfile, hfile, shrink_count_abort g bad post hdef hbad pre hwf 0,
    Nat.zero_add]

theorem shrink_aborts_on_malformed_witness :
    shrink_histfile { stale_read_example with HistoryFile := some ["0:a|", "0:b", "0:c|"] }
      = .ok { stale_read_example with
              HistoryFile := some ["0:a|", "0:b", "0:c|"]
              errors := ["Bad history file format (line 2)"] } :=
  (shrink_aborts_on_malformed
    { stale_read_example with HistoryFile := some ["0:a|", "0:b", "0:c|"] }
    ["0:a|"] ["0:c|"] "0:b" rfl (by unfold well_formed_file; decide) (by decide)
    (by decide)).trans (by decide)

/-- C16 fails. The file holds the lines `0:a|` and `0b|`, the second of which has
no `:` after its class number, and `SaveHistory = 1`. On the second line
`sscanf` converts the class number and leaves `read` as the first line set it,
so the test `read == 0` does not see the line as malformed: `shrink_histfile`
reports nothing, counts two lines of the class 0 and rewrites the file, which
then holds the malformed line alone. -/
theorem shrink_histfile_stale_read :
    line_entry "0b|" = none ∧
      shrink_histfile stale_read_example
        = .ok { stale_read_example with HistoryFile := some ["0b|"] } ∧
      shrink_histfile { stale_read_example with HistoryFile := some ["0b|", "0:a|"] }
        = .fault := by
  decide

/-! ## Loading the history file -/

theorem put_put (g : Globals) (c : Nat) (h1 h2 : History) :
    put_history (put_history g c h1) c h2 = put_history g c h2 := by
  simp [put_history, List.set_set]

theorem add_nosave_shape (g g' : Globals) (c : Nat) (s : String)
    (h : mutt_history_add g c s false = .ok g') :
    g' = g ∨ ∃ h', g' = put_history g c h' ∧ h'.cur = h'.last ∧ c < HC_LAST g := by
  unfold mutt_history_add at h
  cases hg : get_history g c with
  | none => simp [hg] at h; exact Or.inl h.symm
  | some h0 =>
    have hc : c < HC_LAST g := (get_history_some hg).1
    simp only [hg] at h
    have hreset : ∀ g2, Res.ok (put_history g c { h0 with cur := h0.last }) = Res.ok g2 →
        g2 = g ∨ ∃ h', g2 = put_history g c h' ∧ h'.cur = h'.last ∧ c < HC_LAST g := by
      intro g2 h2
      cases h2
      exact Or.inr ⟨_, rfl, rfl, hc⟩
    split at h
    · cases h; exact Or.inl rfl
    · split at h
      · exact hreset _ h
      · split at h
        · exact hreset _ h
        · cases hget : hist_get h0.hist (prev_index g h0) with
          | fault => simp [hget] at h
          | timeout => simp [hget] at h
          | ok e =>
            simp only [hget] at h
            split at h
            · -- accepted
              have hdd : ∃ g1, add_dedup g c s = .ok g1 ∧
                  (g1 = g ∨ ∃ h1, g1 = put_history g c h1) := by
                cases hd : add_dedup g c s with
                | fault => simp [hd] at h
                | timeout => simp [hd] at h
                | ok g1 =>
                  refine ⟨g1, rfl, ?_⟩
                  unfold add_dedup at hd
                  split at hd
                  · simp only [remove_history_dups, hg] at hd
                    split at hd
                    · cases hd; exact Or.inl rfl
                    · cases hr : remove_dups_ring g h0 s with
                      | fault => simp [hr] at hd
                      | timeout => simp [hr] at hd
                      | ok h1 =>
                        simp [hr] at hd
                        exact Or.inr ⟨h1, hd.symm⟩
                  · cases hd; exact Or.inl rfl
              obtain ⟨g1, hd1, hg1⟩ := hdd
              simp only [hd1, add_save, Bool.false_and, Bool.false_eq_true, if_false] at h
              unfold add_store at h
              rcases hg1 with rfl | ⟨h1, rfl⟩
              · simp only [hg] at h
                cases hs : hist_set h0.hist h0.last.val (mutt_str_strdup s) with
                | fault => simp [hs] at h
                | timeout => simp [hs] at h
                | ok hist =>
                  simp only [hs, Res.ok.injEq] at h
                  exact Or.inr ⟨_, h.symm, rfl, hc⟩
              · simp only [get_put_same h1 hc] at h
                cases hs : hist_set h1.hist h1.last.val (mutt_str_strdup s) with
                | fault => simp [hs] at h
                | timeout => simp [hs] at h
                | ok hist =>
                  simp only [hs, Res.ok.injEq, put_put] at h
                  exact Or.inr ⟨_, h.symm, rfl, hc⟩
            · exact hreset _ h

theorem add_nosave_frame (g g' : Globals) (c : Nat) (s : String)
    (h : mutt_history_add g c s false = .ok g') :
    HC_LAST g' = HC_LAST g ∧ g'.HistoryFile = g.HistoryFile ∧ g'.errors = g.errors ∧
      g'.save_n = g.save_n ∧ (at_bottom g → at_bottom g') := by
  rcases add_nosave_shape g g' c s h with rfl | ⟨h', rfl, hcur, hc⟩
  · exact ⟨rfl, rfl, rfl, rfl, id⟩
  · refine ⟨by simp [HC_LAST, put_history], rfl, rfl, rfl, ?_⟩
    intro hb c' h0 hg
    by_cases hcc : c' = c
    · subst hcc
      rw [get_put_same h' hc] at hg
      cases hg
      exact hcur
    · rw [get_put_other g h' hcc] at hg
      exact hb c' h0 hg

theorem add_empty_at_bottom (g : Globals) (c : Nat) (hb : at_bottom g) :
    mutt_history_add g c "" false = .ok g := by
  unfold mutt_history_add
  cases hg : get_history g c with
  | none => rfl
  | some h =>
    have hcur := hb c h hg
    have hh : ({ h with cur := h.last } : History) = h := by
      cases h; simp_all
    simp only [if_true]
    split
    · rfl
    · rw [hh, put_get_self hg]

theorem entry_HC (g g' : Globals) (h : HC_LAST g' = HC_LAST g) (l : String) :
    entry g' l = entry g l := by
  simp only [entry, h]

theorem line_entry_none_parse (l : String) (hbad : line_entry l = none) :
    ∃ r, parse_line (some 0) l = .ok (none, r) := by
  by_cases h1 : (sscanf_class l).1 < 1
  · exact ⟨some 0, by simp [parse_line, h1]⟩
  · cases hst : (sscanf_class l).2.2 with
    | none => exact ⟨some 0, by simp [parse_line, h1, hst]⟩
    | some rd =>
      exact parse_malformed l (Or.inr (by rw [hst]; simp)) hbad (some 0)

theorem read_lines_feed (bad : String) (post : List String) (hbad : line_entry bad = none) :
    ∀ (pre : List String), well_formed_file pre → ∀ (line : Nat) (g : Globals), at_bottom g →
      read_lines (pre ++ bad :: post) line g
        = (feed_lines pre g).bind (fun g' => .ok (g', some (line + pre.length + 1)))
  | [], _, line, g, _ => by
    obtain ⟨r, hr⟩ := line_entry_none_parse bad hbad
    simp [read_lines, hr, feed_lines, Res.bind]
  | l :: pre, hwf, line, g, hb => by
    have hwf' : well_formed_file pre := fun x hx => hwf x (List.mem_cons_of_mem _ hx)
    obtain ⟨⟨c0, t⟩, hle⟩ := Option.isSome_iff_exists.mp (hwf l (List.mem_cons_self _ _))
    obtain ⟨rd, hparse, htext, hc0⟩ := line_entry_parse l c0 t hle (some 0)
    have hlen : line + (l :: pre).length + 1 = line + 1 + pre.length + 1 := by
      simp only [List.length_cons]; omega
    rw [hlen]
    by_cases hrec : c0 ≥ (HC_LAST g : Int)
    · have hent : entry g l = none := by simp [entry, hle, hrec]
      simp only [List.cons_append, read_lines, hparse, if_pos hrec, feed_lines, hent]
      exact read_lines_feed bad post hbad pre hwf' (line + 1) g hb
    · have hent : entry g l = some (c0.toNat, t) := by simp [entry, hle, hrec]
      simp only [List.cons_append, read_lines, hparse, if_neg hrec, Option.getD_some, htext,
        feed_lines, hent, mutt_convert_string]
      by_cases ht : t = ""
      · subst ht
        have hdup : mutt_str_strdup "" = none := by decide
        simp only [hdup, add_empty_at_bottom g c0.toNat hb]
        exact read_lines_feed bad post hbad pre hwf' (line + 1) g hb
      · have hdup : mutt_str_strdup t = some t := by simp [mutt_str_strdup, ht]
        simp only [hdup]
        cases hadd : mutt_history_add g c0.toNat t false with
        | fault => rfl
        | timeout => rfl
        | ok g' =>
          simp only
          exact read_lines_feed bad post hbad pre hwf' (line + 1) g'
            ((add_nosave_frame g g' _ _ hadd).2.2.2.2 hb)

theorem feed_lines_file : ∀ (ls : List String) (g g' : Globals),
    feed_lines ls g = .ok g' → g'.HistoryFile = g.HistoryFile ∧ g'.errors = g.errors
  | [], g, g', h => by cases h; exact ⟨rfl, rfl⟩
  | l :: rest, g, g', h => by
    simp only [feed_lines] at h
    split at h
    · exact feed_lines_file rest g g' h
    · next e _ =>
      cases hadd : mutt_history_add g e.1 e.2 false with
      | fault => simp [hadd] at h
      | timeout => simp [hadd] at h
      | ok g1 =>
        simp only [hadd] at h
        obtain ⟨_, hf, he, _, _⟩ := add_nosave_frame g g1 _ _ hadd
        obtain ⟨hf2, he2⟩ := feed_lines_file rest g1 g' h
        exact ⟨hf2.trans hf, he2.trans he⟩

/-- C17. When the first malformed line of the file is the line after the
well-formed lines `pre`, and every cursor is at its insertion point (as it is
when the file is loaded at startup), `mutt_read_histfile` gives exactly what
feeding the lines of recognised classes among `pre`, in file order, through
`mutt_history_add` with `save = false` gives, with the error for that line
reported: the lines after it are not looked at, and every state reached by the
feeding has the history file of the start. -/
theorem read_stops_at_malformed (g : Globals) (pre post : List String) (bad : String)
    (hfile : g.HistoryFile = some (pre ++ bad :: post)) (hwf : well_formed_file pre)
    (hbad : line_entry bad = none) (hb : at_bottom g) :
    mutt_read_histfile g =
        (feed_lines pre g).bind
          (fun g' => .ok { g' with errors := g'.errors ++ [bad_format (pre.length + 1)] }) ∧
      ∀ g', feed_lines pre g = .ok g' →
        g'.HistoryFile = g.HistoryFile ∧ g'.errors = g.errors := by
  refine ⟨?_, feed_lines_file pre g⟩
  simp only [mutt_read_histfile, hfile, read_lines_feed bad post hbad pre hwf 0 g hb,
    Nat.zero_add]
  cases feed_lines pre g <;> rfl

theorem remove_dups_with_file (g : Globals) (f : Option (List String)) (c : Nat) (s : String) :
    remove_history_dups (with_file g f) c s
      = (remove_history_dups g c s).bind (fun g' => .ok (with_file g' f)) := by
  have hget : get_history (with_file g f) c = get_history g c := rfl
  unfold remove_history_dups
  rw [hget]
  cases get_history g c with
  | none => rfl
  | some h =>
    simp only
    have hH : (with_file g f).History = g.History := rfl
    rw [hH]
    split
    · rfl
    · have hr : remove_dups_ring (with_file g f) h s = remove_dups_ring g h s := rfl
      rw [hr]
      cases remove_dups_ring g h s <;> rfl

theorem add_with_file (g : Globals) (f : Option (List String)) (c : Nat) (s : String) :
    mutt_history_add (with_file g f) c s false
      = (mutt_history_add g c s false).bind (fun g' => .ok (with_file g' f)) := by
  have hget : get_history (with_file g f) c = get_history g c := rfl
  unfold mutt_history_add
  rw [hget]
  cases hg : get_history g c with
  | none => rfl
  | some h =>
    simp only
    have hH : (with_file g f).History = g.History := rfl
    have hp : prev_index (with_file g f) h = prev_index g h := rfl
    rw [hH, hp]
    split
    · rfl
    · split
      · rfl
      · split
        · rfl
        · cases hist_get h.hist (prev_index g h) with
          | fault => rfl
          | timeout => rfl
          | ok e =>
            simp only
            split
            · have hd : add_dedup (with_file g f) c s
                  = (add_dedup g c s).bind (fun g' => .ok (with_file g' f)) := by
                unfold add_dedup
                have hO : (with_file g f).OPT_HISTORY_REMOVE_DUPS
                    = g.OPT_HISTORY_REMOVE_DUPS := rfl
                rw [hO]
                split
                · exact remove_dups_with_file g f c s
                · rfl
              rw [hd]
              cases add_dedup g c s with
              | fault => rfl
              | timeout => rfl
              | ok g1 =>
                simp only [Res.bind, add_save, Bool.false_and, Bool.false_eq_true, if_false]
                unfold add_store
                have hget1 : get_history (with_file g1 f) c = get_history g1 c := rfl
                rw [hget1]
                cases get_history g1 c with
                | none => rfl
                | some h1 =>
                  simp only
                  cases hist_set h1.hist h1.last.val (mutt_str_strdup s) <;> rfl
            · rfl

theorem read_lines_with_file (f : Option (List String)) : ∀ (ls : List String) (line : Nat)
    (g : Globals),
    read_lines ls line (with_file g f)
      = (read_lines ls line g).bind (fun r => .ok (with_file r.1 f, r.2))
  | [], _, _ => rfl
  | l :: rest, line, g => by
    have ih := read_lines_with_file f rest (line + 1)
    have hHC : HC_LAST (with_file g f) = HC_LAST g := rfl
    simp only [read_lines, hHC]
    cases parse_line (some 0) l with
    | fault => rfl
    | timeout => rfl
    | ok r =>
      obtain ⟨x, rd⟩ := r
      cases x with
      | none => rfl
      | some hclass =>
        simp only
        split
        · exact ih g
        · cases line_text l (rd.getD 0) with
          | fault => rfl
          | timeout => rfl
          | ok text =>
            simp only
            cases mutt_str_strdup text with
            | none => exact ih g
            | some p =>
              simp only [add_with_file]
              cases mutt_history_add g hclass.toNat (mutt_convert_string p) false with
              | fault => rfl
              | timeout => rfl
              | ok g1 => exact ih g1

theorem read_lines_HC : ∀ (ls : List String) (line : Nat) (g g' : Globals) (bad : Option Nat),
    read_lines ls line g = .ok (g', bad) → HC_LAST g' = HC_LAST g
  | [], _, g, g', bad, h => by cases h; rfl
  | l :: rest, line, g, g', bad, h => by
    simp only [read_lines] at h
    cases hp : parse_line (some 0) l with
    | fault => simp [hp] at h
    | timeout => simp [hp] at h
    | ok r =>
      obtain ⟨x, rd⟩ := r
      cases x with
      | none => simp [hp] at h; rw [h.1]
      | some hclass =>
        simp only [hp] at h
        split at h
        · exact read_lines_HC rest _ g g' bad h
        · cases ht : line_text l (rd.getD 0) with
          | fault => simp [ht] at h
          | timeout => simp [ht] at h
          | ok text =>
            simp only [ht] at h
            cases hd : mutt_str_strdup text with
            | none => simp only [hd] at h; exact read_lines_HC rest _ g g' bad h
            | some p =>
              simp only [hd] at h
              cases ha : mutt_history_add g hclass.toNat (mutt_convert_string p) false with
              | fault => simp [ha] at h
              | timeout => simp [ha] at h
              | ok g1 =>
                simp only [ha] at h
                rw [read_lines_HC rest _ g1 g' bad h, (add_nosave_frame g g1 _ _ ha).1]

theorem read_lines_shift : ∀ (ls : List String) (line : Nat) (g : Globals),
    read_lines ls (line + 1) g
      = (read_lines ls line g).bind (fun r => .ok (r.1, r.2.map (fun k => k + 1)))
  | [], _, _ => rfl
  | l :: rest, line, g => by
    have ih := read_lines_shift rest (line + 1)
    simp only [read_lines]
    cases parse_line (some 0) l with
    | fault => rfl
    | timeout => rfl
    | ok r =>
      obtain ⟨x, rd⟩ := r
      cases x with
      | none => rfl
      | some hclass =>
        simp only
        split
        · exact ih g
        · cases line_text l (rd.getD 0) with
          | fault => rfl
          | timeout => rfl
          | ok text =>
            simp only
            cases mutt_str_strdup text with
            | none => exact ih g
            | some p =>
              simp only
              cases mutt_history_add g hclass.toNat (mutt_convert_string p) false with
              | fault => rfl
              | timeout => rfl
              | ok g1 => exact ih g1

theorem read_lines_bad_gt : ∀ (ls : List String) (line : Nat) (g g' : Globals) (k : Nat),
    read_lines ls line g = .ok (g', some k) → line < k
  | [], _, g, g', k, h => by cases h
  | l :: rest, line, g, g', k, h => by
    simp only [read_lines] at h
    cases hp : parse_line (some 0) l with
    | fault => simp [hp] at h
    | timeout => simp [hp] at h
    | ok r =>
      obtain ⟨x, rd⟩ := r
      cases x with
      | none => simp [hp] at h; omega
      | some hclass =>
        simp only [hp] at h
        split at h
        · have := read_lines_bad_gt rest _ g g' k h; omega
        · cases ht : line_text l (rd.getD 0) with
          | fault => simp [ht] at h
          | timeout => simp [ht] at h
          | ok text =>
            simp only [ht] at h
            cases hd : mutt_str_strdup text with
            | none =>
              simp only [hd] at h
              have := read_lines_bad_gt rest _ g g' k h; omega
            | some p =>
              simp only [hd] at h
              cases ha : mutt_history_add g hclass.toNat (mutt_convert_string p) false with
              | fault => simp [ha] at h
              | timeout => simp [ha] at h
              | ok g1 =>
                simp only [ha] at h
                have := read_lines_bad_gt rest _ g1 g' k h; omega

theorem read_lines_skip (l : String) (c : Int) (t : String) (post : List String)
    (hl : line_entry l = some (c, t)) : ∀ (pre : List String) (line : Nat) (g : Globals),
    c ≥ (HC_LAST g : Int) →
    read_lines (pre ++ l :: post) line g
      = (read_lines (pre ++ post) line g).bind
          (fun r => .ok (r.1, r.2.map (fun k => if k ≤ line + pre.length then k else k + 1)))
  | [], line, g, hc => by
    obtain ⟨rd, hparse, _, _⟩ := line_entry_parse l c t hl (some 0)
    simp only [List.nil_append, read_lines, hparse, if_pos hc, List.length_nil, Nat.add_zero]
    rw [read_lines_shift]
    cases hr : read_lines post line g with
    | fault => rfl
    | timeout => rfl
    | ok r =>
      obtain ⟨g', bad⟩ := r
      cases bad with
      | none => rfl
      | some k =>
        have := read_lines_bad_gt post line g g' k hr
        simp only [Res.bind, Option.map_some', if_neg (by omega : ¬ k ≤ line)]
  | x :: pre, line, g, hc => by
    have ih := read_lines_skip l c t post hl pre (line + 1)
    have hshift : ∀ k, (k ≤ line + 1 + pre.length) = (k ≤ line + (x :: pre).length) := by
      intro k; simp only [List.length_cons]; apply propext; omega
    simp only [hshift] at ih
    simp only [List.cons_append, read_lines]
    cases parse_line (some 0) x with
    | fault => rfl
    | timeout => rfl
    | ok r =>
      obtain ⟨e, rd⟩ := r
      cases e with
      | none =>
        simp only [Res.bind, Option.map_some', List.length_cons]
        rw [if_pos (by omega)]
      | some hclass =>
        simp only
        split
        · exact ih g hc
        · cases line_text x (rd.getD 0) with
          | fault => rfl
          | timeout => rfl
          | ok text =>
            simp only
            cases mutt_str_strdup text with
            | none => exact ih g hc
            | some p =>
              simp only
              cases ha : mutt_history_add g hclass.toNat (mutt_convert_string p) false with
              | fault => rfl
              | timeout => rfl
              | ok g1 =>
                exact ih g1 (by rw [(add_nosave_frame g g1 _ _ ha).1]; exact hc)

/-- C18. A well-formed line `l` whose class number is not a recognised class
(`≥ HC_LAST`) is skipped by the loader: reading the file with the line gives
the state that reading the file without it gives, and reports a malformed line
in the one case exactly when it does in the other (the same line, whose number
is one more when it comes after `l`), so `l` itself causes no error and the
lines after it are read as before; hence `mutt_read_histfile` leaves the same
rings as on the file with the line deleted. -/
theorem read_skips_unknown_class (g : Globals) (pre post : List String) (l : String)
    (c : Int) (t : String) (hfile : g.HistoryFile = some (pre ++ l :: post))
    (hl : line_entry l = some (c, t)) (hc : c ≥ (HC_LAST g : Int)) :
    (∀ line, read_lines (pre ++ l :: post) line g
      = (read_lines (pre ++ post) line g).bind
          (fun r => .ok (r.1, r.2.map (fun k => if k ≤ line + pre.length then k else k + 1)))) ∧
      (mutt_read_histfile g).bind (fun g' => .ok g'.Histories)
        = (mutt_read_histfile (with_file g (some (pre ++ post)))).bind
            (fun g' => .ok g'.Histories) := by
  refine ⟨fun line => read_lines_skip l c t post hl pre line g hc, ?_⟩
  have hf2 : (with_file g (some (pre ++ post))).HistoryFile = some (pre ++ post) := rfl
  simp only [mutt_read_histfile, hfile, hf2, read_lines_with_file,
    read_lines_skip l c t post hl pre 0 g hc]
  cases read_lines (pre ++ post) 0 g with
  | fault => rfl
  | timeout => rfl
  | ok r =>
    obtain ⟨g', bad⟩ := r
    cases bad <;> rfl

theorem at_bottom_of_all (g : Globals) (h : ∀ r ∈ g.Histories, r.cur = r.last) :
    at_bottom g := by
  intro c r hg
  exact h r (List.getElem?_mem (get_history_some hg).2)

theorem read_stops_at_malformed_witness :
    mutt_read_histfile load_example =
      .ok { load_example with
            Histories :=
              [⟨[some "a", none, none, none], Short.ofInt 1, Short.ofInt 1⟩,
               ⟨[some "b", none, none, none], Short.ofInt 1, Short.ofInt 1⟩]
            errors := ["Bad history file format (line 5)"] } :=
  (read_stops_at_malformed load_example ["0:a|", "7:zzz|", "1:b|", "0:|"] ["0:c|"] "oops" rfl
    (by unfold well_formed_file; decide) (by decide)
    (at_bottom_of_all _ (by decide))).1.trans (by decide)

theorem read_skips_unknown_class_witness :
    (mutt_read_histfile skip_example).bind (fun g' => .ok g'.Histories) =
      .ok [⟨[some "a", none, none, none], Short.ofInt 1, Short.ofInt 1⟩,
           ⟨[some "b", none, none, none], Short.ofInt 1, Short.ofInt 1⟩] :=
  (read_skips_unknown_class skip_example ["0:a|"] ["1:b|"] "9999:hello|" 9999 "hello" rfl
    (by decide) (by decide)).2.trans (by decide)

/-! ## The round trip through the history file -/

/-- C19 as stated fails with dedup enabled: into a fresh registry of capacity 2
with `SaveHistory = 4`, the calls for `a`, `b`, `c`, `b` in the class 0 and `x`,
`y` in the class 1 are all accepted; loading the file they leave into a fresh
registry gives a ring of the class 0 on which the third `mutt_history_prev`
returns `a`, where the original ring returns the empty string. -/
theorem round_trip_counterexample :
    save_all round_trip_calls round_trip_start = .ok round_trip_saved ∧
      accepted_calls round_trip_calls round_trip_start = round_trip_calls ∧
      mutt_read_histfile (with_file round_trip_start round_trip_saved.HistoryFile)
        = .ok round_trip_loaded ∧
      nav_results 3 0 [true, true, true] round_trip_saved = .ok ["b", "c", ""] ∧
      nav_results 3 0 [true, true, true] round_trip_loaded = .ok ["b", "c", "a"] := by
  refine ⟨by decide, by decide, by decide, by decide, by decide⟩

theorem remove_dups_with_io (g : Globals) (f : Option (List String)) (n : Int)
    (e : List String) (c : Nat) (s : String) :
    remove_history_dups (with_io g f n e) c s
      = (remove_history_dups g c s).bind (fun g' => .ok (with_io g' f n e)) := by
  have hget : get_history (with_io g f n e) c = get_history g c := rfl
  unfold remove_history_dups
  rw [hget]
  cases get_history g c with
  | none => rfl
  | some h =>
    simp only
    have hH : (with_io g f n e).History = g.History := rfl
    rw [hH]
    split
    · rfl
    · have hr : remove_dups_ring (with_io g f n e) h s = remove_dups_ring g h s := rfl
      rw [hr]
      cases remove_dups_ring g h s <;> rfl

theorem add_store_with_io (g : Globals) (f : Option (List String)) (n : Int)
    (e : List String) (c : Nat) (s : String) :
    add_store (with_io g f n e) c s
      = (add_store g c s).bind (fun g' => .ok (with_io g' f n e)) := by
  unfold add_store
  have hget : get_history (with_io g f n e) c = get_history g c := rfl
  rw [hget]
  cases get_history g c with
  | none => rfl
  | some h =>
    simp only
    cases hist_set h.hist h.last.val (mutt_str_strdup s) <;> rfl

theorem add_dedup_with_io (g : Globals) (f : Option (List String)) (n : Int)
    (e : List String) (c : Nat) (s : String) :
    add_dedup (with_io g f n e) c s
      = (add_dedup g c s).bind (fun g' => .ok (with_io g' f n e)) := by
  unfold add_dedup
  have hO : (with_io g f n e).OPT_HISTORY_REMOVE_DUPS = g.OPT_HISTORY_REMOVE_DUPS := rfl
  rw [hO]
  split
  · exact remove_dups_with_io g f n e c s
  · rfl

theorem add_accepts_with_io (g : Globals) (f : Option (List String)) (n : Int)
    (e : List String) (c : Nat) (s : String) :
    add_accepts (with_io g f n e) c s = add_accepts g c s := rfl

theorem add_accepted_unfold (g : Globals) (c : Nat) (s : String) (save : Bool)
    (hacc : add_accepts g c s = true) :
    mutt_history_add g c s save =
      (add_dedup g c s).bind fun g1 =>
        (add_save g1 c s save).bind fun g2 => add_store g2 c s := by
  unfold add_accepts at hacc
  unfold mutt_history_add
  cases hg : get_history g c with
  | none => simp [hg] at hacc
  | some h =>
    simp only [hg] at hacc ⊢
    split at hacc
    · cases hacc
    · split at hacc
      · cases hacc
      · split at hacc
        · cases hacc
        · next h1 h2 h3 =>
          rw [if_neg h1, if_neg h2, if_neg h3]
          cases hget : hist_get h.hist (prev_index g h) with
          | fault => simp [hget] at hacc
          | timeout => simp [hget] at hacc
          | ok e =>
            simp only [hget, decide_eq_true_eq] at hacc
            simp only [if_pos hacc]
            cases add_dedup g c s with
            | fault => rfl
            | timeout => rfl
            | ok g1 =>
              simp only [Res.bind]
              cases add_save g1 c s save <;> rfl

theorem add_rejected_unfold (g : Globals) (c : Nat) (s : String) (save : Bool)
    (hacc : add_accepts g c s = false) :
    mutt_history_add g c s save = mutt_history_add g c s false := by
  unfold add_accepts at hacc
  unfold mutt_history_add
  cases hg : get_history g c with
  | none => rfl
  | some h =>
    simp only [hg] at hacc ⊢
    split
    · rfl
    · next h1 =>
      rw [if_neg h1] at hacc
      split
      · rfl
      · next h2 =>
        rw [if_neg h2] at hacc
        split
        · rfl
        · next h3 =>
          rw [if_neg h3] at hacc
          cases hget : hist_get h.hist (prev_index g h) with
          | fault => rfl
          | timeout => rfl
          | ok e =>
            simp only [hget, decide_eq_false_iff_not] at hacc
            simp only [if_neg hacc]

theorem add_rejected_at_bottom (g g' : Globals) (c : Nat) (s : String)
    (hacc : add_accepts g c s = false) (hb : at_bottom g)
    (h : mutt_history_add g c s false = .ok g') : g' = g := by
  unfold add_accepts at hacc
  unfold mutt_history_add at h
  cases hg : get_history g c with
  | none => simp [hg] at h; exact h.symm
  | some h0 =>
    have hcur := hb c h0 hg
    have hh : ({ h0 with cur := h0.last } : History) = h0 := by
      cases h0; simp_all
    have hput : put_history g c { h0 with cur := h0.last } = g := by
      rw [hh, put_get_self hg]
    simp only [hg] at hacc h
    rw [hput] at h
    split at h
    · cases h; rfl
    · next h1 =>
      rw [if_neg h1] at hacc
      split at h
      · cases h; rfl
      · next h2 =>
        rw [if_neg h2] at hacc
        split at h
        · cases h; rfl
        · next h3 =>
          rw [if_neg h3] at hacc
          cases hget : hist_get h0.hist (prev_index g h0) with
          | fault => simp [hget] at h
          | timeout => simp [hget] at h
          | ok e =>
            simp only [hget, decide_eq_false_iff_not] at hacc
            simp only [hget, if_neg hacc] at h
            cases h; rfl

theorem add_with_io (g : Globals) (f : Option (List String)) (n : Int) (e : List String)
    (c : Nat) (s : String) :
    mutt_history_add (with_io g f n e) c s false
      = (mutt_history_add g c s false).bind (fun g' => .ok (with_io g' f n e)) := by
  have hget : get_history (with_io g f n e) c = get_history g c := rfl
  unfold mutt_history_add
  rw [hget]
  cases hg : get_history g c with
  | none => rfl
  | some h =>
    simp only
    have hH : (with_io g f n e).History = g.History := rfl
    have hp : prev_index (with_io g f n e) h = prev_index g h := rfl
    rw [hH, hp]
    split
    · rfl
    · split
      · rfl
      · split
        · rfl
        · cases hist_get h.hist (prev_index g h) with
          | fault => rfl
          | timeout => rfl
          | ok x =>
            simp only
            split
            · rw [add_dedup_with_io]
              cases add_dedup g c s with
              | fault => rfl
              | timeout => rfl
              | ok g1 =>
                simp only [Res.bind, add_save, Bool.false_and, Bool.false_eq_true, if_false]
                exact add_store_with_io g1 f n e c s
            · rfl

theorem add_saved (g : Globals) (c : Nat) (s : String) (f : Option (List String)) (n : Int)
    (e : List String) (hacc : add_accepts g c s = true)
    (hdd : g.OPT_HISTORY_REMOVE_DUPS = false)
    (hsave : add_save g c s true = .ok (with_io g f n e)) :
    mutt_history_add g c s true
      = (mutt_history_add g c s false).bind (fun g' => .ok (with_io g' f n e)) := by
  have hd : add_dedup g c s = .ok g := by simp [add_dedup, hdd]
  rw [add_accepted_unfold g c s true hacc, add_accepted_unfold g c s false hacc, hd]
  simp only [Res.bind, hsave]
  have hs0 : add_save g c s false = .ok g := by simp [add_save]
  rw [hs0]
  exact add_store_with_io g f n e c s

theorem read_lines_append : ∀ (A B : List String) (line : Nat) (g : Globals),
    read_lines (A ++ B) line g =
      (read_lines A line g).bind (fun r =>
        match r.2 with
        | none => read_lines B (line + A.length) r.1
        | some k => .ok (r.1, some k))
  | [], B, line, g => by simp [read_lines, Res.bind]
  | l :: A, B, line, g => by
    have ih := read_lines_append A B (line + 1)
    have hlen : line + (l :: A).length = line + 1 + A.length := by
      simp only [List.length_cons]; omega
    simp only [List.cons_append, read_lines, hlen]
    cases parse_line (some 0) l with
    | fault => rfl
    | timeout => rfl
    | ok r =>
      obtain ⟨x, rd⟩ := r
      cases x with
      | none => rfl
      | some hclass =>
        simp only
        split
        · exact ih g
        · cases line_text l (rd.getD 0) with
          | fault => rfl
          | timeout => rfl
          | ok text =>
            simp only
            cases mutt_str_strdup text with
            | none => exact ih g
            | some p =>
              simp only
              cases mutt_history_add g hclass.toNat (mutt_convert_string p) false with
              | fault => rfl
              | timeout => rfl
              | ok g1 => exact ih g1

theorem read_history_line (g : Globals) (c : Nat) (s : String) (line : Nat)
    (hc : c < HC_LAST g) (hs : s ≠ "") (hn : '\n' ∉ s.data) :
    read_lines [history_line c s] line g
      = (mutt_history_add g c s false).bind (fun g' => .ok (g', none)) := by
  obtain ⟨h1, h2⟩ := parse_history_line c s (some 0)
  have hlt : ¬ ((c : Int) ≥ (HC_LAST g : Int)) := by omega
  have hdup : mutt_str_strdup s = some s := by simp [mutt_str_strdup, hs]
  simp only [read_lines, h1, if_neg hlt, Option.getD_some, h2, Int.toNat_ofNat,
    mutt_convert_string, strip_newlines_id s hn, hdup]
  cases mutt_history_add g c s false <;> rfl

theorem entry_history_line (g : Globals) (c : Nat) (s : String) (hc : c < HC_LAST g)
    (hn : '\n' ∉ s.data) : entry g (history_line c s) = some (c, s) := by
  have hlt : ¬ ((c : Int) ≥ (HC_LAST g : Int)) := by omega
  simp [entry, line_entry_history_line, strip_newlines_id s hn, hlt]

theorem entries_history_lines (g : Globals) : ∀ (acc : List (Nat × String)),
    (∀ e ∈ acc, e.1 < HC_LAST g ∧ e.2 ≠ "" ∧ '\n' ∉ e.2.data) →
    entries g (acc.map (fun e => history_line e.1 e.2)) = acc
  | [], _ => rfl
  | e :: acc, h => by
    have he := h e (List.mem_cons_self _ _)
    have ih := entries_history_lines g acc (fun x hx => h x (List.mem_cons_of_mem _ hx))
    rw [List.map_cons, entries_cons_some g _ _ e (entry_history_line g e.1 e.2 he.1 he.2.2), ih]

theorem counted_off (g : Globals) (c : Nat) (ls : List String)
    (hdd : g.OPT_HISTORY_REMOVE_DUPS = false) :
    counted g c ls = ((entries g ls).filter (fun e => decide (e.1 = c))).length := by
  rw [← first_count_eq_counted]
  simp [first_count, hdd]

theorem entries_congr (g g' : Globals) (h1 : HC_LAST g' = HC_LAST g) (ls : List String) :
    entries g' ls = entries g ls := by
  have he : entry g' = entry g := funext (entry_HC g g' h1)
  simp only [entries, he]

theorem later_dup_congr (g g' : Globals) (h1 : HC_LAST g' = HC_LAST g)
    (h2 : g'.OPT_HISTORY_REMOVE_DUPS = g.OPT_HISTORY_REMOVE_DUPS) (e : Nat × String)
    (ls : List String) : later_dup g' e ls = later_dup g e ls := by
  simp only [later_dup, h2, entries_congr g g' h1]

theorem survivors_congr (g g' : Globals) (h1 : HC_LAST g' = HC_LAST g)
    (h2 : g'.OPT_HISTORY_REMOVE_DUPS = g.OPT_HISTORY_REMOVE_DUPS) :
    ∀ (ls : List String), survivors g' ls = survivors g ls
  | [] => rfl
  | l :: rest => by
    simp only [survivors, entry_HC g g' h1, later_dup_congr g g' h1 h2,
      survivors_congr g g' h1 h2 rest]

theorem counted_congr (g g' : Globals) (h1 : HC_LAST g' = HC_LAST g)
    (h2 : g'.OPT_HISTORY_REMOVE_DUPS = g.OPT_HISTORY_REMOVE_DUPS) (c : Nat)
    (ls : List String) : counted g' c ls = counted g c ls := by
  have he : entry g' = entry g := funext (entry_HC g g' h1)
  simp only [counted, class_lines, survivors_congr g g' h1 h2, he]

theorem needs_rewrite_congr (g g' : Globals) (h1 : HC_LAST g' = HC_LAST g)
    (h2 : g'.OPT_HISTORY_REMOVE_DUPS = g.OPT_HISTORY_REMOVE_DUPS)
    (h3 : g'.SaveHistory = g.SaveHistory) (ls : List String) :
    needs_rewrite g' ls = needs_rewrite g ls := by
  have hc : counted g' = counted g := by
    funext c ls; exact counted_congr g g' h1 h2 c ls
  simp only [needs_rewrite, has_dup, over_limit, h1, h2, h3, hc, entries_congr g g' h1]

theorem save_history_plain (g : Globals) (c : Nat) (s : String) (hs : s ≠ "")
    (hw : g.can_write = true) (hm : g.can_mktemp = true)
    (hdd : g.OPT_HISTORY_REMOVE_DUPS = false)
    (hwf : well_formed_file (g.HistoryFile.getD [] ++ [history_line c s]))
    (hlim : ∀ k, k < HC_LAST g →
      ((counted g k (g.HistoryFile.getD [] ++ [history_line c s]) : Nat) : Int)
        ≤ g.SaveHistory.val) :
    save_history g c s =
      .ok (with_io g (some (g.HistoryFile.getD [] ++ [history_line c s]))
        (if g.save_n - 1 < 0 then g.SaveHistory.val else g.save_n - 1) g.errors) := by
  have hnr : needs_rewrite g (g.HistoryFile.getD [] ++ [history_line c s]) = false := by
    rw [Bool.eq_false_iff]
    intro h
    rcases (needs_rewrite_iff g _).mp h with ⟨h1, _⟩ | ⟨k, hk, hgt⟩
    · rw [hdd] at h1; cases h1
    · have := hlim k hk; omega
  have key : save_history g c s =
      (if g.save_n - 1 < 0 then
        shrink_histfile (with_io g (some (g.HistoryFile.getD [] ++ [history_line c s]))
          g.SaveHistory.val g.errors)
      else .ok (with_io g (some (g.HistoryFile.getD [] ++ [history_line c s]))
          (g.save_n - 1) g.errors)) := by
    simp only [save_history, hs, if_false, hw, Bool.not_true, Bool.false_eq_true,
      mutt_convert_string, with_io]
  rw [key]
  by_cases hneg : g.save_n - 1 < 0
  · rw [if_pos hneg, if_pos hneg,
      shrink_histfile_spec (with_io g (some (g.HistoryFile.getD [] ++ [history_line c s]))
        g.SaveHistory.val g.errors) (g.HistoryFile.getD [] ++ [history_line c s]) rfl hwf hm hw]
    have hnr' : needs_rewrite
        (with_io g (some (g.HistoryFile.getD [] ++ [history_line c s]))
          g.SaveHistory.val g.errors)
        (g.HistoryFile.getD [] ++ [history_line c s]) = false := by
      exact (needs_rewrite_congr g (with_io g (some (g.HistoryFile.getD [] ++
        [history_line c s])) g.SaveHistory.val g.errors) rfl rfl rfl _).trans hnr
    rw [hnr']
    rfl
  · rw [if_neg hneg, if_neg hneg]

theorem add_nosave_fields (g g' : Globals) (c : Nat) (s : String)
    (h : mutt_history_add g c s false = .ok g') :
    g'.OPT_HISTORY_REMOVE_DUPS = g.OPT_HISTORY_REMOVE_DUPS ∧ g'.can_write = g.can_write ∧
      g'.can_mktemp = g.can_mktemp ∧ g'.SaveHistory = g.SaveHistory ∧
      g'.History = g.History := by
  rcases add_nosave_shape g g' c s h with rfl | ⟨h', rfl, _, _⟩
  · exact ⟨rfl, rfl, rfl, rfl, rfl⟩
  · exact ⟨rfl, rfl, rfl, rfl, rfl⟩

theorem add_accepts_facts (g : Globals) (c : Nat) (s : String)
    (h : add_accepts g c s = true) : c < HC_LAST g ∧ s ≠ "" := by
  unfold add_accepts at h
  cases hg : get_history g c with
  | none => simp [hg] at h
  | some h0 =>
    refine ⟨(get_history_some hg).1, ?_⟩
    simp only [hg] at h
    intro hs
    subst hs
    split at h
    · cases h
    · simp at h

theorem history_lines_well_formed (acc : List (Nat × String)) :
    well_formed_file (acc.map (fun e => history_line e.1 e.2)) := by
  intro l hl
  obtain ⟨e, _, rfl⟩ := List.mem_map.mp hl
  rw [line_entry_history_line]
  rfl

theorem saved_step (g0 g g' : Globals) (acc : List (Nat × String)) (e : Nat × String)
    (hinv : saved_state g0 g acc) (hadd : mutt_history_add g e.1 e.2 true = .ok g')
    (hn : '\n' ∉ e.2.data)
    (hlim : add_accepts g e.1 e.2 = true → ∀ k, k < HC_LAST g →
      (((acc ++ [e]).filter (fun x => decide (x.1 = k))).length : Int) ≤ g.SaveHistory.val) :
    saved_state g0 g' (acc ++ (if add_accepts g e.1 e.2 then [e] else [])) := by
  obtain ⟨hdd, hw, hm, herr, hS, hHC0, hb, hacc, hfile, hread⟩ := hinv
  by_cases ha : add_accepts g e.1 e.2 = true
  · obtain ⟨hc, hs⟩ := add_accepts_facts g e.1 e.2 ha
    have hlim' := hlim ha
    have hall : ∀ x ∈ acc ++ [e], x.1 < HC_LAST g ∧ x.2 ≠ "" ∧ '\n' ∉ x.2.data := by
      intro x hx
      rcases List.mem_append.mp hx with h | h
      · exact hacc x h
      · rw [List.mem_singleton] at h; subst h; exact ⟨hc, hs, hn⟩
    have hmap : (acc ++ [e]).map (fun x => history_line x.1 x.2)
        = g.HistoryFile.getD [] ++ [history_line e.1 e.2] := by
      rw [List.map_append, hfile]; rfl
    have hS1 : g.SaveHistory.val ≠ 0 := by
      have := hlim' e.1 hc
      simp only [List.filter_append, List.filter_cons, List.filter_nil, decide_True, if_true,
        List.length_append, List.length_singleton] at this
      omega
    have hsave : add_save g e.1 e.2 true
        = .ok (with_io g (some (g.HistoryFile.getD [] ++ [history_line e.1 e.2]))
            (if g.save_n - 1 < 0 then g.SaveHistory.val else g.save_n - 1) g.errors) := by
      have : add_save g e.1 e.2 true = save_history g e.1 e.2 := by
        simp [add_save, hS1]
      rw [this]
      apply save_history_plain g e.1 e.2 hs hw hm hdd
      · rw [← hmap]; exact history_lines_well_formed _
      · intro k hk
        rw [← hmap, counted_off g k _ hdd, entries_history_lines g _ hall]
        exact hlim' k hk
    rw [add_saved g e.1 e.2 _ _ _ ha hdd hsave] at hadd
    cases hadd0 : mutt_history_add g e.1 e.2 false with
    | fault => simp [hadd0, Res.bind] at hadd
    | timeout => simp [hadd0, Res.bind] at hadd
    | ok g1 =>
      simp only [hadd0, Res.bind, Res.ok.injEq] at hadd
      subst hadd
      obtain ⟨hHC, _, herr1, _, hb1⟩ := add_nosave_frame g g1 _ _ hadd0
      obtain ⟨hO1, hw1, hm1, hS1', _⟩ := add_nosave_fields g g1 _ _ hadd0
      rw [if_pos ha]
      refine ⟨hO1.trans hdd, hw1.trans hw, hm1.trans hm, herr, hS1'.trans hS, hHC.trans hHC0,
        ?_, ?_, ?_, ?_⟩
      · exact fun c h hg => hb1 hb c h hg
      · intro x hx
        have := hall x hx
        exact ⟨by show x.1 < HC_LAST g1; rw [hHC]; exact this.1, this.2⟩
      · exact hmap.symm
      · rw [List.map_append, read_lines_append, hread]
        simp only [Res.bind, List.map_cons, List.map_nil]
        have hc' : e.1 < HC_LAST (with_io g none 0 []) := hc
        rw [read_history_line _ e.1 e.2 _ hc' hs hn, add_with_io, hadd0]
        rfl
  · have ha' : add_accepts g e.1 e.2 = false := by simpa using ha
    rw [add_rejected_unfold g e.1 e.2 true ha'] at hadd
    have := add_rejected_at_bottom g g' e.1 e.2 ha' hb hadd
    subst this
    simp only [ha', Bool.false_eq_true, if_false, List.append_nil]
    exact ⟨hdd, hw, hm, herr, hS, hHC0, hb, hacc, hfile, hread⟩

theorem saved_all (g0 : Globals) : ∀ (calls : List (Nat × String)) (g gF : Globals)
    (acc : List (Nat × String)), saved_state g0 g acc → save_all calls g = .ok gF →
    (∀ e ∈ calls, '\n' ∉ e.2.data) →
    (∀ k, k < HC_LAST g →
      (((acc ++ accepted_calls calls g).filter (fun x => decide (x.1 = k))).length : Int)
        ≤ g.SaveHistory.val) →
    ∃ accF, saved_state g0 gF accF
  | [], g, gF, acc, hinv, hrun, _, _ => by
    cases hrun
    exact ⟨acc, hinv⟩
  | e :: rest, g, gF, acc, hinv, hrun, hnl, hlim => by
    simp only [save_all] at hrun
    cases hadd : mutt_history_add g e.1 e.2 true with
    | fault => simp [hadd] at hrun
    | timeout => simp [hadd] at hrun
    | ok g' =>
      simp only [hadd] at hrun
      have hacc : accepted_calls (e :: rest) g
          = (if add_accepts g e.1 e.2 then [e] else []) ++ accepted_calls rest g' := by
        simp only [accepted_calls, hadd]
      rw [hacc] at hlim
      have hstep := saved_step g0 g g' acc e hinv hadd (hnl e (List.mem_cons_self _ _))
        (by
          intro ha k hk
          have := hlim k hk
          rw [if_pos ha] at this
          simp only [List.filter_append, List.length_append, Nat.cast_add] at this ⊢
          omega)
      have hS' : g'.SaveHistory = g.SaveHistory := by
        rw [hstep.2.2.2.2.1, hinv.2.2.2.2.1]
      have hHC' : HC_LAST g' = HC_LAST g := by
        rw [hstep.2.2.2.2.2.1, hinv.2.2.2.2.2.1]
      exact saved_all g0 rest g' gF _ hstep hrun
        (fun x hx => hnl x (List.mem_cons_of_mem _ hx))
        (by
          intro k hk
          rw [hS', List.append_assoc]
          exact hlim k (by rw [← hHC']; exact hk))

theorem fresh_saved_state (classes : Nat) (H SH : Short) :
    saved_state (fresh classes H SH false none) (fresh classes H SH false none) [] := by
  have hform : (fresh classes H SH false none).OPT_HISTORY_REMOVE_DUPS = false ∧
      (fresh classes H SH false none).can_write = true ∧
      (fresh classes H SH false none).can_mktemp = true ∧
      (fresh classes H SH false none).errors = [] ∧
      (fresh classes H SH false none).HistoryFile = none ∧
      (fresh classes H SH false none).save_n = 0 ∧
      ∀ r ∈ (fresh classes H SH false none).Histories, r.cur = r.last := by
    unfold fresh mutt_init_history
    split
    · refine ⟨rfl, rfl, rfl, rfl, rfl, rfl, ?_⟩
      intro r hr
      simp only [startup, List.mem_replicate] at hr
      rw [hr.2]
    · refine ⟨rfl, rfl, rfl, rfl, rfl, rfl, ?_⟩
      intro r hr
      simp only [List.mem_map] at hr
      obtain ⟨r0, _, rfl⟩ := hr
      rfl
  obtain ⟨h1, h2, h3, h4, h5, h6, h7⟩ := hform
  refine ⟨h1, h2, h3, h4, rfl, rfl, at_bottom_of_all _ h7, by simp, by simp [h5], ?_⟩
  simp only [List.map_nil, read_lines]
  congr 2
  generalize fresh classes H SH false none = g at h4 h5 h6
  cases g
  simp_all [with_io]

theorem well_formed_transfer (g g' : Globals) (c : Nat) (h : History)
    (hw : well_formed g c h) (hg : get_history g' c = get_history g c)
    (hH : g'.History = g.History) : well_formed g' c h := by
  obtain ⟨⟨h1, h2, h3⟩, h4, h5⟩ := hw
  refine ⟨⟨hg.trans h1, by rw [hH]; exact h2, by rw [hH]; exact h3⟩, ?_, ?_⟩
  · unfold InRing at h4 ⊢; rw [hH]; exact h4
  · unfold one_run at h5 ⊢; rw [hH]; exact h5

theorem add_other_classes (g g' : Globals) (c : Nat) (s : String) (save : Bool)
    (hf : histfile_defined g) (hdd : g.OPT_HISTORY_REMOVE_DUPS = false)
    (h : mutt_history_add g c s save = .ok g') :
    HC_LAST g' = HC_LAST g ∧ g'.OPT_HISTORY_REMOVE_DUPS = false ∧
      ∀ c', c' ≠ c → get_history g' c' = get_history g c' := by
  have hput : ∀ (g0 : Globals) (h0 : History), HC_LAST (put_history g0 c h0) = HC_LAST g0 := by
    intro g0 h0
    simp [HC_LAST, put_history]
  by_cases ha : add_accepts g c s = true
  · rw [add_accepted_unfold g c s save ha] at h
    have h1 : add_dedup g c s = .ok g := by simp [add_dedup, hdd]
    obtain ⟨g2, h2, _, hsame⟩ := add_save_ok g c s save hf
    simp only [h1, h2, Res.bind] at h
    unfold add_store at h
    have hHC2 : HC_LAST g2 = HC_LAST g := by
      unfold HC_LAST; rw [hsame.1]
    have hO2 : g2.OPT_HISTORY_REMOVE_DUPS = false := by
      rw [hsame.2.2.2.2.1]; exact hdd
    cases hg : get_history g2 c with
    | none => simp [hg] at h
    | some h0 =>
      simp only [hg] at h
      split at h
      · cases h
      · cases h
      · cases h
        refine ⟨(hput _ _).trans hHC2, hO2, ?_⟩
        intro c' hne
        rw [get_put_other _ _ hne]
        exact get_history_same_rings hsame c'
  · have ha' : add_accepts g c s = false := by simpa using ha
    rw [add_rejected_unfold g c s save ha'] at h
    rcases add_nosave_shape g g' c s h with rfl | ⟨h', rfl, _, _⟩
    · exact ⟨rfl, hdd, fun _ _ => rfl⟩
    · exact ⟨hput _ _, hdd, fun c1 hne => get_put_other _ _ hne⟩

theorem save_all_total : ∀ (calls : List (Nat × String)) (g : Globals),
    all_well_formed g → histfile_defined g → g.OPT_HISTORY_REMOVE_DUPS = false →
    g.History.val ≤ 32766 → ∃ gF, save_all calls g = .ok gF
  | [], g, _, _, _, _ => ⟨g, rfl⟩
  | e :: rest, g, hw, hf, hdd, hN => by
    have hstep : ∃ g', mutt_history_add g e.1 e.2 true = .ok g' ∧ all_well_formed g' ∧
        histfile_defined g' ∧ g'.History = g.History := by
      by_cases hc : e.1 < HC_LAST g
      · obtain ⟨h, hwf⟩ := hw e.1 hc
        obtain ⟨g', out, h', hrun, hwf', hf', hH'⟩ := run_call_well_formed
          (g.History.val + 1).toNat g e.1 h (Call.add e.2 true) hwf hf hN (le_refl _)
        have hadd : mutt_history_add g e.1 e.2 true = .ok g' := by
          simp only [run_call] at hrun
          cases hr : mutt_history_add g e.1 e.2 true with
          | ok g1 => simp [hr] at hrun; rw [hrun.1]
          | fault => simp [hr] at hrun
          | timeout => simp [hr] at hrun
        obtain ⟨hHC, _, hother⟩ := add_other_classes g g' e.1 e.2 true hf hdd hadd
        refine ⟨g', hadd, ?_, hf', hH'⟩
        intro c' hc'
        by_cases hne : c' = e.1
        · subst hne; exact ⟨h', hwf'⟩
        · obtain ⟨h0, hw0⟩ := hw c' (by rw [← hHC]; exact hc')
          exact ⟨h0, well_formed_transfer g g' c' h0 hw0 (hother c' hne) hH'⟩
      · refine ⟨g, ?_, hw, hf, rfl⟩
        have : get_history g e.1 = none := by
          unfold get_history; rw [if_pos (by omega)]
        unfold mutt_history_add
        rw [this]
    obtain ⟨g', hadd, hw', hf', hH'⟩ := hstep
    obtain ⟨_, hdd', _⟩ := add_other_classes g g' e.1 e.2 true hf hdd hadd
    obtain ⟨gF, hF⟩ := save_all_total rest g' hw' hf' hdd' (by rw [hH']; exact hN)
    exact ⟨gF, by simp only [save_all, hadd]; exact hF⟩

theorem prev_walk_with_io (g : Globals) (f : Option (List String)) (n : Int)
    (e : List String) (h : History) : ∀ (fuel : Nat) (p : Int),
    prev_walk (with_io g f n e) h fuel p = prev_walk g h fuel p
  | 0, _ => rfl
  | fuel + 1, p => by
    simp only [prev_walk]
    rw [show (with_io g f n e).History = g.History from rfl]
    simp only [prev_walk_with_io g f n e h fuel]

theorem next_walk_with_io (g : Globals) (f : Option (List String)) (n : Int)
    (e : List String) (h : History) : ∀ (fuel : Nat) (p : Int),
    next_walk (with_io g f n e) h fuel p = next_walk g h fuel p
  | 0, _ => rfl
  | fuel + 1, p => by
    simp only [next_walk]
    rw [show (with_io g f n e).History = g.History from rfl]
    simp only [next_walk_with_io g f n e h fuel]

theorem prev_with_io (fuel : Nat) (g : Globals) (f : Option (List String)) (n : Int)
    (e : List String) (c : Nat) :
    mutt_history_prev fuel (with_io g f n e) c
      = (mutt_history_prev fuel g c).bind (fun r => .ok (with_io r.1 f n e, r.2)) := by
  unfold mutt_history_prev
  rw [show get_history (with_io g f n e) c = get_history g c from rfl,
    show (with_io g f n e).History = g.History from rfl]
  cases get_history g c with
  | none => rfl
  | some h =>
    simp only
    split
    · rfl
    · rw [prev_walk_with_io]
      cases prev_walk g h fuel h.cur.val with
      | fault => rfl
      | timeout => rfl
      | ok p =>
        cases hh : hist_get h.hist (Short.ofInt p).val with
        | fault => simp [hh, Bind.bind, Res.bind]
        | timeout => simp [hh, Bind.bind, Res.bind]
        | ok x => simp [hh, Bind.bind, Res.bind, Pure.pure]; rfl

theorem next_with_io (fuel : Nat) (g : Globals) (f : Option (List String)) (n : Int)
    (e : List String) (c : Nat) :
    mutt_history_next fuel (with_io g f n e) c
      = (mutt_history_next fuel g c).bind (fun r => .ok (with_io r.1 f n e, r.2)) := by
  unfold mutt_history_next
  rw [show get_history (with_io g f n e) c = get_history g c from rfl,
    show (with_io g f n e).History = g.History from rfl]
  cases get_history g c with
  | none => rfl
  | some h =>
    simp only
    split
    · rfl
    · rw [next_walk_with_io]
      cases next_walk g h fuel h.cur.val with
      | fault => rfl
      | timeout => rfl
      | ok p =>
        cases hh : hist_get h.hist (Short.ofInt p).val with
        | fault => simp [hh, Bind.bind, Res.bind]
        | timeout => simp [hh, Bind.bind, Res.bind]
        | ok x => simp [hh, Bind.bind, Res.bind, Pure.pure]; rfl

theorem nav_results_with_io (fuel : Nat) (c : Nat) (f : Option (List String)) (n : Int)
    (e : List String) : ∀ (dirs : List Bool) (g : Globals),
    nav_results fuel c dirs (with_io g f n e) = nav_results fuel c dirs g
  | [], _ => rfl
  | d :: rest, g => by
    simp only [nav_results]
    have hstep : (if d = true then mutt_history_prev fuel (with_io g f n e) c
        else mutt_history_next fuel (with_io g f n e) c)
        = (if d = true then mutt_history_prev fuel g c else mutt_history_next fuel g c).bind
            (fun r => .ok (with_io r.1 f n e, r.2)) := by
      cases d
      · simp only [Bool.false_eq_true, if_false]; exact next_with_io fuel g f n e c
      · simp only [if_true]; exact prev_with_io fuel g f n e c
    rw [hstep]
    cases (if d = true then mutt_history_prev fuel g c else mutt_history_next fuel g c) with
    | fault => rfl
    | timeout => rfl
    | ok r =>
      obtain ⟨g1, r1⟩ := r
      simp only [Res.bind]
      rw [nav_results_with_io fuel c f n e rest g1]

theorem saved_state_read (g0 g : Globals) (acc : List (Nat × String))
    (h : saved_state g0 g acc) :
    mutt_read_histfile (with_file g0 g.HistoryFile) = .ok (with_io g g.HistoryFile 0 g.errors) := by
  obtain ⟨_, _, _, herr, _, _, _, _, hfile, hread⟩ := h
  cases hF : g.HistoryFile with
  | none =>
    rw [hF] at hfile
    have hnil : acc = [] := by
      cases acc with
      | nil => rfl
      | cons a t => simp at hfile
    subst hnil
    simp only [List.map_nil, read_lines, Res.ok.injEq, Prod.mk.injEq, and_true] at hread
    rw [hread, herr]
    rfl
  | some F =>
    rw [hF] at hfile
    simp only [Option.getD_some] at hfile
    unfold mutt_read_histfile
    simp only [with_file]
    have := read_lines_with_file (some F) F 0 g0
    simp only [with_file] at this
    rw [this, hfile, hread, herr]
    rfl

theorem fresh_with_file (classes : Nat) (H SH : Short) (dedup : Bool)
    (file : Option (List String)) :
    fresh classes H SH dedup file = with_file (fresh classes H SH dedup none) file ∧
      (fresh classes H SH dedup file).SaveHistory = SH ∧
      HC_LAST (fresh classes H SH dedup file) = classes := by
  unfold fresh mutt_init_history
  split
  · refine ⟨?_, rfl, by simp [HC_LAST, startup]⟩
    simp only [startup, with_file]
    rw [if_pos (by assumption)]
  · refine ⟨?_, rfl, by simp [HC_LAST, startup]⟩
    simp only [startup, with_file]
    rw [if_neg (by assumption)]
    rfl

theorem fresh_all_well_formed (classes : Nat) (H SH : Short) (hH : 1 ≤ H.val)
    (hN : H.val ≤ 32766) :
    all_well_formed (fresh classes H SH false none) ∧
      histfile_defined (fresh classes H SH false none) ∧
      (fresh classes H SH false none).OPT_HISTORY_REMOVE_DUPS = false ∧
      (fresh classes H SH false none).History.val ≤ 32766 := by
  have hHC := (fresh_with_file classes H SH false none).2.2
  refine ⟨?_, ?_, ?_, ?_⟩
  · intro c hc
    exact ⟨_, fresh_well_formed classes c H SH false none (by rw [← hHC]; exact hc) hH⟩
  · intro file hfile
    cases classes with
    | zero =>
      have : (fresh 0 H SH false none).HistoryFile = none := by
        unfold fresh mutt_init_history
        split <;> rfl
      rw [this] at hfile
      cases hfile
    | succ n =>
      rw [(fresh_ring (n + 1) 0 H SH false none (by omega) hH).2.2.1] at hfile
      cases hfile
  · unfold fresh mutt_init_history
    split <;> rfl
  · have : (fresh classes H SH false none).History = H := by
      unfold fresh mutt_init_history
      split <;> rfl
    rw [this]
    exact hN

/-- C19, as the code has it: with dedup disabled, for every sequence of
`mutt_history_add` calls with `save = true` into a fresh registry (texts without
newlines, charset conversion the identity, at most `SaveHistory` accepted
entries per class), once the calls have returned, `mutt_read_histfile` on the
resulting file in a fresh registry of the same capacity returns a state that
differs from the original one in nothing but the countdown of `save_history`:
every ring has the same slots, `cur` and `last`, and every sequence of
`mutt_history_prev` and `mutt_history_next` calls gives the same results on
both. For a capacity `1 ≤ N ≤ 32766` the calls do return. -/
theorem round_trip_without_dedup (classes : Nat) (H SH : Short)
    (calls : List (Nat × String)) (hnl : ∀ e ∈ calls, '\n' ∉ e.2.data)
    (hlim : ∀ k, k < classes →
      (((accepted_calls calls (fresh classes H SH false none)).filter
        (fun x => decide (x.1 = k))).length : Int) ≤ SH.val) :
    (1 ≤ H.val → H.val ≤ 32766 →
        ∃ g, save_all calls (fresh classes H SH false none) = .ok g) ∧
      ∀ g, save_all calls (fresh classes H SH false none) = .ok g →
        mutt_read_histfile (fresh classes H SH false g.HistoryFile)
            = .ok { g with save_n := 0 } ∧
          ∀ (fuel c : Nat) (dirs : List Bool),
            nav_results fuel c dirs { g with save_n := 0 } = nav_results fuel c dirs g := by
  obtain ⟨_, hSH, hHC⟩ := fresh_with_file classes H SH false none
  constructor
  · intro hH hN
    obtain ⟨h1, h2, h3, h4⟩ := fresh_all_well_formed classes H SH hH hN
    exact save_all_total calls _ h1 h2 h3 h4
  · intro g hg
    obtain ⟨accF, hst⟩ := saved_all _ calls _ g [] (fresh_saved_state classes H SH) hg hnl
      (by
        intro k hk
        rw [hSH, List.nil_append]
        exact hlim k (by rw [← hHC]; exact hk))
    have hread := saved_state_read _ g accF hst
    rw [← (fresh_with_file classes H SH false g.HistoryFile).1] at hread
    exact ⟨hread, fun fuel c dirs => nav_results_with_io fuel c g.HistoryFile 0 g.errors dirs g⟩

theorem round_trip_without_dedup_witness :
    (∀ e ∈ plain_calls, '\n' ∉ e.2.data) ∧
      (∀ k, k < 2 →
        (((accepted_calls plain_calls (fresh 2 (Short.ofInt 2) (Short.ofInt 4) false none)).filter
          (fun x => decide (x.1 = k))).length : Int) ≤ (Short.ofInt 4).val) ∧
      ((1 ≤ (Short.ofInt 2).val → (Short.ofInt 2).val ≤ 32766 →
          ∃ g, save_all plain_calls (fresh 2 (Short.ofInt 2) (Short.ofInt 4) false none)
            = .ok g) ∧
        ∀ g, save_all plain_calls (fresh 2 (Short.ofInt 2) (Short.ofInt 4) false none) = .ok g →
          mutt_read_histfile (fresh 2 (Short.ofInt 2) (Short.ofInt 4) false g.HistoryFile)
              = .ok { g with save_n := 0 } ∧
            ∀ (fuel c : Nat) (dirs : List Bool),
              nav_results fuel c dirs { g with save_n := 0 } = nav_results fuel c dirs g) :=
  ⟨by decide, by decide,
    round_trip_without_dedup 2 (Short.ofInt 2) (Short.ofInt 4) plain_calls (by decide)
      (by decide)⟩

/-! ## Index safety -/

theorem next_last_cases (g : Globals) (h : History) (hN : 1 ≤ g.History.val)
    (hlast : InRing g h.last.val) :
    (h.last.val ≠ 32767 ∧ InRing g (next_last g h).val) ∨
      (h.last.val = 32767 ∧ g.History.val = 32767 ∧ (next_last g h).val = -32768) := by
  have hv := next_last_val g h hlast
  by_cases h32 : h.last.val = 32767
  · rw [if_pos h32] at hv
    have := hlast.2
    have := g.History.hi
    exact Or.inr ⟨h32, by omega, hv⟩
  · rw [if_neg h32] at hv
    exact Or.inl ⟨h32, by rw [hv]; exact emod_inRing g _ hN⟩

theorem ring_slots_unique {g : Globals} {c : Nat} {h h' : History}
    (hs : RingSlots g c h) (hs' : RingSlots g c h') : h' = h := by
  have := hs.1.symm.trans hs'.1
  exact (Option.some.inj this).symm

/-- What an accepted `mutt_history_add` leaves, for every capacity: the call
returns, the ring keeps its `N + 1` slots, `cur` is the new `last`, and the new
`last` is a slot unless the `last` left by the dedup step was `32767`, where it
is `-32768`. -/
theorem add_accepted_in_ring (g : Globals) (hclass : Nat) (h : History) (s : String)
    (save : Bool) (hs : RingSlots g hclass h) (hlast : InRing g h.last.val)
    (hf : histfile_defined g)
    (hacc1 : s ≠ "") (hacc2 : starts_with_space s = false)
    (hacc3 : h.hist.getD (prev_index g h).toNat none ≠ some s) :
    ∃ g' h', mutt_history_add g hclass s save = .ok g' ∧ RingSlots g' hclass h' ∧
      histfile_defined g' ∧ g'.History = g.History ∧
      g'.OPT_HISTORY_REMOVE_DUPS = g.OPT_HISTORY_REMOVE_DUPS ∧ h'.cur = h'.last ∧
      (InRing g h'.last.val ∨ (g.History.val = 32767 ∧ h'.last.val = -32768)) ∧
      (g.OPT_HISTORY_REMOVE_DUPS = false → h.last.val = 32767 → h'.last.val = -32768) := by
  obtain ⟨g1, h1, hdedup, hs1, hf1, hH1, hl1, _⟩ := add_dedup_ok g hclass h s hs hlast hf
  have hs1' := hs1
  obtain ⟨hg1, hN1, hlen1⟩ := hs1
  obtain ⟨g2, hsame, hf2, hadd⟩ := add_after_dedup g g1 hclass h h1 s save hs hlast hacc1 hacc2
    hacc3 hdedup hf1 hg1 hl1.1 (by have := hl1.2; omega)
  have hc2 : hclass < g2.Histories.length := by
    rw [hsame.1]; exact (get_history_some hg1).1
  have hH2 : g2.History = g.History := hsame.2.2.1.trans hH1
  have hO1 : g1.OPT_HISTORY_REMOVE_DUPS = g.OPT_HISTORY_REMOVE_DUPS := by
    by_cases hdd : g.OPT_HISTORY_REMOVE_DUPS = true
    · obtain ⟨hx, hrun, _⟩ := remove_history_dups_ok g hclass h s hs hlast
      simp only [add_dedup, hdd, if_true, hrun, Res.ok.injEq] at hdedup
      rw [← hdedup]; rfl
    · simp only [add_dedup, hdd, Bool.false_eq_true, if_false, Res.ok.injEq] at hdedup
      rw [← hdedup]
  refine ⟨_, _, hadd, ⟨get_put_same _ hc2, ?_, ?_⟩, histfile_defined_put hf2 _ _, hH2, ?_, rfl,
    ?_, ?_⟩
  · show 1 ≤ g2.History.val
    rw [hH2]; exact hs.2.1
  · show ((List.length (h1.hist.set h1.last.val.toNat (some s)) : Nat) : Int) = g2.History.val + 1
    rw [List.length_set, hlen1, hsame.2.2.1]
  · show g2.OPT_HISTORY_REMOVE_DUPS = g.OPT_HISTORY_REMOVE_DUPS
    rw [hsame.2.2.2.2.1, hO1]
  · show InRing g (next_last g1 h1).val ∨ (g.History.val = 32767 ∧ (next_last g1 h1).val = -32768)
    rcases next_last_cases g1 h1 hN1 hl1 with ⟨_, hin⟩ | ⟨_, hN, hv⟩
    · left
      unfold InRing at hin ⊢
      rw [← hH1]; exact hin
    · right
      exact ⟨by rw [← hH1]; exact hN, hv⟩
  · intro hdd h32
    show (next_last g1 h1).val = -32768
    have hg1eq : g1 = g := by
      have : add_dedup g hclass s = .ok g := by simp [add_dedup, hdd]
      rw [this] at hdedup
      cases hdedup; rfl
    subst hg1eq
    have hh : h1 = h := ring_slots_unique hs hs1'
    subst hh
    rw [next_last_val g1 h1 hlast, if_pos h32]

/-- C23, as the code has it. For every capacity `N ≥ 1` and every state of a
ring with its `N + 1` slots, `cur` and `last` in `0..N` (and a history file that
can be read back), each of `mutt_history_add`, `remove_history_dups`,
`mutt_history_save_scratch`, `mutt_reset_history_state`, `mutt_history_prev` and
`mutt_history_next` returns without an access outside the slots `0..N`, and the
ring keeps its `N + 1` slots. `cur` and `last` are in `0..N` afterwards, with
one exception: when `N = 32767` an accepted `mutt_history_add` that stores into
slot `32767` leaves `cur = last = -32768`, because `h->last++` wraps the
`short`; without dedup this happens whenever `last = 32767`. -/
theorem index_safety (fuel : Nat) (g : Globals) (hclass : Nat) (h : History) (c : Call)
    (hs : RingSlots g hclass h) (hcur : InRing g h.cur.val) (hlast : InRing g h.last.val)
    (hf : histfile_defined g) (hfuel : (g.History.val + 1).toNat ≤ fuel) :
    ∃ g' out h', run_call fuel g hclass c = .ok (g', out) ∧ RingSlots g' hclass h' ∧
      g'.History = g.History ∧
      ((InRing g h'.cur.val ∧ InRing g h'.last.val) ∨
        (g.History.val = 32767 ∧ (∃ s save, c = Call.add s save) ∧
          h'.cur.val = -32768 ∧ h'.last.val = -32768)) ∧
      (∀ s save, c = Call.add s save → g.OPT_HISTORY_REMOVE_DUPS = false →
        h.last.val = 32767 → s ≠ "" → starts_with_space s = false →
        h.hist.getD (prev_index g h).toNat none ≠ some s →
        h'.cur.val = -32768 ∧ h'.last.val = -32768) := by
  have hs' := hs
  obtain ⟨hg, hN1, hlen⟩ := hs
  have hN0 : g.History.val ≠ 0 := by omega
  have hc : hclass < g.Histories.length := (get_history_some hg).1
  cases c with
  | add s save =>
    by_cases hrej : s = "" ∨ starts_with_space s = true ∨
        h.hist.getD (prev_index g h).toNat none = some s
    · refine ⟨_, [], ⟨h.hist, h.last, h.last⟩, ?_, ⟨get_put_same _ hc, hN1, hlen⟩, rfl,
        Or.inl ⟨hlast, hlast⟩, ?_⟩
      · simp only [run_call, add_rejected_eq g hclass h s save hs' hlast hrej]
      · intro s' save' he _ _ h1 h2 h3
        cases he
        rcases hrej with h | h | h
        · exact absurd h h1
        · rw [h2] at h; cases h
        · exact absurd h h3
    · simp only [not_or, Bool.not_eq_true] at hrej
      obtain ⟨g', h', hadd, hs2, _, hH2, _, hcl, hin, hov⟩ := add_accepted_in_ring g hclass h s
        save hs' hlast hf hrej.1 hrej.2.1 hrej.2.2
      refine ⟨g', [], h', ?_, hs2, hH2, ?_, ?_⟩
      · simp only [run_call, hadd]
      · rcases hin with hin | ⟨hN, hv⟩
        · exact Or.inl ⟨by rw [hcl]; exact hin, hin⟩
        · exact Or.inr ⟨hN, ⟨s, save, rfl⟩, by rw [hcl]; exact hv, hv⟩
      · intro s' save' he hdd h32 _ _ _
        have := hov hdd h32
        exact ⟨by rw [hcl]; exact this, this⟩
  | dups s =>
    obtain ⟨h1, hdups, hc1, hl1, hlen1, _⟩ := remove_history_dups_ok g hclass h s hs' hlast
    refine ⟨put_history g hclass h1, [], h1, ?_, ⟨get_put_same _ hc, hN1, hlen1⟩, rfl,
      Or.inl ⟨by rw [hc1]; exact hcur, hl1⟩, ?_⟩
    · simp only [run_call, hdups]
    · intro s' save' he
      cases he
  | scratch s =>
    have hset := hist_set_ok h.hist h.last.val (mutt_str_strdup s) hlast.1
      (by have := hlast.2; omega)
    refine ⟨put_history g hclass ⟨h.hist.set h.last.val.toNat (mutt_str_strdup s), h.cur, h.last⟩,
      [], ⟨h.hist.set h.last.val.toNat (mutt_str_strdup s), h.cur, h.last⟩, ?_,
      ⟨get_put_same _ hc, hN1, ?_⟩, rfl, Or.inl ⟨hcur, hlast⟩, ?_⟩
    · simp only [run_call, mutt_history_save_scratch, hg, hN0, if_false, hset, Res.ok_bind,
        Res.pure_eq]
    · simp only [List.length_set]; exact hlen
    · intro s' save' he
      cases he
  | reset =>
    refine ⟨_, [], ⟨h.hist, h.last, h.last⟩, ?_, ⟨get_put_same _ hc, hN1, hlen⟩, rfl,
      Or.inl ⟨hlast, hlast⟩, ?_⟩
    · simp only [run_call, mutt_reset_history_state, hg, hN0, if_false]
    · intro s' save' he
      cases he
  | prev =>
    obtain ⟨j, _, hj, hjv, hprev⟩ := prev_eq_first_met g hclass h fuel hs' hcur hlast hfuel
    refine ⟨put_history g hclass ⟨h.hist, Short.ofInt j, h.last⟩,
      [NONULL (h.hist.getD j.toNat none)], ⟨h.hist, Short.ofInt j, h.last⟩, ?_,
      ⟨get_put_same _ hc, hN1, hlen⟩, rfl, Or.inl ⟨by simp only [hjv]; exact hj, hlast⟩, ?_⟩
    · simp only [run_call, hprev]
    · intro s' save' he
      cases he
  | next =>
    obtain ⟨j, _, hj, hjv, hnext⟩ := next_eq_first_met g hclass h fuel hs' hcur hlast hfuel
    refine ⟨put_history g hclass ⟨h.hist, Short.ofInt j, h.last⟩,
      [NONULL (h.hist.getD j.toNat none)], ⟨h.hist, Short.ofInt j, h.last⟩, ?_,
      ⟨get_put_same _ hc, hN1, hlen⟩, rfl, Or.inl ⟨by simp only [hjv]; exact hj, hlast⟩, ?_⟩
    · simp only [run_call, hnext]
    · intro s' save' he
      cases he

theorem index_safety_witness :
    ∃ g' out h', run_call 32768 (overflow_example false) 0 (Call.add "x" false) = .ok (g', out) ∧
      RingSlots g' 0 h' ∧ h'.cur.val = -32768 ∧ h'.last.val = -32768 := by
  obtain ⟨g', out, h', hrun, hs, _, _, hov⟩ := index_safety 32768 (overflow_example false) 0
    { hist := overflow_hist, cur := Short.ofInt 32767, last := Short.ofInt 32767 }
    (Call.add "x" false) (overflow_ring false).1 (overflow_ring false).2.1
    (overflow_ring false).2.1 (overflow_ring false).2.2 (by decide)
  have hv := hov "x" false rfl rfl (by decide) (by decide) (by decide)
    (by
      have h := overflow_hist_getD 32766 (by decide)
      have hp : (prev_index (overflow_example false)
          { hist := overflow_hist, cur := Short.ofInt 32767,
            last := Short.ofInt 32767 }).toNat = 32766 := by decide
      rw [hp, h]
      decide)
  exact ⟨g', out, h', hrun, hs, hv.1, hv.2⟩

/-! ## Dedup keeps the live entries distinct -/

theorem reduceOption_filter_keeps (s : String) : ∀ (l : List (Option String)),
    (l.filter (keeps s)).reduceOption = l.reduceOption.filter (fun t => decide (t ≠ s))
  | [] => rfl
  | none :: l => by
    have ih := reduceOption_filter_keeps s l
    rw [List.filter_cons]
    split
    · rw [List.reduceOption_cons_of_none, List.reduceOption_cons_of_none, ih]
    · rw [List.reduceOption_cons_of_none, ih]
  | some t :: l => by
    have ih := reduceOption_filter_keeps s l
    rw [List.filter_cons, keeps_some, List.reduceOption_cons_of_some, List.filter_cons]
    by_cases ht : t = s
    · simp [ht, ih]
    · simp [ht, ih, List.reduceOption_cons_of_some]

theorem reduceOption_replicate_none (n : Nat) :
    (List.replicate n (none : Option String)).reduceOption = [] := by
  induction n with
  | zero => rfl
  | succ n ih => rw [List.replicate_succ, List.reduceOption_cons_of_none, ih]

theorem live_entries_split (h : History) (lo hi : List (Option String)) (x : Option String)
    (hh : h.hist = lo ++ x :: hi) (hl : h.last.val = (lo.length : Nat)) :
    live_entries h = (lo ++ hi).reduceOption := by
  unfold live_entries
  rw [if_neg (by omega), hh, hl, Int.toNat_ofNat, List.eraseIdx_append_of_length_le (le_refl _)]
  simp

theorem live_entries_sublist (h : History) :
    (live_entries h).Sublist h.hist.reduceOption := by
  unfold live_entries
  split
  · exact List.Sublist.refl _
  · exact (List.eraseIdx_sublist _ _).filterMap _

theorem add_accepted_live (g : Globals) (hclass : Nat) (h : History) (s : String)
    (save : Bool) (hs : RingSlots g hclass h) (hlast : InRing g h.last.val)
    (hf : histfile_defined g) (hdd : g.OPT_HISTORY_REMOVE_DUPS = true)
    (hacc1 : s ≠ "") (hacc2 : starts_with_space s = false)
    (hacc3 : h.hist.getD (prev_index g h).toNat none ≠ some s)
    (hnd : (live_entries h).Nodup) :
    ∃ g' h', mutt_history_add g hclass s save = .ok g' ∧ get_history g' hclass = some h' ∧
      (live_entries h').Nodup := by
  obtain ⟨g1, h1, hdedup, hs1, hf1, hH1, hl1, hro⟩ := add_dedup_ok g hclass h s hs hlast hf
  obtain ⟨hg1, hN1, hlen1⟩ := hs1
  obtain ⟨g2, hsame, hf2, hadd⟩ := add_after_dedup g g1 hclass h h1 s save hs hlast hacc1 hacc2
    hacc3 hdedup hf1 hg1 hl1.1 (by have := hl1.2; omega)
  have hc2 : hclass < g2.Histories.length := by
    rw [hsame.1]; exact (get_history_some hg1).1
  refine ⟨_, _, hadd, get_put_same _ hc2, ?_⟩
  obtain ⟨lo, hi, x, hh, hl, hlt, _, _⟩ := ring_cases g h hs.2.2 hlast
  obtain ⟨lo1, hi1, x1, hh1, _, hlt1, _, _⟩ := ring_cases g1 h1 hlen1 hl1
  have hro0 : ring_order h = hi ++ lo := ring_order_eq h lo hi x hh hlt
  have hro1 : ring_order h1 = hi1 ++ lo1 := ring_order_eq h1 lo1 hi1 x1 hh1 hlt1
  have hset : h1.hist.set h1.last.val.toNat (some s) = lo1 ++ some s :: hi1 := by
    rw [hh1, hlt1]
    simp
  rw [live_entries_split h lo hi x hh hl, List.reduceOption_append] at hnd
  have hA : ((hi ++ lo).reduceOption).Nodup := by
    rw [List.reduceOption_append]
    exact (List.perm_append_comm.nodup_iff).mp hnd
  have hB : (hi1 ++ lo1).reduceOption
      = ((hi ++ lo).reduceOption).filter (fun t => decide (t ≠ s)) := by
    rw [← hro1, hro, hro0]
    simp only [dedup_order, hdd, if_true]
    rw [List.reduceOption_append, reduceOption_replicate_none, List.nil_append,
      reduceOption_filter_keeps]
  have hC : (s :: (hi1 ++ lo1).reduceOption).Nodup := by
    rw [hB]
    exact List.nodup_cons.mpr ⟨by simp [List.mem_filter], hA.filter _⟩
  have hfull : ((lo1 ++ some s :: hi1).reduceOption).Nodup := by
    rw [List.reduceOption_append, List.reduceOption_cons_of_some]
    rw [List.reduceOption_append] at hC
    refine (List.Perm.nodup_iff ?_).mpr hC
    exact List.perm_middle.trans (List.Perm.cons s List.perm_append_comm)
  refine List.Nodup.sublist (live_entries_sublist _) ?_
  show ((h1.hist.set h1.last.val.toNat (some s)).reduceOption).Nodup
  rw [hset]
  exact hfull

theorem dups_down_not_ok (s : String) (old_last : Int) (hold : old_last < -1) :
    ∀ (fuel : Nat) (source dest : Int) (hist : List (Option String)), -1 ≤ source →
      ∀ r, dups_down s old_last fuel source dest hist ≠ .ok r
  | 0, source, dest, hist, hsrc, r => by
    simp only [dups_down]
    rw [if_pos (by omega)]
    exact fun h => by cases h
  | fuel + 1, source, dest, hist, hsrc, r => by
    simp only [dups_down]
    rw [if_pos (by omega)]
    by_cases hneg : source = -1
    · have : hist_get hist source = .fault := by
        unfold hist_get
        rw [if_neg (by omega)]
      rw [this]
      exact fun h => by cases h
    · cases hist_get hist source with
      | fault => exact fun h => by cases h
      | timeout => exact fun h => by cases h
      | ok e =>
        simp only
        split
        · cases hist_set hist source none with
          | fault => exact fun h => by cases h
          | timeout => exact fun h => by cases h
          | ok hist1 => exact dups_down_not_ok s old_last hold fuel _ _ _ (by omega) r
        · cases hist_set hist dest e with
          | fault => exact fun h => by cases h
          | timeout => exact fun h => by cases h
          | ok hist1 => exact dups_down_not_ok s old_last hold fuel _ _ _ (by omega) r

theorem remove_dups_ring_out (g : Globals) (h : History) (s : String)
    (hN : 1 ≤ g.History.val) (hl : h.last.val < -1) :
    ∀ r, remove_dups_ring g h s ≠ .ok r := by
  intro r hr
  unfold remove_dups_ring at hr
  simp only [Bind.bind, Res.bind] at hr
  split at hr
  · split at hr
    · split at hr
      · split at hr
        · split at hr
          · rename_i y heq
            exact dups_down_not_ok s h.last.val hl _ _ _ _ (by omega) y heq
          · cases hr
          · cases hr
        · cases hr
        · cases hr
      · cases hr
      · cases hr
    · cases hr
    · cases hr
  · cases hr
  · cases hr

theorem add_out_of_ring_dedup (g g' : Globals) (hclass : Nat) (h : History) (s : String)
    (save : Bool) (hs : RingSlots g hclass h) (hl : h.last.val < -1)
    (hdd : g.OPT_HISTORY_REMOVE_DUPS = true)
    (hadd : mutt_history_add g hclass s save = .ok g') :
    g' = put_history g hclass { h with cur := h.last } := by
  obtain ⟨hg, hN, hlen⟩ := hs
  have hN0 : g.History.val ≠ 0 := by omega
  unfold mutt_history_add at hadd
  simp only [hg] at hadd
  rw [if_neg hN0] at hadd
  split at hadd
  · cases hadd; rfl
  · split at hadd
    · cases hadd; rfl
    · split at hadd
      · cases hadd
      · cases hadd
      · split at hadd
        · exfalso
          have hd : ∀ g1, add_dedup g hclass s ≠ .ok g1 := by
            intro g1 hd
            simp only [add_dedup, hdd, if_true, remove_history_dups, hg, hN0, if_false] at hd
            cases hr : remove_dups_ring g h s with
            | ok r => exact remove_dups_ring_out g h s hN hl r hr
            | fault => simp [hr, Bind.bind, Res.bind] at hd
            | timeout => simp [hr, Bind.bind, Res.bind] at hd
          cases hx : add_dedup g hclass s with
          | ok g1 => exact hd g1 hx
          | fault => simp [hx] at hadd
          | timeout => simp [hx] at hadd
        · cases hadd; rfl

theorem live_entries_cur (h : History) (c : Short) :
    live_entries { h with cur := c } = live_entries h := rfl

theorem distinct_step (g g' : Globals) (c : Nat) (s : String) (save : Bool)
    (hinv : distinct_state g c) (hadd : mutt_history_add g c s save = .ok g') :
    distinct_state g' c := by
  obtain ⟨h, hs, hf, hdd, hnd, hl⟩ := hinv
  have hs' := hs
  obtain ⟨hg, hN, hlen⟩ := hs
  have hc : c < g.Histories.length := (get_history_some hg).1
  have hreset : distinct_state (put_history g c { h with cur := h.last }) c :=
    ⟨{ h with cur := h.last }, ⟨get_put_same _ hc, hN, hlen⟩, histfile_defined_put hf _ _, hdd,
      hnd, hl⟩
  rcases hl with hl | hl
  · by_cases hrej : s = "" ∨ starts_with_space s = true ∨
        h.hist.getD (prev_index g h).toNat none = some s
    · rw [add_rejected_eq g c h s save hs' hl hrej] at hadd
      cases hadd
      exact hreset
    · simp only [not_or, Bool.not_eq_true] at hrej
      obtain ⟨g1, h1, hadd1, hs1, hf1, hH1, hO1, _, hin, _⟩ := add_accepted_in_ring g c h s
        save hs' hl hf hrej.1 hrej.2.1 hrej.2.2
      obtain ⟨g2, h2, hadd2, hg2, hnd2⟩ := add_accepted_live g c h s save hs' hl hf hdd
        hrej.1 hrej.2.1 hrej.2.2 hnd
      rw [hadd] at hadd1 hadd2
      cases hadd1
      cases hadd2
      have hh : h2 = h1 := (Option.some.inj (hg2.symm.trans hs1.1))
      subst hh
      refine ⟨h2, hs1, hf1, hO1.trans hdd, hnd2, ?_⟩
      rcases hin with hin | ⟨_, hv⟩
      · left
        unfold InRing at hin ⊢
        rw [hH1]; exact hin
      · right
        rw [hv]; decide
  · have := add_out_of_ring_dedup g g' c h s save hs' hl hdd hadd
    subst this
    exact hreset

theorem distinct_all (c : Nat) : ∀ (calls : List (String × Bool)) (g g' : Globals),
    distinct_state g c → add_all c calls g = .ok g' → distinct_state g' c
  | [], g, g', hinv, hrun => by
    cases hrun
    exact hinv
  | e :: rest, g, g', hinv, hrun => by
    simp only [add_all] at hrun
    cases hadd : mutt_history_add g c e.1 e.2 with
    | fault => simp [hadd] at hrun
    | timeout => simp [hadd] at hrun
    | ok g1 =>
      simp only [hadd] at hrun
      exact distinct_all c rest g1 g' (distinct_step g g1 c e.1 e.2 hinv hadd) hrun

theorem add_in_ring (g : Globals) (c : Nat) (h : History) (s : String) (save : Bool)
    (hs : RingSlots g c h) (hlast : InRing g h.last.val) (hf : histfile_defined g)
    (hN : g.History.val ≤ 32766) :
    ∃ g' h', mutt_history_add g c s save = .ok g' ∧ RingSlots g' c h' ∧
      InRing g' h'.last.val ∧ histfile_defined g' ∧ g'.History = g.History := by
  have hs' := hs
  obtain ⟨hg, hN1, hlen⟩ := hs
  have hc : c < g.Histories.length := (get_history_some hg).1
  by_cases hrej : s = "" ∨ starts_with_space s = true ∨
      h.hist.getD (prev_index g h).toNat none = some s
  · exact ⟨_, { h with cur := h.last }, add_rejected_eq g c h s save hs' hlast hrej,
      ⟨get_put_same _ hc, hN1, hlen⟩, hlast, histfile_defined_put hf _ _, rfl⟩
  · simp only [not_or, Bool.not_eq_true] at hrej
    obtain ⟨g1, h1, hadd1, hs1, hf1, hH1, _, _, hin, _⟩ := add_accepted_in_ring g c h s
      save hs' hlast hf hrej.1 hrej.2.1 hrej.2.2
    refine ⟨g1, h1, hadd1, hs1, ?_, hf1, hH1⟩
    rcases hin with hin | ⟨h32, _⟩
    · unfold InRing at hin ⊢
      rw [hH1]; exact hin
    · omega

theorem add_all_returns (c : Nat) : ∀ (calls : List (String × Bool)) (g : Globals)
    (h : History), RingSlots g c h → InRing g h.last.val → histfile_defined g →
    g.History.val ≤ 32766 → ∃ g', add_all c calls g = .ok g'
  | [], g, _, _, _, _, _ => ⟨g, rfl⟩
  | e :: rest, g, h, hs, hlast, hf, hN => by
    obtain ⟨g1, h1, hadd, hs1, hl1, hf1, hH1⟩ := add_in_ring g c h e.1 e.2 hs hlast hf hN
    obtain ⟨g', hrun⟩ := add_all_returns c rest g1 h1 hs1 hl1 hf1 (by rw [hH1]; exact hN)
    exact ⟨g', by simp only [add_all, hadd]; exact hrun⟩

/-- C21. With dedup enabled, in every state of a ring with its `N + 1` slots and
`last` in `0..N` (and a history file that can be read back) whose live entries,
the non-empty slots other than `slots[last]`, are pairwise distinct:
`mutt_history_add` returns, whatever the text, and the live entries are
pairwise distinct afterwards; so they are after every sequence of
`mutt_history_add` calls that returns, and for a capacity up to 32766 every
sequence returns. A fresh ring is such a state: filled from empty, it never
holds a text twice in its live history. -/
theorem dedup_keeps_distinct (g : Globals) (c : Nat) (h : History)
    (hs : RingSlots g c h) (hlast : InRing g h.last.val) (hf : histfile_defined g)
    (hdd : g.OPT_HISTORY_REMOVE_DUPS = true) (hnd : (live_entries h).Nodup) :
    (∀ s save, ∃ g' h', mutt_history_add g c s save = .ok g' ∧
        get_history g' c = some h' ∧ (live_entries h').Nodup) ∧
      (∀ calls g', add_all c calls g = .ok g' →
        ∃ h', get_history g' c = some h' ∧ (live_entries h').Nodup) ∧
      (g.History.val ≤ 32766 → ∀ calls, ∃ g', add_all c calls g = .ok g') := by
  have hinv : distinct_state g c := ⟨h, hs, hf, hdd, hnd, Or.inl hlast⟩
  refine ⟨?_, ?_, ?_⟩
  · intro s save
    have hc : c < g.Histories.length := (get_history_some hs.1).1
    by_cases hrej : s = "" ∨ starts_with_space s = true ∨
        h.hist.getD (prev_index g h).toNat none = some s
    · exact ⟨_, { h with cur := h.last }, add_rejected_eq g c h s save hs hlast hrej,
        get_put_same _ hc, hnd⟩
    · simp only [not_or, Bool.not_eq_true] at hrej
      exact add_accepted_live g c h s save hs hlast hf hdd hrej.1 hrej.2.1 hrej.2.2 hnd
  · intro calls g' hrun
    obtain ⟨h', hs', _, _, hnd', _⟩ := distinct_all c calls g g' hinv hrun
    exact ⟨h', hs'.1, hnd'⟩
  · intro hN calls
    exact add_all_returns c calls g h hs hlast hf hN

theorem dedup_keeps_distinct_witness :
    (∀ s save, ∃ g' h', mutt_history_add fresh_dedup_example 0 s save = .ok g' ∧
        get_history g' 0 = some h' ∧ (live_entries h').Nodup) ∧
      (∀ calls g', add_all 0 calls fresh_dedup_example = .ok g' →
        ∃ h', get_history g' 0 = some h' ∧ (live_entries h').Nodup) ∧
      (fresh_dedup_example.History.val ≤ 32766 →
        ∀ calls, ∃ g', add_all 0 calls fresh_dedup_example = .ok g') :=
  dedup_keeps_distinct fresh_dedup_example 0
    { hist := [none, none, none], cur := Short.ofInt 0, last := Short.ofInt 0 }
    ⟨by decide, by decide, by decide⟩ ⟨by decide, by decide⟩
    (by intro file hfile; cases hfile) (by decide) (by decide)

/-- The calls for `a`, `b`, `a`, `c`, `b` into the fresh ring of capacity 2 with
dedup enabled: the slots end as `b`, `a`, `c` with `last = 1`, and the live
entries are `b` and `c`. -/
theorem dedup_keeps_distinct_example :
    (add_all 0 [("a", false), ("b", false), ("a", false), ("c", false), ("b", false)]
        fresh_dedup_example).bind
      (fun g' => .ok ((get_history g' 0).map (fun h' => (h'.hist, h'.last.val, live_entries h'))))
      = .ok (some ([some "b", some "a", some "c"], 1, ["b", "c"])) := by
  decide

/-! ## Compaction run twice -/

theorem survivors_sublist (g : Globals) : ∀ (ls : List String), (survivors g ls).Sublist ls
  | [] => List.Sublist.refl _
  | l :: rest => by
    have ih := survivors_sublist g rest
    simp only [survivors]
    split
    · exact ih.cons l
    · split
      · exact ih.cons l
      · exact ih.cons₂ l

theorem counted_le_class_lines (g : Globals) (c : Nat) (ls : List String) :
    counted g c ls ≤ (class_lines g c ls).length :=
  ((survivors_sublist g ls).filter _).length_le

theorem compact_tail (g : Globals) (l : String) (rest : List String)
    (h : compact g (l :: rest)) : compact g rest := by
  obtain ⟨h1, h2, h3⟩ := h
  refine ⟨fun x hx => h1 x (List.mem_cons_of_mem _ hx), ?_, ?_⟩
  · intro hdd
    have := h2 hdd
    simp only [entries, List.filterMap_cons] at this ⊢
    split at this
    · exact this
    · exact (List.nodup_cons.mp this).2
  · intro c
    have := h3 c
    have hle : (class_lines g c rest).length ≤ (class_lines g c (l :: rest)).length :=
      ((List.sublist_cons_self l rest).filter _).length_le
    omega

theorem shrunk_of_compact (g : Globals) : ∀ (ls : List String), compact g ls →
    shrunk g ls = ls
  | [], _ => rfl
  | l :: rest, h => by
    have ih := shrunk_of_compact g rest (compact_tail g l rest h)
    obtain ⟨h1, h2, h3⟩ := h
    have hsome := h1 l (List.mem_cons_self _ _)
    cases hent : entry g l with
    | none => rw [hent] at hsome; cases hsome
    | some e =>
      have hld : later_dup g e rest = false := by
        by_cases hdd : g.OPT_HISTORY_REMOVE_DUPS = true
        · have := h2 hdd
          simp only [entries, List.filterMap_cons, hent] at this
          have hnot := (List.nodup_cons.mp this).1
          simp [later_dup, entries, hnot]
        · simp [later_dup, hdd]
      have hcnt : ((counted g e.1 (l :: rest) : Nat) : Int) ≤ g.SaveHistory.val := by
        have := h3 e.1
        have := counted_le_class_lines g e.1 (l :: rest)
        omega
      simp only [shrunk, hent, hld, Bool.false_eq_true, if_false, if_pos hcnt, ih]

theorem shrunk_recognised (g : Globals) : ∀ (ls : List String),
    ∀ l ∈ shrunk g ls, (entry g l).isSome = true
  | [], l, hl => by simp [shrunk] at hl
  | x :: rest, l, hl => by
    have ih := shrunk_recognised g rest l
    simp only [shrunk] at hl
    split at hl
    · exact ih hl
    · rename_i e hent
      split at hl
      · exact ih hl
      · split at hl
        · rcases List.mem_cons.mp hl with h | h
          · rw [h, hent]; rfl
          · exact ih h
        · exact ih hl

theorem shrunk_entries_nodup (g : Globals) (hdd : g.OPT_HISTORY_REMOVE_DUPS = true) :
    ∀ (ls : List String), (entries g (shrunk g ls)).Nodup
  | [] => by simp [shrunk, entries]
  | x :: rest => by
    have ih := shrunk_entries_nodup g hdd rest
    simp only [shrunk]
    split
    · exact ih
    · rename_i e hent
      split
      · exact ih
      · rename_i hld
        split
        · simp only [entries, List.filterMap_cons, hent]
          refine List.nodup_cons.mpr ⟨?_, ih⟩
          intro hmem
          apply hld
          have hsub : (entries g (shrunk g rest)).Sublist (entries g rest) :=
            (shrunk_sublist g rest).filterMap _
          simp only [later_dup, hdd, Bool.true_and, decide_eq_true_eq]
          exact hsub.subset hmem
        · exact ih

theorem shrunk_compact (g : Globals) (hS : 0 ≤ g.SaveHistory.val) (ls : List String) :
    compact g (shrunk g ls) := by
  refine ⟨shrunk_recognised g ls, fun hdd => shrunk_entries_nodup g hdd ls, ?_⟩
  intro c
  rw [class_lines_shrunk g c ls]
  unfold most_recent
  rw [List.length_drop]
  omega

theorem shrunk_idem (g : Globals) (ls : List String) :
    shrunk g (shrunk g ls) = shrunk g ls := by
  by_cases hS : g.SaveHistory.val < 0
  · rw [shrunk_of_neg g hS ls, shrunk_of_neg g hS []]
  · exact shrunk_of_compact g _ (shrunk_compact g (by omega) ls)

theorem shrunk_congr (g g' : Globals) (h1 : HC_LAST g' = HC_LAST g)
    (h2 : g'.OPT_HISTORY_REMOVE_DUPS = g.OPT_HISTORY_REMOVE_DUPS)
    (h3 : g'.SaveHistory = g.SaveHistory) :
    ∀ (ls : List String), shrunk g' ls = shrunk g ls
  | [] => rfl
  | l :: rest => by
    simp only [shrunk, entry_HC g g' h1, later_dup_congr g g' h1 h2,
      counted_congr g g' h1 h2, h3, shrunk_congr g g' h1 h2 h3 rest]

/-- On a file of well-formed lines (temporary file and history file writable)
compaction is idempotent: `shrink_histfile` returns, and run again on the state
it has left it returns that same state. -/
theorem shrink_idempotent (g : Globals) (file : List String)
    (hfile : g.HistoryFile = some file) (hwf : well_formed_file file)
    (hm : g.can_mktemp = true) (hw : g.can_write = true) :
    ∃ g1, shrink_histfile g = .ok g1 ∧ shrink_histfile g1 = .ok g1 := by
  have hrun := shrink_histfile_spec g file hfile hwf hm hw
  by_cases hr : needs_rewrite g file = true
  · rw [if_pos hr] at hrun
    refine ⟨_, hrun, ?_⟩
    have hwf1 : well_formed_file (shrunk g file) :=
      fun l hl => hwf l ((shrunk_sublist g file).subset hl)
    rw [shrink_histfile_spec { g with HistoryFile := some (shrunk g file) } (shrunk g file) rfl
      hwf1 hm hw]
    rw [shrunk_congr g { g with HistoryFile := some (shrunk g file) } rfl rfl rfl, shrunk_idem]
    split <;> rfl
  · rw [if_neg hr] at hrun
    exact ⟨g, hrun, hrun⟩

theorem shrink_idempotent_witness :
    ∃ g1, shrink_histfile compact_example = .ok g1 ∧ shrink_histfile g1 = .ok g1 :=
  shrink_idempotent compact_example ["0:a|", "1:a|", "0:b|", "7:z|", "0:a|", "0:c|", "0:d|"] rfl
    (by unfold well_formed_file; decide) rfl rfl

/-- C22 fails on a file with a line that lacks the `:`. With one class, dedup
enabled and `SaveHistory = 10`, the file `0:bc|`, `00:q|`, `0abc|`, `00:q|` is
compacted to `0:bc|`, `0abc|`, `00:q|`: the third line is taken with the `read`
left by the second one, which gives it the text `c`, and the second line is
dropped as a duplicate. Compacting the result drops the line `0:bc|`: the line
`0abc|` is now taken with the `read` left by `0:bc|`, which gives it the text
`bc`. -/
theorem shrink_twice_stale_read :
    shrink_histfile twice_example
        = .ok { twice_example with HistoryFile := some ["0:bc|", "0abc|", "00:q|"] } ∧
      shrink_histfile { twice_example with HistoryFile := some ["0:bc|", "0abc|", "00:q|"] }
        = .ok { twice_example with HistoryFile := some ["0abc|", "00:q|"] } := by
  decide

/-! ## Termination of the walks -/

/-- C24. For every capacity `N ≥ 1`, every slot array of `N + 1` slots and
every `cur` and `last` in `0..N`, the do-while loops of `mutt_history_prev` and
`mutt_history_next` leave after at most `N + 1` turns, whatever the slots hold:
with fuel for `N + 1` turns (or more) each walk returns, and the index it
returns is one of `0..N`. -/
theorem walks_terminate (g : Globals) (h : History) (fuel : Nat) (hN : 1 ≤ g.History.val)
    (hlen : (h.hist.length : Int) = g.History.val + 1)
    (hcur : InRing g h.cur.val) (hlast : InRing g h.last.val)
    (hfuel : (g.History.val + 1).toNat ≤ fuel) :
    (∃ j, prev_walk g h fuel h.cur.val = .ok j ∧ InRing g j) ∧
      (∃ j, next_walk g h fuel h.cur.val = .ok j ∧ InRing g j) := by
  constructor
  · obtain ⟨j, hj, hmem⟩ := find_stops_of_last_mem h _
      (last_mem_down_seq g h.cur.val h.last.val hcur hlast)
    exact ⟨j, prev_walk_find g h hN hlen _ h.cur.val fuel j hcur hfuel hj,
      seq_inRing_down g _ _ hN j hmem⟩
  · obtain ⟨j, hj, hmem⟩ := find_stops_of_last_mem h _
      (last_mem_up_seq g h.cur.val h.last.val hcur hlast)
    exact ⟨j, next_walk_find g h hN hlen _ h.cur.val fuel j hcur hfuel hj,
      seq_inRing_up g _ _ hN j hmem⟩

theorem walks_terminate_witness :
    (1 ≤ (ring_registry empty_ring_example).History.val ∧
      ((empty_ring_example.hist.length : Nat) : Int)
        = (ring_registry empty_ring_example).History.val + 1 ∧
      InRing (ring_registry empty_ring_example) empty_ring_example.cur.val ∧
      InRing (ring_registry empty_ring_example) empty_ring_example.last.val ∧
      ((ring_registry empty_ring_example).History.val + 1).toNat ≤ 4) ∧
    ((∃ j, prev_walk (ring_registry empty_ring_example) empty_ring_example 4
          empty_ring_example.cur.val = .ok j ∧ InRing (ring_registry empty_ring_example) j) ∧
      (∃ j, next_walk (ring_registry empty_ring_example) empty_ring_example 4
          empty_ring_example.cur.val = .ok j ∧ InRing (ring_registry empty_ring_example) j)) :=
  ⟨⟨by decide, by decide, ⟨by decide, by decide⟩, ⟨by decide, by decide⟩, by decide⟩,
    walks_terminate (ring_registry empty_ring_example) empty_ring_example 4 (by decide)
      (by decide) ⟨by decide, by decide⟩ ⟨by decide, by decide⟩ (by decide)⟩

/-- The bound `N + 1` is reached: on the empty ring of capacity 3 with
`cur = last` the walks take 4 turns, and 3 turns do not end them; on the ring
whose slots all hold an entry one turn ends them. -/
theorem walks_bound_reached :
    prev_walk (ring_registry empty_ring_example) empty_ring_example 3 0 = .timeout ∧
      next_walk (ring_registry empty_ring_example) empty_ring_example 3 0 = .timeout ∧
      prev_walk (ring_registry empty_ring_example) empty_ring_example 4 0 = .ok 0 ∧
      next_walk (ring_registry empty_ring_example) empty_ring_example 4 0 = .ok 0 ∧
      prev_walk (ring_registry full_ring_example) full_ring_example 1 1 = .ok 0 ∧
      next_walk (ring_registry full_ring_example) full_ring_example 1 1 = .ok 2 := by
  decide

end NeoHistory
